import Mathlib

/-!
# mini-file-system: a shallow embedding of `fat.cpp` and `fat_file.cpp`

The C++ program keeps a `FAT_FILESYSTEM` whose `files` vector holds pointers to
heap-allocated `FAT_FILE` objects, each of which holds pointers to heap-allocated
`FAT_OPEN_FILE` handles.  The embedding makes the heap explicit:

* `file_heap` lists every `FAT_FILE` that was ever registered; a `FAT_FILE *` is
  an index into it.  The program never frees a `FAT_FILE`, so an index stays
  valid for ever.
* `handle_heap` lists every `FAT_OPEN_FILE` ever returned by `mini_file_open`;
  a `FAT_OPEN_FILE *` is an index into it.  Handles are never freed either.
* `disk` is the content of the backing file, one `Nat` per byte.

`int` values are integers (`Int`).  The one `int` that a run of calls can push
past the 32-bit range, the size of a file under `file->size += size`, is
reduced into that range by `wrap32`, as the two's complement addition of the
compiled program does.  The sums that `mini_file_seek` compares with the size
are left as they are: `seek_sum_wrap32` shows that reducing them makes no
difference to the comparison.  An operation returns `none`
where the C++ program has no defined result: a dereference of a pointer that
was never allocated, an index outside a vector, a failed `assert`, a division
by zero, or a `printf` conversion without its argument.
-/

namespace MiniFat

/-- A C string without its terminating NUL, one `Nat` per byte. -/
abbrev CString := List Nat

/-- Modelled from the spec: `fat.h` is not among the sources; the spec gives the
block kind tags Empty=0, Metadata=1, FileEntry=2, FileData=3. -/
def EMPTY_BLOCK : Nat := 0

/-- Modelled from the spec: tag of block 0 (see `EMPTY_BLOCK`). -/
def METADATA_BLOCK : Nat := 1

/-- Modelled from the spec: tag of a file's metadata block (see `EMPTY_BLOCK`). -/
def FILE_ENTRY_BLOCK : Nat := 2

/-- Modelled from the spec: tag of a file's data block (see `EMPTY_BLOCK`). -/
def FILE_DATA_BLOCK : Nat := 3

/-- The struct behind `FAT_OPEN_FILE *`: the fields `mini_file_open` assigns. -/
structure FAT_OPEN_FILE where
  file : Nat
  position : Int
  is_write : Bool
deriving DecidableEq

/-- The struct behind `FAT_FILE *`: the fields used by `fat_file.cpp`. -/
structure FAT_FILE where
  name : CString
  size : Int
  metadata_block_id : Int
  block_ids : List Int
  open_handles : List Nat
deriving DecidableEq

/-- The struct `FAT_FILESYSTEM` without its `filename` (there is one disk). -/
structure FAT_FILESYSTEM where
  block_size : Int
  block_count : Int
  block_map : List Nat
  files : List Nat
deriving DecidableEq

/-- The filesystem together with the objects it points to and its backing file. -/
structure World where
  fs : FAT_FILESYSTEM
  file_heap : List FAT_FILE
  handle_heap : List FAT_OPEN_FILE
  disk : List Nat
deriving DecidableEq

/-! ## fat.cpp: the block allocator -/

/-- The loop of `mini_fat_find_empty_block`: `fuel` iterations are left and the
loop variable is `i`.  Reading `block_map[i]` outside the vector is undefined. -/
def find_empty_loop (block_map : List Nat) : Nat → Nat → Option Int
  | 0, _ => some (-1)
  | fuel + 1, i =>
    match block_map[i]? with
    | none => none
    | some tag => if tag = 0 then some (Int.ofNat i) else find_empty_loop block_map fuel (i + 1)

/-- `mini_fat_find_empty_block`: `for (i = 0; i < block_count; i++)`, first `i`
with `block_map[i] == 0`, or `-1`. -/
def mini_fat_find_empty_block (fat : FAT_FILESYSTEM) : Option Int :=
  find_empty_loop fat.block_map fat.block_count.toNat 0

/-- `mini_fat_allocate_new_block`: the first empty block gets `block_type`. -/
def mini_fat_allocate_new_block (w : World) (block_type : Nat) : Option (World × Int) :=
  match mini_fat_find_empty_block w.fs with
  | none => none
  | some new_block_index =>
    if new_block_index = -1 then some (w, -1)
    else
      some ({ w with fs := { w.fs with
                block_map := w.fs.block_map.set new_block_index.toNat block_type } },
            new_block_index)

/-- `mini_fat_create_internal`: `block_map.resize(block_count, EMPTY_BLOCK)` then
`block_map[0] = METADATA_BLOCK`.  A negative count makes `resize` throw and a
count of zero makes the store to `block_map[0]` undefined. -/
def mini_fat_create_internal (block_size block_count : Int) : Option FAT_FILESYSTEM :=
  if block_count < 1 then none
  else some { block_size := block_size
              block_count := block_count
              block_map := (List.replicate block_count.toNat EMPTY_BLOCK).set 0 METADATA_BLOCK
              files := [] }

/-- `mini_fat_create`: the filesystem of `mini_fat_create_internal` and a backing
file made by `fopen "w"`, `fseek(disk_size)`, `fputc 0`: `disk_size + 1` zero
bytes (a failed `fseek` to a negative offset leaves the single byte). -/
def mini_fat_create (block_size block_count : Int) : Option World :=
  match mini_fat_create_internal block_size block_count with
  | none => none
  | some fat =>
    some { fs := fat
           file_heap := []
           handle_heap := []
           disk := List.replicate ((block_size * block_count).toNat + 1) 0 }

/-! ## fat_file.cpp: the file table -/

/-- The loop of `mini_file_find` over `fs->files`: the first pointer whose file
has the name, or `NULL` (inner `none`). -/
def find_loop (heap : List FAT_FILE) (filename : CString) : List Nat → Option (Option Nat)
  | [] => some none
  | p :: ps =>
    match heap[p]? with
    | none => none
    | some f => if f.name = filename then some (some p) else find_loop heap filename ps

/-- `mini_file_find`. -/
def mini_file_find (w : World) (filename : CString) : Option (Option Nat) :=
  find_loop w.file_heap filename w.fs.files

/-- `mini_file_create`: a new `FAT_FILE` with the name and `size = 0`; its two
vectors start empty.  The source leaves `metadata_block_id` unassigned (it is 0
here); both callers assign it before anything reads it. -/
def mini_file_create (filename : CString) : FAT_FILE :=
  { name := filename
    size := 0
    metadata_block_id := 0
    block_ids := []
    open_handles := [] }

/-- `mini_file_create_file`, with the missing constant `MAX_FILENAME_LENGTH` of
`fat.h` as a parameter.  The `assert` aborts on a long name (`none`).  On a full
filesystem the result is `NULL`; the `FAT_FILE` built before the allocation is
then leaked by the source, unreachable from `fs`, and is not entered in
`file_heap`. -/
def mini_file_create_file (MAX_FILENAME_LENGTH : Nat) (w : World) (filename : CString) :
    Option (World × Option Nat) :=
  if ¬ filename.length < MAX_FILENAME_LENGTH then none
  else
    match mini_fat_allocate_new_block w FILE_ENTRY_BLOCK with
    | none => none
    | some (w1, new_block_index) =>
      if new_block_index = -1 then some (w1, none)
      else
        let fd := w1.file_heap.length
        some ({ w1 with
                fs := { w1.fs with files := w1.fs.files ++ [fd] }
                file_heap := w1.file_heap ++
                  [{ mini_file_create filename with
                     metadata_block_id := new_block_index
                     block_ids := (mini_file_create filename).block_ids ++ [new_block_index] }] },
              some fd)

/-! ## fat_file.cpp: handles -/

/-- The loop of `mini_file_open` over `fd->open_handles`: is some handle a
write handle? -/
def has_write_handle (heap : List FAT_OPEN_FILE) : List Nat → Option Bool
  | [] => some false
  | h :: hs =>
    match heap[h]? with
    | none => none
    | some o => if o.is_write then some true else has_write_handle heap hs

/-- The second half of `mini_file_open`, once `fd` is known: the write-handle
check, then the new handle at position 0, pushed on `fd->open_handles`. -/
def open_on (w : World) (fd : Nat) (is_write : Bool) : Option (World × Option Nat) :=
  match w.file_heap[fd]? with
  | none => none
  | some f =>
    match (if is_write then has_write_handle w.handle_heap f.open_handles else some false) with
    | none => none
    | some true => some (w, none)
    | some false =>
      let open_file := w.handle_heap.length
      some ({ w with
              handle_heap := w.handle_heap ++ [{ file := fd, position := 0, is_write := is_write }]
              file_heap := w.file_heap.set fd { f with open_handles := f.open_handles ++ [open_file] } },
            some open_file)

/-- `mini_file_open`. -/
def mini_file_open (MAX_FILENAME_LENGTH : Nat) (w : World) (filename : CString) (is_write : Bool) :
    Option (World × Option Nat) :=
  match mini_file_find w filename with
  | none => none
  | some (some fd) => open_on w fd is_write
  | some none =>
    if ¬ is_write then some (w, none)
    else
      match mini_file_create_file MAX_FILENAME_LENGTH w filename with
      | none => none
      | some (w1, none) => some (w1, none)
      | some (w1, some fd) => open_on w1 fd is_write

/-- `mini_file_close`; `open_file = none` is the `NULL` handle.
`vector_delete_value` erases the first occurrence of the pointer. -/
def mini_file_close (w : World) (open_file : Option Nat) : Option (World × Bool) :=
  match open_file with
  | none => some (w, false)
  | some h =>
    match w.handle_heap[h]? with
    | none => none
    | some o =>
      match w.file_heap[o.file]? with
      | none => none
      | some f =>
        if h ∈ f.open_handles then
          some ({ w with file_heap :=
                    w.file_heap.set o.file { f with open_handles := f.open_handles.erase h } },
                true)
        else some (w, false)

/-- `mini_file_seek`: the cursor arithmetic (the `FILE *` it opens is never
written to).  The sum `position + offset` is not reduced to 32 bits: for a
position in `0 .. INT_MAX`, an `int` offset and an `int` size the test has the
same outcome either way (`seek_sum_wrap32`). -/
def mini_file_seek (w : World) (open_file : Nat) (offset : Int) (from_start : Bool) :
    Option (World × Bool) :=
  match w.handle_heap[open_file]? with
  | none => none
  | some o =>
    match w.file_heap[o.file]? with
    | none => none
    | some f =>
      if from_start then
        if 0 + offset ≥ 0 ∧ 0 + offset ≤ f.size then
          some ({ w with handle_heap := w.handle_heap.set open_file { o with position := offset } },
                true)
        else some (w, false)
      else
        if o.position + offset ≥ 0 ∧ o.position + offset ≤ f.size then
          some ({ w with handle_heap :=
                    w.handle_heap.set open_file { o with position := o.position + offset } },
                true)
        else some (w, false)

/-! ## fat_file.cpp: the backing file as seen by `write` and `read` -/

/-- The offset of a freshly opened `FILE *` after `fseek(fd, off, SEEK_SET)`
issued at offset `cur`: a negative `off` makes `fseek` fail and leaves `cur`. -/
def fseek_set (cur : Nat) (off : Int) : Nat :=
  if off < 0 then cur else off.toNat

/-- Writing `bytes` at `offset` of the file: the bytes overwrite what is there,
the file grows when they reach past its end, a gap is filled with zeros. -/
def disk_write (disk : List Nat) (offset : Nat) (bytes : List Nat) : List Nat :=
  if bytes = [] then disk
  else disk.take offset ++ List.replicate (offset - disk.length) 0 ++ bytes
        ++ disk.drop (offset + bytes.length)

/-- What `fprintf(fd, (char *) buffer)` emits: `buffer` is a format string, so
output stops at the first NUL.  `buffer` models the caller's memory from the
pointer on; a `%` (37) starts a conversion, which the embedding does not
interpret, and a buffer without NUL is read past its modelled end. -/
def fprintf_output : List Nat → Option (List Nat)
  | [] => none
  | c :: rest =>
    if c = 0 then some []
    else if c = 37 then none
    else (fprintf_output rest).map (fun out => c :: out)

/-- The largest `int`. -/
def INT_MAX : Int := 2147483647

/-- The smallest `int`. -/
def INT_MIN : Int := -2147483648

/-- The 32-bit two's complement `int` that an integer reduces to: the value in
`INT_MIN .. INT_MAX` that differs from `x` by a multiple of `2^32`. -/
def wrap32 (x : Int) : Int :=
  (x + 2147483648) % 4294967296 - 2147483648

/-- Lines 224-245 of `mini_file_write`: `fseek` to `position`, `fprintf` of the
buffer, `mini_file_seek(size, false)` with its result ignored, then
`file->size += size`, an addition of two `int`s whose result is again an
`int`. -/
def write_tail (w : World) (open_file : Nat) (size : Int) (buffer : List Nat) :
    Option (World × Int) :=
  match w.handle_heap[open_file]? with
  | none => none
  | some o =>
    if w.fs.block_size = 0 then none
    else
      match fprintf_output buffer with
      | none => none
      | some out =>
        let w1 := { w with disk := disk_write w.disk (fseek_set 0 o.position) out }
        match mini_file_seek w1 open_file size false with
        | none => none
        | some (w2, _) =>
          match w2.file_heap[o.file]? with
          | none => none
          | some f =>
            some ({ w2 with file_heap :=
                      w2.file_heap.set o.file { f with size := wrap32 (f.size + size) } },
                  0 + size)

/-- `mini_file_write`.  C++ `%` truncates (`Int.tmod`) and is undefined for a
zero `block_size`; `||` does not evaluate it when the chain has length 1. -/
def mini_file_write (w : World) (open_file : Nat) (size : Int) (buffer : List Nat) :
    Option (World × Int) :=
  match w.handle_heap[open_file]? with
  | none => none
  | some o =>
    if ¬ o.is_write then some (w, 0)
    else
      match w.file_heap[o.file]? with
      | none => none
      | some f =>
        if f.block_ids.length ≠ 1 ∧ w.fs.block_size = 0 then none
        else if f.block_ids.length = 1 ∨
            (o.position.tmod w.fs.block_size = 0 ∧ o.position ≠ 0) then
          match mini_fat_allocate_new_block w FILE_DATA_BLOCK with
          | none => none
          | some (w1, new_block_index) =>
            if new_block_index = -1 then some (w1, 0)
            else
              write_tail
                { w1 with
                  file_heap := w1.file_heap.set o.file
                    { f with block_ids := f.block_ids ++ [new_block_index] }
                  handle_heap := w1.handle_heap.set open_file { o with position := 0 } }
                open_file size buffer
        else write_tail w open_file size buffer

/-- The `size_t` a C++ `int` converts to (64-bit `size_t`). -/
def to_size_t (n : Int) : Nat := (n % 2 ^ 64).toNat

/-- `mini_file_read`: the count it returns and the bytes `fread` stores at the
start of `buffer` (what the file holds from offset `position` on, at most
`readable_size` bytes). -/
def mini_file_read (w : World) (open_file : Nat) (size : Int) :
    Option (World × Int × List Nat) :=
  match w.handle_heap[open_file]? with
  | none => none
  | some o =>
    match w.file_heap[o.file]? with
    | none => none
    | some f =>
      let readable_size := if size > f.size - o.position then f.size - o.position else size
      let buffer := (w.disk.drop (fseek_set 0 o.position)).take (to_size_t readable_size)
      match mini_file_seek w open_file readable_size false with
      | none => none
      | some (w1, _) => some (w1, readable_size, buffer)

/-! ## fat_file.cpp: delete -/

/-- The loop `for (int j : block_ids) fs->block_map[j] = 0`; an id outside the
vector is an undefined store. -/
def free_blocks (block_map : List Nat) : List Int → Option (List Nat)
  | [] => some block_map
  | j :: js =>
    if 0 ≤ j ∧ j.toNat < block_map.length then free_blocks (block_map.set j.toNat 0) js
    else none

/-- The loop of `mini_file_delete`: `i` is the loop variable and the list holds
`fs->files[i], fs->files[i+1], ...`. -/
def delete_loop (w : World) (filename : CString) : Nat → List Nat → Option (World × Bool)
  | _, [] => some (w, false)
  | i, p :: ps =>
    match w.file_heap[p]? with
    | none => none
    | some f =>
      if f.name = filename then
        if f.open_handles.length > 0 then some (w, false)
        else
          match free_blocks w.fs.block_map f.block_ids with
          | none => none
          | some block_map =>
            some ({ w with fs := { w.fs with block_map := block_map
                                             files := w.fs.files.eraseIdx i } },
                  true)
      else delete_loop w filename (i + 1) ps

/-- `mini_file_delete`. -/
def mini_file_delete (w : World) (filename : CString) : Option (World × Bool) :=
  delete_loop w filename 0 w.fs.files

/-! ## fat.cpp: save and load -/

/-- The four bytes of a C++ `int` in memory (32 bits, least significant first). -/
def le32 (x : Int) : List Nat :=
  let v := (x % 2 ^ 32).toNat
  [v % 256, v / 256 % 256, v / 65536 % 256, v / 16777216 % 256]

/-- The `int` whose memory is the given four bytes. -/
def of_le32 (bytes : List Nat) : Int :=
  let v := bytes.getD 0 0 + 256 * bytes.getD 1 0 + 65536 * bytes.getD 2 0
            + 16777216 * bytes.getD 3 0
  if v < 2 ^ 31 then (v : Int) else (v : Int) - 2 ^ 32

/-- An open `FILE *`: the file's content and the stream offset. -/
structure Stream where
  disk : List Nat
  pos : Nat
deriving DecidableEq

/-- `fwrite` of the bytes at the stream offset. -/
def fwrite (s : Stream) (bytes : List Nat) : Stream :=
  { disk := disk_write s.disk s.pos bytes, pos := s.pos + bytes.length }

/-- `fwrite(&x, sizeof(int), 1, fd)`. -/
def fwrite_int (s : Stream) (x : Int) : Stream := fwrite s (le32 x)

/-- `fseek(fd, off, SEEK_SET)`. -/
def fseek (s : Stream) (off : Int) : Stream := { s with pos := fseek_set s.pos off }

/-- Modelled from the spec: `fat.h` is not among the sources; the spec calls the
name field of a record a fixed-width buffer.  These are the
`sizeof(file->name) = MAX_FILENAME_LENGTH` bytes of `char name[MAX_FILENAME_LENGTH]`
after `strcpy`: the name, its NUL, and bytes the source never assigns (0 here). -/
def name_buffer (MAX_FILENAME_LENGTH : Nat) (name : CString) : List Nat :=
  (name ++ List.replicate (MAX_FILENAME_LENGTH - name.length) 0).take MAX_FILENAME_LENGTH

/-- One iteration of the file loop of `mini_fat_save`: the record of `f`. -/
def save_file (MAX_FILENAME_LENGTH : Nat) (size : Int) (s : Stream) (f : FAT_FILE) : Stream :=
  let s1 := fseek s (f.metadata_block_id * size)
  let s2 := fwrite_int s1 f.size
  let s3 := fwrite_int s2 (Int.ofNat f.name.length)
  let s4 := fwrite_int s3 (Int.ofNat f.block_ids.length)
  let s5 := f.block_ids.foldl fwrite_int s4
  fwrite s5 (name_buffer MAX_FILENAME_LENGTH f.name)

/-- The file loop of `mini_fat_save` over `fat->files`. -/
def save_files (MAX_FILENAME_LENGTH : Nat) (heap : List FAT_FILE) (size : Int) :
    Stream → List Nat → Option Stream
  | s, [] => some s
  | s, p :: ps =>
    match heap[p]? with
    | none => none
    | some f => save_files MAX_FILENAME_LENGTH heap size (save_file MAX_FILENAME_LENGTH size s f) ps

/-- `mini_fat_save` (the backing file exists, so `fopen` succeeds): header,
block map as one `int` per entry, then one record per file. -/
def mini_fat_save (MAX_FILENAME_LENGTH : Nat) (w : World) : Option (World × Bool) :=
  let s0 : Stream := { disk := w.disk, pos := 0 }
  let s1 := fwrite_int s0 w.fs.block_count
  let s2 := fwrite_int s1 w.fs.block_size
  let s3 := w.fs.block_map.foldl (fun s tag => fwrite_int s (Int.ofNat tag)) s2
  match save_files MAX_FILENAME_LENGTH w.file_heap w.fs.block_size s3 w.fs.files with
  | none => none
  | some s4 => some ({ w with disk := s4.disk }, true)

/-- The state of `mini_fat_load` while it reads: the stream and the local
variable `read`. -/
structure Loader where
  s : Stream
  read : Int
deriving DecidableEq

/-- `fread(&read, 1, sizeof(int), fd)`: the bytes the file still has replace the
first bytes of `read`; at end of file the rest of `read` keeps its old bytes. -/
def fread_int (l : Loader) : Loader :=
  let got := (l.s.disk.drop l.s.pos).take 4
  { s := { l.s with pos := l.s.pos + got.length }
    read := of_le32 (got ++ (le32 l.read).drop got.length) }

/-- The loop `for (i = 0; i < block_count; i++) { fread; block_map[i] = read; }`
of `mini_fat_load`.  Modelled from the spec: the element type of `block_map` is
declared in `fat.h`; the spec calls the entries 1-byte tags, so the store keeps
`read` modulo 256. -/
def load_block_map : Nat → Nat → Loader → List Nat → Loader × List Nat
  | 0, _, l, block_map => (l, block_map)
  | fuel + 1, i, l, block_map =>
    let l1 := fread_int l
    load_block_map fuel (i + 1) l1 (block_map.set i (l1.read % 256).toNat)

/-- The loop `for (j = 0; j < temp_block_id_count; j++)` of `mini_fat_load`. -/
def load_block_ids : Nat → Loader → List Int → Loader × List Int
  | 0, l, ids => (l, ids)
  | fuel + 1, l, ids =>
    let l1 := fread_int l
    load_block_ids fuel l1 (ids ++ [l1.read])

/-- The body of the file loop of `mini_fat_load` for a block `i` tagged
`FILE_ENTRY_BLOCK`.  It has no defined result when the array
`file_name[file_name_length + 1]` has no positive size, when the file ends
before the name does, when `strcpy` overruns `name[MAX_FILENAME_LENGTH]`, or
when `block_ids_info[0]` does not exist. -/
def load_file (MAX_FILENAME_LENGTH : Nat) (block_size : Int) (i : Nat) (l : Loader) :
    Option (Loader × FAT_FILE) :=
  let l0 := { l with s := fseek l.s (Int.ofNat i * block_size) }
  let l1 := fread_int l0
  let file_size := l1.read
  let l2 := fread_int l1
  let file_name_length := l2.read
  let l3 := fread_int l2
  let temp_block_id_count := l3.read
  let (l4, block_ids_info) := load_block_ids temp_block_id_count.toNat l3 []
  if file_name_length + 1 ≤ 0 then none
  else
    let got := (l4.s.disk.drop l4.s.pos).take (file_name_length + 1).toNat
    if got.length < file_name_length.toNat then none
    else
      let file_name := (got.take file_name_length.toNat).takeWhile (fun c => c ≠ 0)
      if ¬ file_name.length < MAX_FILENAME_LENGTH then none
      else
        match block_ids_info with
        | [] => none
        | first :: _ =>
          some ({ l4 with s := { l4.s with pos := l4.s.pos + got.length } },
                { mini_file_create file_name with
                  size := file_size
                  metadata_block_id := first
                  block_ids := (mini_file_create file_name).block_ids ++ block_ids_info })

/-- The file loop `for (i = 0; i < fat->block_count; i++)` of `mini_fat_load`;
reading `block_map[i]` outside the vector is undefined. -/
def load_files (MAX_FILENAME_LENGTH : Nat) (block_size : Int) (block_map : List Nat) :
    Nat → Nat → Loader → List FAT_FILE → Option (List FAT_FILE)
  | 0, _, _, files => some files
  | fuel + 1, i, l, files =>
    match block_map[i]? with
    | none => none
    | some tag =>
      if tag = FILE_ENTRY_BLOCK then
        match load_file MAX_FILENAME_LENGTH block_size i l with
        | none => none
        | some (l1, f) => load_files MAX_FILENAME_LENGTH block_size block_map fuel (i + 1) l1 (files ++ [f])
      else load_files MAX_FILENAME_LENGTH block_size block_map fuel (i + 1) l files

/-- `mini_fat_load` of a backing file (which exists): a new filesystem with its
own `FAT_FILE` objects and no handle.  The locals are
`int block_size = 1024, block_count = 10`; the two header reads go to `read`
and are not used.  `read` is not initialised by the source (0 here). -/
def mini_fat_load (MAX_FILENAME_LENGTH : Nat) (disk : List Nat) : Option World :=
  let block_size : Int := 1024
  let block_count : Int := 10
  match mini_fat_create_internal block_size block_count with
  | none => none
  | some fat =>
    let l0 : Loader := { s := { disk := disk, pos := 0 }, read := 0 }
    let l1 := fread_int l0
    let l2 := fread_int l1
    let (l3, block_map) := load_block_map block_count.toNat 0 l2 fat.block_map
    match load_files MAX_FILENAME_LENGTH block_size block_map fat.block_count.toNat 0 l3 [] with
    | none => none
    | some files =>
      some { fs := { fat with block_map := block_map, files := List.range files.length }
             file_heap := files
             handle_heap := []
             disk := disk }

/-! ## Runs of operations and state predicates used by the theorems -/

/-- A run of consecutive `mini_fat_allocate_new_block` calls, one per listed
block type, with the value each call returned. -/
def allocate_all (w : World) : List Nat → Option (World × List Int)
  | [] => some (w, [])
  | block_type :: rest =>
    match mini_fat_allocate_new_block w block_type with
    | none => none
    | some (w1, r) =>
      match allocate_all w1 rest with
      | none => none
      | some (w2, rs) => some (w2, r :: rs)

/-- Is `h` an allocated handle in write mode? -/
def is_writer (w : World) (h : Nat) : Bool :=
  match w.handle_heap[h]? with
  | some o => o.is_write
  | none => false

/-- The handle list of a file is consistent: every entry is an allocated
handle, no handle is listed twice, and at most one entry is a write handle
(the single-writer invariant that `mini_file_open` maintains). -/
def HandlesConsistent (w : World) (f : FAT_FILE) : Prop :=
  (∀ x ∈ f.open_handles, x < w.handle_heap.length) ∧
  f.open_handles.Nodup ∧
  (∀ x ∈ f.open_handles, ∀ y ∈ f.open_handles,
    is_writer w x = true → is_writer w y = true → x = y)

instance (w : World) (f : FAT_FILE) : Decidable (HandlesConsistent w f) := by
  unfold HandlesConsistent
  infer_instance

/-- The representation invariant of a state: the block map has `block_count`
entries, every pointer in the file table and in a handle is allocated, every
file's handle list is consistent, and every chain lies inside the block map. -/
structure Inv (w : World) : Prop where
  map_length : w.fs.block_map.length = w.fs.block_count.toNat
  files_valid : ∀ p ∈ w.fs.files, p < w.file_heap.length
  handle_file_valid : ∀ o ∈ w.handle_heap, o.file < w.file_heap.length
  handles_consistent : ∀ f ∈ w.file_heap, HandlesConsistent w f
  chain_in_map : ∀ f ∈ w.file_heap, ∀ j ∈ f.block_ids, 0 ≤ j ∧ j.toNat < w.fs.block_map.length

/-- One call of the file API, from a state to the state it leaves. -/
inductive Step (MAX_FILENAME_LENGTH : Nat) : World → World → Prop
  | by_create_file (w w1 : World) (filename : CString) (r : Option Nat) :
      mini_file_create_file MAX_FILENAME_LENGTH w filename = some (w1, r) →
      Step MAX_FILENAME_LENGTH w w1
  | by_open (w w1 : World) (filename : CString) (is_write : Bool) (r : Option Nat) :
      mini_file_open MAX_FILENAME_LENGTH w filename is_write = some (w1, r) →
      Step MAX_FILENAME_LENGTH w w1
  | by_close (w w1 : World) (open_file : Option Nat) (r : Bool) :
      mini_file_close w open_file = some (w1, r) → Step MAX_FILENAME_LENGTH w w1
  | by_seek (w w1 : World) (open_file : Nat) (offset : Int) (from_start r : Bool) :
      mini_file_seek w open_file offset from_start = some (w1, r) →
      Step MAX_FILENAME_LENGTH w w1
  | by_read (w w1 : World) (open_file : Nat) (size r : Int) (buffer : List Nat) :
      mini_file_read w open_file size = some (w1, r, buffer) → Step MAX_FILENAME_LENGTH w w1
  | by_write (w w1 : World) (open_file : Nat) (size r : Int) (buffer : List Nat) :
      mini_file_write w open_file size buffer = some (w1, r) → Step MAX_FILENAME_LENGTH w w1
  | by_delete (w w1 : World) (filename : CString) (r : Bool) :
      mini_file_delete w filename = some (w1, r) → Step MAX_FILENAME_LENGTH w w1
  | by_save (w w1 : World) (r : Bool) :
      mini_fat_save MAX_FILENAME_LENGTH w = some (w1, r) → Step MAX_FILENAME_LENGTH w w1

/-- The states a program reaches from `mini_fat_create` by calls of the file
API. -/
inductive Reachable (MAX_FILENAME_LENGTH : Nat) : World → Prop
  | start (block_size block_count : Int) (w : World) :
      mini_fat_create block_size block_count = some w → Reachable MAX_FILENAME_LENGTH w
  | next (w w1 : World) :
      Reachable MAX_FILENAME_LENGTH w → Step MAX_FILENAME_LENGTH w w1 →
      Reachable MAX_FILENAME_LENGTH w1

/-- On a fresh filesystem of four 16-byte blocks: open `a` for writing, write
`ab` and then `cd` through the same handle, open `a` for reading and read 4
bytes.  The result is the count and the bytes `mini_file_read` delivers. -/
def two_writes_then_read : Option (Int × List Nat) :=
  match mini_fat_create 16 4 with
  | none => none
  | some w0 =>
    match mini_file_open 32 w0 [97] true with
    | some (w1, some hw) =>
      match mini_file_write w1 hw 2 [97, 98, 0] with
      | none => none
      | some (w2, _) =>
        match mini_file_write w2 hw 2 [99, 100, 0] with
        | none => none
        | some (w3, _) =>
          match mini_file_open 32 w3 [97] false with
          | some (w4, some hr) =>
            match mini_file_read w4 hr 4 with
            | none => none
            | some (_, n, buffer) => some (n, buffer)
          | _ => none
    | _ => none

/-- On a fresh filesystem of four 16-byte blocks: open `a` for writing and
write the 5 bytes `hello`.  The result is the returned count, the handle's
position and the file's size afterwards. -/
def first_write : Option (Int × Int × Int) :=
  match mini_fat_create 16 4 with
  | none => none
  | some w0 =>
    match mini_file_open 32 w0 [97] true with
    | some (w1, some hw) =>
      match mini_file_write w1 hw 5 [104, 101, 108, 108, 111, 0] with
      | none => none
      | some (w2, n) =>
        match w2.handle_heap[hw]?, w2.file_heap[0]? with
        | some o, some f => some (n, o.position, f.size)
        | _, _ => none
    | _ => none

/-- On a fresh filesystem of four 16-byte blocks: open `a` for writing, write
`hello`, close the handle, and open `a` for writing again.  The result is the
position of the second handle and the size of the file. -/
def reopen_for_write : Option (Int × Int) :=
  match mini_fat_create 16 4 with
  | none => none
  | some w0 =>
    match mini_file_open 32 w0 [97] true with
    | some (w1, some hw) =>
      match mini_file_write w1 hw 5 [104, 101, 108, 108, 111, 0] with
      | none => none
      | some (w2, _) =>
        match mini_file_close w2 (some hw) with
        | none => none
        | some (w3, _) =>
          match mini_file_open 32 w3 [97] true with
          | some (w4, some hw2) =>
            match w4.handle_heap[hw2]?, w4.file_heap[0]? with
            | some o, some f => some (o.position, f.size)
            | _, _ => none
          | _ => none
    | _ => none

/-- Create a filesystem of four 16-byte blocks, save it, load the backing file.
The result is the block map before the save and the block map, `block_count`
and `block_size` after the load. -/
def save_then_load : Option (List Nat × List Nat × Int × Int) :=
  match mini_fat_create 16 4 with
  | none => none
  | some w0 =>
    match mini_fat_save 32 w0 with
    | none => none
    | some (w1, _) =>
      match mini_fat_load 32 w1.disk with
      | none => none
      | some w2 => some (w0.fs.block_map, w2.fs.block_map, w2.fs.block_count, w2.fs.block_size)

/-! ## Sample states used to instantiate the theorems -/

/-- A 16-byte-block, 4-block filesystem holding one file `a` (name `[97]`) of
size 5 with a write handle `0` at position 2 and a read handle `1` at 0. -/
def sample_world : World :=
  { fs := { block_size := 16, block_count := 4, block_map := [1, 2, 3, 0], files := [0] }
    file_heap := [{ name := [97], size := 5, metadata_block_id := 1, block_ids := [1, 2],
                    open_handles := [0, 1] }]
    handle_heap := [{ file := 0, position := 2, is_write := true },
                    { file := 0, position := 0, is_write := false }]
    disk := [104, 101, 108, 108, 111] ++ List.replicate 60 0 }

/-- The write handle of `sample_world`. -/
def sample_writer : FAT_OPEN_FILE := { file := 0, position := 2, is_write := true }

/-- The file of `sample_world`. -/
def sample_file : FAT_FILE :=
  { name := [97], size := 5, metadata_block_id := 1, block_ids := [1, 2], open_handles := [0, 1] }

/-- A filesystem of two 16-byte blocks whose second block is the metadata block
of the file `a`, open for writing through handle 0: the state after
`mini_fat_create 16 2` and `mini_file_open "a"` in write mode. -/
def full_world : World :=
  { fs := { block_size := 16, block_count := 2, block_map := [1, 2], files := [0] }
    file_heap := [{ name := [97], size := 0, metadata_block_id := 1, block_ids := [1],
                    open_handles := [0] }]
    handle_heap := [{ file := 0, position := 0, is_write := true }]
    disk := List.replicate 33 0 }

/-- A fresh filesystem of four 16-byte blocks: the state `mini_fat_create 16 4`
returns. -/
def fresh_world : World :=
  { fs := { block_size := 16, block_count := 4, block_map := [1, 0, 0, 0], files := [] }
    file_heap := []
    handle_heap := []
    disk := List.replicate 65 0 }

/-- One call of the program's interface, with its arguments. -/
inductive Call where
  | do_allocate (block_type : Nat)
  | do_create_file (filename : CString)
  | do_open (filename : CString) (is_write : Bool)
  | do_close (open_file : Option Nat)
  | do_seek (open_file : Nat) (offset : Int) (from_start : Bool)
  | do_read (open_file : Nat) (size : Int)
  | do_write (open_file : Nat) (size : Int) (buffer : List Nat)
  | do_delete (filename : CString)
  | do_save
deriving DecidableEq

/-- The state a call leaves (its return value dropped); `none` when the call
has no defined result. -/
def run_call (MAX_FILENAME_LENGTH : Nat) (w : World) : Call → Option World
  | Call.do_allocate block_type =>
    (mini_fat_allocate_new_block w block_type).map (fun r => r.1)
  | Call.do_create_file filename =>
    (mini_file_create_file MAX_FILENAME_LENGTH w filename).map (fun r => r.1)
  | Call.do_open filename is_write =>
    (mini_file_open MAX_FILENAME_LENGTH w filename is_write).map (fun r => r.1)
  | Call.do_close open_file => (mini_file_close w open_file).map (fun r => r.1)
  | Call.do_seek open_file offset from_start =>
    (mini_file_seek w open_file offset from_start).map (fun r => r.1)
  | Call.do_read open_file size => (mini_file_read w open_file size).map (fun r => r.1)
  | Call.do_write open_file size buffer =>
    (mini_file_write w open_file size buffer).map (fun r => r.1)
  | Call.do_delete filename => (mini_file_delete w filename).map (fun r => r.1)
  | Call.do_save => (mini_fat_save MAX_FILENAME_LENGTH w).map (fun r => r.1)

/-- The state after a sequence of calls, each on the state the previous one
left. -/
def run_calls (MAX_FILENAME_LENGTH : Nat) : World → List Call → Option World
  | w, [] => some w
  | w, c :: cs =>
    match run_call MAX_FILENAME_LENGTH w c with
    | none => none
    | some w1 => run_calls MAX_FILENAME_LENGTH w1 cs

/-- Is the call a direct call of `mini_file_create_file`? -/
def is_create_file : Call → Bool
  | Call.do_create_file _ => true
  | _ => false

/-- Is the call a `mini_file_write` with a negative length? -/
def is_negative_write : Call → Bool
  | Call.do_write _ size _ => decide (size < 0)
  | _ => false

/-- Does the call, issued in the state `w`, keep the size of a file an `int`?
A `mini_file_write` does when its length is not negative and the size of the
handle's file plus the length is at most `INT_MAX`; every other call does. -/
def write_in_range (w : World) : Call → Bool
  | Call.do_write open_file size _ =>
    match w.handle_heap[open_file]? with
    | none => true
    | some o =>
      match w.file_heap[o.file]? with
      | none => true
      | some f => decide (0 ≤ size ∧ f.size + size ≤ INT_MAX)
  | _ => true

/-- Does every call of the run keep the sizes `int`s, each one checked by
`write_in_range` in the state it is issued in? -/
def run_in_range (MAX_FILENAME_LENGTH : Nat) : World → List Call → Bool
  | _, [] => true
  | w, c :: cs =>
    write_in_range w c &&
      (match run_call MAX_FILENAME_LENGTH w c with
       | none => true
       | some w1 => run_in_range MAX_FILENAME_LENGTH w1 cs)

/-- The part of a `FAT_FILE` that the block bookkeeping depends on. -/
structure ChainView where
  name : CString
  metadata_block_id : Int
  block_ids : List Int
deriving DecidableEq

/-- The chain view of a file. -/
def view (f : FAT_FILE) : ChainView :=
  { name := f.name, metadata_block_id := f.metadata_block_id, block_ids := f.block_ids }

/-- The block bookkeeping of a state: block map, file table, and the chain
view of every allocated `FAT_FILE`. -/
structure Table where
  block_map : List Nat
  files : List Nat
  chains : List ChainView
deriving DecidableEq

/-- The block bookkeeping of a state. -/
def table (w : World) : Table :=
  { block_map := w.fs.block_map, files := w.fs.files, chains := w.file_heap.map view }

/-- What one call can do to the block bookkeeping: nothing; tag an Empty
block; tag an Empty block FileEntry and register a new file on it; tag an
Empty block FileData and append it to a chain; free the chain of a registered
file and erase its table entry.  With `allow_dup = false` a new file's name is
the name of no registered file. -/
inductive TStep (allow_dup : Bool) : Table → Table → Prop
  | same (t : Table) : TStep allow_dup t t
  | alloc (t : Table) (idx block_type : Nat) :
      t.block_map[idx]? = some 0 →
      TStep allow_dup t { t with block_map := t.block_map.set idx block_type }
  | create (t : Table) (idx : Nat) (name : CString) :
      t.block_map[idx]? = some 0 →
      (allow_dup = false → ∀ p ∈ t.files, ∀ c, t.chains[p]? = some c → c.name ≠ name) →
      TStep allow_dup t
        { block_map := t.block_map.set idx FILE_ENTRY_BLOCK
          files := t.files ++ [t.chains.length]
          chains := t.chains ++
            [{ name := name, metadata_block_id := Int.ofNat idx, block_ids := [Int.ofNat idx] }] }
  | extend (t : Table) (fd : Nat) (c : ChainView) (idx : Nat) :
      t.block_map[idx]? = some 0 → t.chains[fd]? = some c →
      TStep allow_dup t
        { t with
          block_map := t.block_map.set idx FILE_DATA_BLOCK
          chains := t.chains.set fd { c with block_ids := c.block_ids ++ [Int.ofNat idx] } }
  | delete (t : Table) (k p : Nat) (c : ChainView) (block_map : List Nat) :
      t.files[k]? = some p → t.chains[p]? = some c →
      free_blocks t.block_map c.block_ids = some block_map →
      TStep allow_dup t { t with block_map := block_map, files := t.files.eraseIdx k }

/-- The invariant of the block bookkeeping: block 0 is tagged Metadata; the
file table lists allocated files, each once; the chain of a registered file
has no repetition, starts with the file's metadata block, which is tagged
FileEntry, and holds only positive ids of non-Empty blocks; the chains of two
registered files share no id. -/
structure TInv (t : Table) : Prop where
  block_zero : t.block_map[0]? = some METADATA_BLOCK
  files_nodup : t.files.Nodup
  files_valid : ∀ p ∈ t.files, p < t.chains.length
  chain_nodup : ∀ p ∈ t.files, ∀ c, t.chains[p]? = some c → c.block_ids.Nodup
  chain_head : ∀ p ∈ t.files, ∀ c, t.chains[p]? = some c →
    c.block_ids.head? = some c.metadata_block_id
  meta_tag : ∀ p ∈ t.files, ∀ c, t.chains[p]? = some c →
    t.block_map[c.metadata_block_id.toNat]? = some FILE_ENTRY_BLOCK
  chain_tag : ∀ p ∈ t.files, ∀ c, t.chains[p]? = some c → ∀ j ∈ c.block_ids,
    0 < j ∧ ∃ tag, t.block_map[j.toNat]? = some tag ∧ tag ≠ 0
  chain_disjoint : ∀ p ∈ t.files, ∀ q ∈ t.files, p ≠ q → ∀ c d,
    t.chains[p]? = some c → t.chains[q]? = some d → ∀ j ∈ c.block_ids, j ∉ d.block_ids

/-- No two registered files have the same name. -/
def UniqueNames (t : Table) : Prop :=
  ∀ p ∈ t.files, ∀ q ∈ t.files, ∀ c d,
    t.chains[p]? = some c → t.chains[q]? = some d → c.name = d.name → p = q

/-- The cursor invariant: the size of every file lies in `0 .. INT_MAX` and
every allocated handle has `0 ≤ position ≤ size` of its file. -/
structure PosInv (w : World) : Prop where
  size_nonneg : ∀ f ∈ w.file_heap, 0 ≤ f.size
  position_range : ∀ o ∈ w.handle_heap, ∀ f, w.file_heap[o.file]? = some f →
    0 ≤ o.position ∧ o.position ≤ f.size
  size_le : ∀ f ∈ w.file_heap, f.size ≤ INT_MAX

/-- The file content `d1` has the length of `d` and the same bytes outside the
offsets `lo ≤ i < hi`. -/
def Outside (d d1 : List Nat) (lo hi : Nat) : Prop :=
  d1.length = d.length ∧ ∀ i : Nat, (i < lo ∨ hi ≤ i) → d1[i]? = d[i]?

/-- The offset of the record `mini_fat_save` writes for a file:
`metadata_block_id * block_size`. -/
def record_start (block_size : Int) (f : FAT_FILE) : Nat :=
  (f.metadata_block_id * block_size).toNat

/-- The number of bytes of that record: three `int`s, the chain, the name
buffer. -/
def record_length (MAX_FILENAME_LENGTH : Nat) (f : FAT_FILE) : Nat :=
  12 + 4 * f.block_ids.length + MAX_FILENAME_LENGTH

/-! ## Further runs and sample states -/

/-- Create a filesystem of two 16-byte blocks (header and block map fill block 0
exactly), save it, load the backing file.  The result is `block_count` and
`block_size` of the saved filesystem, then `block_count`, `block_size` and the
length of the block map of the loaded one. -/
def load_geometry : Option (Int × Int × Int × Int × Nat) :=
  match mini_fat_create 16 2 with
  | none => none
  | some w0 =>
    match mini_fat_save 32 w0 with
    | none => none
    | some (w1, _) =>
      match mini_fat_load 32 w1.disk with
      | none => none
      | some w2 =>
        some (w1.fs.block_count, w1.fs.block_size, w2.fs.block_count, w2.fs.block_size,
              w2.fs.block_map.length)

/-- On a fresh filesystem of four 16-byte blocks: open `a` for writing and
write 40 bytes `x` in one call.  The result is the returned count, the file's
size and the length of its chain (metadata block included). -/
def write_forty : Option (Int × Int × Nat) :=
  match mini_fat_create 16 4 with
  | none => none
  | some w0 =>
    match mini_file_open 32 w0 [97] true with
    | some (w1, some hw) =>
      match mini_file_write w1 hw 40 (List.replicate 40 120 ++ [0]) with
      | none => none
      | some (w2, n) =>
        match w2.file_heap[0]? with
        | some f => some (n, f.size, f.block_ids.length)
        | none => none
    | _ => none

/-- On a fresh filesystem of four 16-byte blocks: open `a` for writing and
write `hello`.  The result is the file's chain, the first 5 bytes of the
backing file, and the first 5 bytes of the file's data block 2 (offset 32). -/
def write_location : Option (List Int × List Nat × List Nat) :=
  match mini_fat_create 16 4 with
  | none => none
  | some w0 =>
    match mini_file_open 32 w0 [97] true with
    | some (w1, some hw) =>
      match mini_file_write w1 hw 5 [104, 101, 108, 108, 111, 0] with
      | none => none
      | some (w2, _) =>
        match w2.file_heap[0]? with
        | some f => some (f.block_ids, w2.disk.take 5, (w2.disk.drop 32).take 5)
        | none => none
    | _ => none

/-- The read handle of `sample_world`. -/
def sample_reader : FAT_OPEN_FILE := { file := 0, position := 0, is_write := false }

/-- A sequence of calls on `fresh_world`: open `a` for writing, write `hello`,
open `b` for writing, seek the first handle to 3. -/
def sample_calls : List Call :=
  [Call.do_open [97] true, Call.do_write 0 5 [104, 101, 108, 108, 111, 0],
   Call.do_open [98] true, Call.do_seek 0 3 true]

/-- The file `a` after `sample_calls`. -/
def sample_run_file : FAT_FILE :=
  { name := [97], size := 5, metadata_block_id := 1, block_ids := [1, 2], open_handles := [0] }

/-- The state `sample_calls` leaves when run on `fresh_world`. -/
def sample_run_world : World :=
  { fs := { block_size := 16, block_count := 4, block_map := [1, 2, 3, 2], files := [0, 1] }
    file_heap := [sample_run_file,
                  { name := [98], size := 0, metadata_block_id := 3, block_ids := [3],
                    open_handles := [1] }]
    handle_heap := [{ file := 0, position := 3, is_write := true },
                    { file := 1, position := 0, is_write := true }]
    disk := [104, 101, 108, 108, 111] ++ List.replicate 60 0 }

/-- On a fresh filesystem of four 16-byte blocks: open `a` for writing, write
with the length -1 and the empty string, and seek the handle to 0 from the
start.  The result is the size of the file before the seek and the value and
the state the seek returns, the state as its list of handle positions. -/
def seek_after_negative_write : Option (Int × Bool × List Int) :=
  match mini_fat_create 16 4 with
  | none => none
  | some w0 =>
    match mini_file_open 32 w0 [97] true with
    | some (w1, some hw) =>
      match mini_file_write w1 hw (-1) [0] with
      | none => none
      | some (w2, _) =>
        match w2.file_heap[0]?, mini_file_seek w2 hw 0 true with
        | some f, some (w3, ok) =>
          some (f.size, ok, w3.handle_heap.map (fun o => o.position))
        | _, _ => none
    | _ => none

/-- A sequence of calls on `fresh_world`: open `a` for writing, then write twice
with the length `INT_MAX` and the string `x`. -/
def overflow_calls : List Call :=
  [Call.do_open [97] true, Call.do_write 0 2147483647 [120, 0],
   Call.do_write 0 2147483647 [120, 0]]

/-- The handle of `overflow_world`. -/
def overflow_handle : FAT_OPEN_FILE := { file := 0, position := 2147483647, is_write := true }

/-- The file of `overflow_world`. -/
def overflow_file : FAT_FILE :=
  { name := [97], size := -2, metadata_block_id := 1, block_ids := [1, 2], open_handles := [0] }

/-- The state `overflow_calls` leaves when run on `fresh_world`. -/
def overflow_world : World :=
  { fs := { block_size := 16, block_count := 4, block_map := [1, 2, 3, 0], files := [0] }
    file_heap := [overflow_file]
    handle_heap := [overflow_handle]
    disk := [120] ++ List.replicate 64 0 }

/-- On a fresh filesystem of four 16-byte blocks, call `mini_file_create_file`
twice with the name `a`.  The result is the value of the second call, the file
table, the block map and the names of the allocated files afterwards. -/
def create_twice : Option (Option Nat × List Nat × List Nat × List CString) :=
  match mini_fat_create 16 4 with
  | none => none
  | some w0 =>
    match mini_file_create_file 32 w0 [97] with
    | none => none
    | some (w1, _) =>
      match mini_file_create_file 32 w1 [97] with
      | none => none
      | some (w2, r) =>
        some (r, w2.fs.files, w2.fs.block_map, w2.file_heap.map (fun f => f.name))

/-- The file `a` of `roomy_world`. -/
def roomy_file : FAT_FILE :=
  { name := [97], size := 5, metadata_block_id := 1, block_ids := [1, 2], open_handles := [] }

/-- A filesystem of three 32-byte blocks holding the file `a` with one data
block: header, block map and the file's record (for names of up to 4 bytes)
each fit in one block. -/
def roomy_world : World :=
  { fs := { block_size := 32, block_count := 3, block_map := [1, 2, 3], files := [0] }
    file_heap := [roomy_file]
    handle_heap := []
    disk := List.replicate 97 0 }

/-- On a fresh filesystem of four 16-byte blocks: open `a` for writing, write
`hello`, open `a` for reading, then `mini_fat_save`.  The result is the block
map, byte 32 of the backing file (the first byte of block 2) before and after
the save, and what a read of 5 bytes through the read handle returns before
and after the save. -/
def save_overrun : Option (List Nat × Option Nat × Option Nat × List Nat × List Nat) :=
  match mini_fat_create 16 4 with
  | none => none
  | some w0 =>
    match mini_file_open 32 w0 [97] true with
    | some (w1, some hw) =>
      match mini_file_write w1 hw 5 [104, 101, 108, 108, 111, 0] with
      | none => none
      | some (w2, _) =>
        match mini_file_open 32 w2 [97] false with
        | some (w3, some hr) =>
          match mini_fat_save 32 w3, mini_file_read w3 hr 5 with
          | some (w4, _), some (_, _, before) =>
            match mini_file_read w4 hr 5 with
            | some (_, _, after) =>
              some (w3.fs.block_map, w3.disk[32]?, w4.disk[32]?, before, after)
            | none => none
          | _, _ => none
        | _ => none
    | _ => none

/-! ## Lemmas -/

/-- The scan returns -1 when no inspected entry is zero. -/
theorem find_empty_loop_full (bm : List Nat) :
    ∀ fuel i, i + fuel ≤ bm.length → (∀ j, i ≤ j → j < i + fuel → bm[j]? ≠ some 0) →
      find_empty_loop bm fuel i = some (-1) := by
  intro fuel
  induction fuel with
  | zero => intro i _ _; rfl
  | succ n ih =>
    intro i hlen hno
    have hi : i < bm.length := by omega
    have h0 := hno i (Nat.le_refl i) (by omega)
    rw [List.getElem?_eq_getElem hi] at h0
    have hne : bm[i] ≠ 0 := fun hz => h0 (by rw [hz])
    simp only [find_empty_loop, List.getElem?_eq_getElem hi, hne, if_false]
    exact ih (i + 1) (by omega) (fun j h1 h2 => hno j (by omega) (by omega))

/-- The scan returns the first zero entry when every entry before it is
non-zero. -/
theorem find_empty_loop_first (bm : List Nat) :
    ∀ fuel i k, i ≤ k → k < i + fuel → bm[k]? = some 0 →
      (∀ j, i ≤ j → j < k → ∃ t, bm[j]? = some t ∧ t ≠ 0) →
      find_empty_loop bm fuel i = some (Int.ofNat k) := by
  intro fuel
  induction fuel with
  | zero => intro i k h1 h2; omega
  | succ n ih =>
    intro i k hik hk hz hbefore
    by_cases heq : i = k
    · subst heq
      simp [find_empty_loop, hz]
    · obtain ⟨t, ht, htne⟩ := hbefore i (Nat.le_refl i) (by omega)
      simp only [find_empty_loop, ht, htne, if_false]
      exact ih (i + 1) k (by omega) (by omega) hz (fun j h1 h2 => hbefore j (by omega) h2)

/-- A list that contains a zero has a first zero: every index below it holds
a non-zero value. -/
theorem exists_first_zero (bm : List Nat) (h : 0 ∈ bm) :
    ∃ k : Nat, bm[k]? = some 0 ∧ ∀ j : Nat, j < k → ∃ t, bm[j]? = some t ∧ t ≠ 0 := by
  induction bm with
  | nil => simp at h
  | cons a rest ih =>
    by_cases ha : a = 0
    · exact ⟨0, by simp [ha], fun j hj => by omega⟩
    · have hr : 0 ∈ rest := by
        rcases List.mem_cons.mp h with h1 | h1
        · exact absurd h1.symm ha
        · exact h1
      obtain ⟨k, hk, hb⟩ := ih hr
      refine ⟨k + 1, by simpa using hk, ?_⟩
      intro j hj
      cases j with
      | zero => exact ⟨a, by simp, ha⟩
      | succ j => simpa using hb j (by omega)

/-- Overwriting a zero entry with a non-zero value removes one zero. -/
theorem count_zero_set (bm : List Nat) : ∀ (i k : Nat), bm[i]? = some 0 → k ≠ 0 →
    (bm.set i k).count 0 + 1 = bm.count 0 := by
  induction bm with
  | nil => intro i k h; simp at h
  | cons a rest ih =>
    intro i k h hk
    cases i with
    | zero =>
      simp at h
      subst h
      simp [List.count_cons, hk]
    | succ i =>
      simp at h
      have := ih i k h hk
      simp only [List.set_cons_succ, List.count_cons]
      omega

/-- With no zero entry in the block map the allocation returns -1 and changes
nothing. -/
theorem allocate_full (w : World) (k : Nat)
    (hlen : w.fs.block_map.length = w.fs.block_count.toNat) (hno : 0 ∉ w.fs.block_map) :
    mini_fat_allocate_new_block w k = some (w, -1) := by
  have hfind : mini_fat_find_empty_block w.fs = some (-1) := by
    unfold mini_fat_find_empty_block
    apply find_empty_loop_full
    · omega
    · intro j _ _ hj
      exact hno (List.getElem?_mem hj)
  simp [mini_fat_allocate_new_block, hfind]

/-- With a first zero entry at `idx` the allocation stores the block type
there and returns `idx`. -/
theorem allocate_first (w : World) (k idx : Nat)
    (hlen : w.fs.block_map.length = w.fs.block_count.toNat)
    (hz : w.fs.block_map[idx]? = some 0)
    (hbefore : ∀ j : Nat, j < idx → ∃ t, w.fs.block_map[j]? = some t ∧ t ≠ 0) :
    mini_fat_allocate_new_block w k =
      some ({ w with fs := { w.fs with block_map := w.fs.block_map.set idx k } },
            Int.ofNat idx) := by
  have hidx : idx < w.fs.block_map.length := by
    rcases List.getElem?_eq_some.mp hz with ⟨h, _⟩
    exact h
  have hfind : mini_fat_find_empty_block w.fs = some (Int.ofNat idx) := by
    unfold mini_fat_find_empty_block
    exact find_empty_loop_first _ _ 0 idx (Nat.zero_le _) (by omega) hz
      (fun j _ h2 => hbefore j h2)
  have hne : (Int.ofNat idx) ≠ -1 := by
    have : (0 : Int) ≤ Int.ofNat idx := Int.ofNat_nonneg idx
    omega
  simp [mini_fat_allocate_new_block, hfind, hne]

/-- As many consecutive allocations of non-zero types succeed as the block map
has zero entries. -/
theorem allocate_all_counts : ∀ (kinds : List Nat) (w : World) (m : Nat),
    w.fs.block_map.length = w.fs.block_count.toNat →
    w.fs.block_map.count 0 = kinds.length + m →
    (∀ k ∈ kinds, k ≠ 0) →
    ∃ w1 rs, allocate_all w kinds = some (w1, rs) ∧ rs.length = kinds.length ∧
      (∀ r ∈ rs, r ≠ -1) ∧
      w1.fs.block_map.length = w1.fs.block_count.toNat ∧ w1.fs.block_map.count 0 = m := by
  intro kinds
  induction kinds with
  | nil =>
    intro w m hlen hcount _
    exact ⟨w, [], rfl, rfl, by simp, hlen, by simpa using hcount⟩
  | cons k rest ih =>
    intro w m hlen hcount hk
    have hmem : 0 ∈ w.fs.block_map := by
      apply List.count_pos_iff.mp
      rw [hcount]; simp
    obtain ⟨idx, hz, hbefore⟩ := exists_first_zero _ hmem
    have halloc := allocate_first w k idx hlen hz hbefore
    have hk0 : k ≠ 0 := hk k (List.mem_cons_self _ _)
    have hc := count_zero_set w.fs.block_map idx k hz hk0
    obtain ⟨w1, rs, hrun, hrl, hrs, hlen1, hcount1⟩ :=
      ih { w with fs := { w.fs with block_map := w.fs.block_map.set idx k } } m
        (by simpa using hlen)
        (by simp only [List.length_cons] at hcount; simp only; omega)
        (fun k' hk' => hk k' (List.mem_cons_of_mem _ hk'))
    refine ⟨w1, Int.ofNat idx :: rs, ?_, by simp [hrl], ?_, hlen1, hcount1⟩
    · simp [allocate_all, halloc, hrun]
    · intro r hr
      rcases List.mem_cons.mp hr with h1 | h1
      · have : (0 : Int) ≤ Int.ofNat idx := Int.ofNat_nonneg idx
        omega
      · exact hrs r h1

/-- A write that needs a new block returns 0 and changes nothing when the
allocation returns -1. -/
theorem write_alloc_fails (w : World) (h : Nat) (o : FAT_OPEN_FILE) (f : FAT_FILE)
    (size : Int) (buffer : List Nat)
    (ho : w.handle_heap[h]? = some o) (hw : o.is_write = true)
    (hf : w.file_heap[o.file]? = some f)
    (hneed : f.block_ids.length = 1 ∨
      (w.fs.block_size ≠ 0 ∧ o.position.tmod w.fs.block_size = 0 ∧ o.position ≠ 0))
    (hfull : mini_fat_allocate_new_block w FILE_DATA_BLOCK = some (w, -1)) :
    mini_file_write w h size buffer = some (w, 0) := by
  rcases hneed with h1 | ⟨hb, h2, h3⟩
  · simp [mini_file_write, ho, hw, hf, h1, hfull]
  · simp [mini_file_write, ho, hw, hf, hb, h2, h3, hfull]

/-- A filesystem made by `mini_fat_create` with at least one block. -/
theorem mini_fat_create_fresh (block_size block_count : Int) (hcount : 1 ≤ block_count) :
    ∃ w0, mini_fat_create block_size block_count = some w0 ∧
      w0.fs.block_map = (List.replicate block_count.toNat EMPTY_BLOCK).set 0 METADATA_BLOCK ∧
      w0.fs.block_count = block_count := by
  have : ¬ block_count < 1 := by omega
  simp [mini_fat_create, mini_fat_create_internal, this]

/-- The handle loop finds a write handle that is listed, all entries being
allocated. -/
theorem has_write_handle_true (heap : List FAT_OPEN_FILE) (h : Nat) (o : FAT_OPEN_FILE)
    (ho : heap[h]? = some o) (hw : o.is_write = true) :
    ∀ hs : List Nat, h ∈ hs → (∀ x ∈ hs, x < heap.length) →
      has_write_handle heap hs = some true := by
  intro hs
  induction hs with
  | nil => intro hm; simp at hm
  | cons a rest ih =>
    intro hm hv
    have ha : a < heap.length := hv a (List.mem_cons_self _ _)
    by_cases hwa : heap[a].is_write = true
    · simp [has_write_handle, List.getElem?_eq_getElem ha, hwa]
    · have hne : h ≠ a := by
        intro heq
        subst heq
        rw [List.getElem?_eq_getElem ha] at ho
        injection ho with ho
        rw [ho] at hwa
        exact hwa hw
      have hr : h ∈ rest := by
        rcases List.mem_cons.mp hm with h1 | h1
        · exact absurd h1 hne
        · exact h1
      simp only [has_write_handle, List.getElem?_eq_getElem ha, hwa]
      exact ih hr (fun x hx => hv x (List.mem_cons_of_mem _ hx))

/-- The handle loop finds nothing when every listed handle is a read handle. -/
theorem has_write_handle_false (heap : List FAT_OPEN_FILE) :
    ∀ hs : List Nat, (∀ x ∈ hs, ∃ o, heap[x]? = some o ∧ o.is_write = false) →
      has_write_handle heap hs = some false := by
  intro hs
  induction hs with
  | nil => intro _; rfl
  | cons a rest ih =>
    intro hv
    obtain ⟨oa, hoa, hwa⟩ := hv a (List.mem_cons_self _ _)
    simp only [has_write_handle, hoa, hwa]
    exact ih (fun x hx => hv x (List.mem_cons_of_mem _ hx))

/-- Replacing a file object by one of the same name does not change a lookup. -/
theorem find_loop_set (heap : List FAT_FILE) (filename : CString) (fd : Nat) (f g : FAT_FILE)
    (hf : heap[fd]? = some f) (hname : g.name = f.name) :
    ∀ ps : List Nat, find_loop (heap.set fd g) filename ps = find_loop heap filename ps := by
  intro ps
  induction ps with
  | nil => rfl
  | cons p rest ih =>
    have hfd : fd < heap.length := (List.getElem?_eq_some.mp hf).1
    by_cases hp : p = fd
    · subst hp
      simp [find_loop, hf, hfd, hname, ih]
    · simp [find_loop, List.getElem?_set_ne (Ne.symm hp), ih]

/-- The second half of `mini_file_open` when no write handle stands in the
way: a new handle at position 0 is appended. -/
theorem open_on_no_writer (w : World) (fd : Nat) (f : FAT_FILE) (is_write : Bool)
    (hf : w.file_heap[fd]? = some f)
    (hno : is_write = true → has_write_handle w.handle_heap f.open_handles = some false) :
    open_on w fd is_write =
      some ({ w with
              handle_heap := w.handle_heap ++
                [{ file := fd, position := 0, is_write := is_write }]
              file_heap := w.file_heap.set fd
                { f with open_handles := f.open_handles ++ [w.handle_heap.length] } },
            some w.handle_heap.length) := by
  cases is_write with
  | false => simp [open_on, hf]
  | true => simp [open_on, hf, hno rfl]

/-- The store loop of `mini_file_delete` succeeds on ids inside the map, zeroes
them, and keeps every other entry. -/
theorem free_blocks_spec : ∀ (ids : List Int) (bm : List Nat),
    (∀ j ∈ ids, 0 ≤ j ∧ j.toNat < bm.length) →
    ∃ bm1, free_blocks bm ids = some bm1 ∧ bm1.length = bm.length ∧
      (∀ j ∈ ids, bm1[j.toNat]? = some 0) ∧
      (∀ n : Nat, (∀ j ∈ ids, j.toNat ≠ n) → bm1[n]? = bm[n]?) ∧
      (∀ n : Nat, bm[n]? = some 0 → bm1[n]? = some 0) := by
  intro ids
  induction ids with
  | nil => intro bm _; exact ⟨bm, rfl, rfl, by simp, by simp, by simp⟩
  | cons a rest ih =>
    intro bm hr
    have ha := hr a (List.mem_cons_self _ _)
    obtain ⟨bm1, hfree, hlen, hzero, hother, hkeep⟩ := ih (bm.set a.toNat 0)
      (fun j hj => by simpa using hr j (List.mem_cons_of_mem _ hj))
    refine ⟨bm1, ?_, by simpa using hlen, ?_, ?_, ?_⟩
    · simp [free_blocks, ha, hfree]
    · intro j hj
      rcases List.mem_cons.mp hj with h1 | h1
      · subst h1
        apply hkeep
        simp [List.getElem?_set, ha.2]
      · exact hzero j h1
    · intro n hn
      rw [hother n (fun j hj => hn j (List.mem_cons_of_mem _ hj))]
      exact List.getElem?_set_ne (hn a (List.mem_cons_self _ _))
    · intro n hz
      apply hkeep
      by_cases hna : a.toNat = n
      · subst hna; simp [List.getElem?_set, ha.2]
      · rw [List.getElem?_set_ne hna]; exact hz

/-- Overwriting a handle struct without changing its mode keeps every handle's
mode. -/
theorem is_writer_set (w : World) (h : Nat) (o o1 : FAT_OPEN_FILE)
    (ho : w.handle_heap[h]? = some o) (hw : o1.is_write = o.is_write) (x : Nat) :
    is_writer { w with handle_heap := w.handle_heap.set h o1 } x = is_writer w x := by
  have hh : h < w.handle_heap.length := (List.getElem?_eq_some.mp ho).1
  by_cases hx : h = x
  · subst hx
    simp [is_writer, ho, hh, hw]
  · simp [is_writer, List.getElem?_set_ne hx]

/-- A consistent handle list stays consistent when the handle heap grows or
changes without changing the mode of an allocated handle. -/
theorem handles_consistent_of_eq (w w1 : World) (f : FAT_FILE)
    (hlen : w.handle_heap.length ≤ w1.handle_heap.length)
    (hsame : ∀ x, x < w.handle_heap.length → is_writer w1 x = is_writer w x)
    (hc : HandlesConsistent w f) : HandlesConsistent w1 f := by
  obtain ⟨hv, hn, hs⟩ := hc
  refine ⟨fun x hx => Nat.lt_of_lt_of_le (hv x hx) hlen, hn, ?_⟩
  intro x hx y hy hwx hwy
  rw [hsame x (hv x hx)] at hwx
  rw [hsame y (hv y hy)] at hwy
  exact hs x hx y hy hwx hwy

/-- The invariant survives an update of a handle struct that keeps its file and
mode. -/
theorem inv_set_handle (w : World) (h : Nat) (o o1 : FAT_OPEN_FILE) (hinv : Inv w)
    (ho : w.handle_heap[h]? = some o) (hfile : o1.file = o.file)
    (hw : o1.is_write = o.is_write) :
    Inv { w with handle_heap := w.handle_heap.set h o1 } := by
  refine ⟨hinv.map_length, hinv.files_valid, ?_, ?_, hinv.chain_in_map⟩
  · intro x hx
    rcases List.mem_or_eq_of_mem_set hx with h1 | h1
    · exact hinv.handle_file_valid x h1
    · subst h1
      have := hinv.handle_file_valid o (List.getElem?_mem ho)
      simpa [hfile] using this
  · intro f hf
    exact handles_consistent_of_eq w _ f (by simp)
      (fun x _ => is_writer_set w h o o1 ho hw x) (hinv.handles_consistent f hf)

/-- The invariant survives `mini_file_seek`. -/
theorem inv_seek (w w1 : World) (h : Nat) (offset : Int) (from_start r : Bool)
    (hinv : Inv w) (hstep : mini_file_seek w h offset from_start = some (w1, r)) : Inv w1 := by
  unfold mini_file_seek at hstep
  cases ho : w.handle_heap[h]? with
  | none => simp [ho] at hstep
  | some o =>
    cases hf : w.file_heap[o.file]? with
    | none => simp [ho, hf] at hstep
    | some f =>
      simp only [ho, hf] at hstep
      split at hstep
      · split at hstep
        · injection hstep with hstep
          injection hstep with h1 _
          subst h1
          exact inv_set_handle w h o _ hinv ho rfl rfl
        · injection hstep with hstep
          injection hstep with h1 _
          subst h1
          exact hinv
      · split at hstep
        · injection hstep with hstep
          injection hstep with h1 _
          subst h1
          exact inv_set_handle w h o _ hinv ho rfl rfl
        · injection hstep with hstep
          injection hstep with h1 _
          subst h1
          exact hinv

/-- The invariant survives `mini_file_read`. -/
theorem inv_read (w w1 : World) (h : Nat) (size r : Int) (buffer : List Nat)
    (hinv : Inv w) (hstep : mini_file_read w h size = some (w1, r, buffer)) : Inv w1 := by
  unfold mini_file_read at hstep
  cases ho : w.handle_heap[h]? with
  | none => simp [ho] at hstep
  | some o =>
    cases hf : w.file_heap[o.file]? with
    | none => simp [ho, hf] at hstep
    | some f =>
      simp only [ho, hf] at hstep
      split at hstep
      · simp at hstep
      · rename_i w2 b hseek
        injection hstep with hstep
        injection hstep with h1 _
        subst h1
        exact inv_seek w _ h _ false b hinv hseek

/-- An index returned by the scan lies inside the block map. -/
theorem find_empty_loop_range (bm : List Nat) :
    ∀ (fuel i : Nat) (r : Int), find_empty_loop bm fuel i = some r → r ≠ -1 →
      0 ≤ r ∧ r.toNat < bm.length := by
  intro fuel
  induction fuel with
  | zero => intro i r h hne; simp [find_empty_loop] at h; exact absurd h.symm hne
  | succ n ih =>
    intro i r h hne
    unfold find_empty_loop at h
    cases hi : bm[i]? with
    | none => simp [hi] at h
    | some t =>
      simp only [hi] at h
      by_cases ht : t = 0
      · simp only [ht, if_true] at h
        injection h with h
        subst h
        have hlt : i < bm.length := (List.getElem?_eq_some.mp hi).1
        exact ⟨Int.ofNat_nonneg i, by simpa using hlt⟩
      · simp only [ht, if_false] at h
        exact ih (i + 1) r h hne

/-- The invariant survives the replacement of a file object by one with a
consistent handle list and a chain inside the block map. -/
theorem inv_set_file (w : World) (fd : Nat) (g : FAT_FILE) (hinv : Inv w)
    (hc : HandlesConsistent w g)
    (hchain : ∀ j ∈ g.block_ids, 0 ≤ j ∧ j.toNat < w.fs.block_map.length) :
    Inv { w with file_heap := w.file_heap.set fd g } := by
  refine ⟨hinv.map_length, ?_, ?_, ?_, ?_⟩
  · intro p hp
    simpa using hinv.files_valid p hp
  · intro o ho
    simpa using hinv.handle_file_valid o ho
  · intro f hf
    rcases List.mem_or_eq_of_mem_set hf with h1 | h1
    · exact hinv.handles_consistent f h1
    · subst h1; exact hc
  · intro f hf
    rcases List.mem_or_eq_of_mem_set hf with h1 | h1
    · exact hinv.chain_in_map f h1
    · subst h1; exact hchain

/-- The invariant does not mention the disk. -/
theorem inv_set_disk (w : World) (disk : List Nat) (hinv : Inv w) :
    Inv { w with disk := disk } :=
  ⟨hinv.map_length, hinv.files_valid, hinv.handle_file_valid, hinv.handles_consistent,
   hinv.chain_in_map⟩

/-- The invariant survives a change of block-map entries. -/
theorem inv_set_block_map (w : World) (block_map : List Nat) (hinv : Inv w)
    (hlen : block_map.length = w.fs.block_map.length) :
    Inv { w with fs := { w.fs with block_map := block_map } } := by
  refine ⟨?_, hinv.files_valid, hinv.handle_file_valid, hinv.handles_consistent, ?_⟩
  · simpa [hlen] using hinv.map_length
  · intro f hf j hj
    simpa [hlen] using hinv.chain_in_map f hf j hj

/-- What an allocation leaves: the same state when it returns -1, otherwise
the state with one block-map entry overwritten, at an index inside the map. -/
theorem allocate_cases (w w1 : World) (k : Nat) (r : Int)
    (hstep : mini_fat_allocate_new_block w k = some (w1, r)) :
    (r = -1 ∧ w1 = w) ∨
    (r ≠ -1 ∧ 0 ≤ r ∧ r.toNat < w.fs.block_map.length ∧
      w1 = { w with fs := { w.fs with block_map := w.fs.block_map.set r.toNat k } }) := by
  unfold mini_fat_allocate_new_block at hstep
  cases hfind : mini_fat_find_empty_block w.fs with
  | none => simp [hfind] at hstep
  | some idx =>
    simp only [hfind] at hstep
    by_cases hidx : idx = -1
    · simp only [hidx, if_true] at hstep
      injection hstep with hstep
      injection hstep with h1 h2
      exact Or.inl ⟨h2.symm, h1.symm⟩
    · simp only [hidx, if_false] at hstep
      injection hstep with hstep
      injection hstep with h1 h2
      subst h2
      refine Or.inr ⟨hidx, ?_, ?_, h1.symm⟩
      · exact (find_empty_loop_range _ _ _ _ hfind hidx).1
      · exact (find_empty_loop_range _ _ _ _ hfind hidx).2

/-- The invariant survives `mini_fat_allocate_new_block`. -/
theorem inv_allocate (w w1 : World) (k : Nat) (r : Int) (hinv : Inv w)
    (hstep : mini_fat_allocate_new_block w k = some (w1, r)) : Inv w1 := by
  rcases allocate_cases w w1 k r hstep with ⟨_, h1⟩ | ⟨_, _, _, h1⟩
  · subst h1; exact hinv
  · subst h1; exact inv_set_block_map w _ hinv (by simp)

/-- Allocating a new handle keeps the mode of the handles allocated before. -/
theorem is_writer_append (w : World) (o : FAT_OPEN_FILE) (x : Nat)
    (hx : x < w.handle_heap.length) :
    is_writer { w with handle_heap := w.handle_heap ++ [o] } x = is_writer w x := by
  simp [is_writer, List.getElem?_append_left hx]

/-- When the handle loop finds no write handle, every listed handle is an
allocated read handle. -/
theorem has_write_handle_none (heap : List FAT_OPEN_FILE) :
    ∀ hs : List Nat, has_write_handle heap hs = some false →
      ∀ x ∈ hs, ∃ o, heap[x]? = some o ∧ o.is_write = false := by
  intro hs
  induction hs with
  | nil => intro _ x hx; simp at hx
  | cons a rest ih =>
    intro h x hx
    unfold has_write_handle at h
    cases ha : heap[a]? with
    | none => simp [ha] at h
    | some oa =>
      simp only [ha] at h
      by_cases hw : oa.is_write = true
      · simp [hw] at h
      · simp only [hw] at h
        rcases List.mem_cons.mp hx with h1 | h1
        · subst h1
          exact ⟨oa, ha, by simpa using hw⟩
        · exact ih h x h1

/-- The invariant survives the second half of `mini_file_open`. -/
theorem inv_open_on (w w1 : World) (fd : Nat) (is_write : Bool) (r : Option Nat)
    (hinv : Inv w) (hstep : open_on w fd is_write = some (w1, r)) : Inv w1 := by
  unfold open_on at hstep
  cases hf : w.file_heap[fd]? with
  | none => simp [hf] at hstep
  | some f =>
    simp only [hf] at hstep
    have hfd : fd < w.file_heap.length := (List.getElem?_eq_some.mp hf).1
    have hcf := hinv.handles_consistent f (List.getElem?_mem hf)
    split at hstep
    · simp at hstep
    · injection hstep with hstep
      injection hstep with h1 _
      subst h1
      exact hinv
    · rename_i hcheck
      injection hstep with hstep
      injection hstep with h1 _
      subst h1
      have hold : is_write = true → ∀ x ∈ f.open_handles, is_writer w x = false := by
        intro hw x hx
        rw [hw] at hcheck
        obtain ⟨ox, hox, hwx⟩ := has_write_handle_none _ _ hcheck x hx
        simp [is_writer, hox, hwx]
      refine ⟨hinv.map_length, ?_, ?_, ?_, ?_⟩
      · intro p hp
        simpa using hinv.files_valid p hp
      · intro o ho
        rcases List.mem_append.mp ho with h1 | h1
        · simpa using hinv.handle_file_valid o h1
        · have : o = { file := fd, position := 0, is_write := is_write } := by simpa using h1
          subst this
          simpa using hfd
      · intro g hg
        rcases List.mem_or_eq_of_mem_set hg with h1 | h1
        · exact handles_consistent_of_eq w _ g (by simp)
            (fun x hx => is_writer_append w _ x hx) (hinv.handles_consistent g h1)
        · subst h1
          obtain ⟨hv, hn, hs⟩ := hcf
          have hnew : w.handle_heap.length ∉ f.open_handles :=
            fun hm => Nat.lt_irrefl _ (hv _ hm)
          refine ⟨?_, ?_, ?_⟩
          · intro x hx
            rcases List.mem_append.mp hx with h2 | h2
            · have := hv x h2
              simp; omega
            · have : x = w.handle_heap.length := by simpa using h2
              simp [this]
          · exact List.nodup_append.mpr ⟨hn, List.nodup_singleton _, by
              intro a ha hb
              have : a = w.handle_heap.length := by simpa using hb
              exact hnew (this ▸ ha)⟩
          · intro x hx y hy hwx hwy
            have key : ∀ z ∈ f.open_handles,
                is_writer { w with
                  handle_heap := w.handle_heap ++
                    [{ file := fd, position := 0, is_write := is_write }]
                  file_heap := w.file_heap.set fd
                    { f with open_handles := f.open_handles ++ [w.handle_heap.length] } } z
                  = is_writer w z := by
              intro z hz
              simp [is_writer, List.getElem?_append_left (hv z hz)]
            have knew : is_writer { w with
                  handle_heap := w.handle_heap ++
                    [{ file := fd, position := 0, is_write := is_write }]
                  file_heap := w.file_heap.set fd
                    { f with open_handles := f.open_handles ++ [w.handle_heap.length] } }
                  w.handle_heap.length = is_write := by
              simp [is_writer]
            rcases List.mem_append.mp hx with h2 | h2
            · rcases List.mem_append.mp hy with h3 | h3
              · rw [key x h2] at hwx
                rw [key y h3] at hwy
                exact hs x h2 y h3 hwx hwy
              · have hyv : y = w.handle_heap.length := by simpa using h3
                subst hyv
                rw [knew] at hwy
                rw [key x h2, hold hwy x h2] at hwx
                exact absurd hwx (by decide)
            · have hxv : x = w.handle_heap.length := by simpa using h2
              subst hxv
              rcases List.mem_append.mp hy with h3 | h3
              · rw [knew] at hwx
                rw [key y h3, hold hwx y h3] at hwy
                exact absurd hwy (by decide)
              · have hyv : y = w.handle_heap.length := by simpa using h3
                exact hyv.symm
      · intro g hg
        rcases List.mem_or_eq_of_mem_set hg with h1 | h1
        · exact hinv.chain_in_map g h1
        · subst h1
          exact hinv.chain_in_map f (List.getElem?_mem hf)

/-- The invariant survives `mini_file_create_file`. -/
theorem inv_create_file (MAX_FILENAME_LENGTH : Nat) (w w1 : World) (filename : CString)
    (r : Option Nat) (hinv : Inv w)
    (hstep : mini_file_create_file MAX_FILENAME_LENGTH w filename = some (w1, r)) :
    Inv w1 := by
  unfold mini_file_create_file at hstep
  split at hstep
  · simp at hstep
  · cases halloc : mini_fat_allocate_new_block w FILE_ENTRY_BLOCK with
    | none => simp [halloc] at hstep
    | some res =>
      obtain ⟨w2, idx⟩ := res
      have hinv2 := inv_allocate w w2 _ idx hinv halloc
      simp only [halloc] at hstep
      rcases allocate_cases w w2 _ idx halloc with ⟨hi, _⟩ | ⟨hi, h0, hlt, hw2⟩
      · simp only [hi, if_true] at hstep
        injection hstep with hstep
        injection hstep with h1 _
        subst h1
        exact hinv2
      · simp only [hi, if_false] at hstep
        injection hstep with hstep
        injection hstep with h1 _
        subst h1
        have hlen2 : w2.fs.block_map.length = w.fs.block_map.length := by
          rw [hw2]; simp
        refine ⟨hinv2.map_length, ?_, ?_, ?_, ?_⟩
        · intro p hp
          rcases List.mem_append.mp hp with h2 | h2
          · have := hinv2.files_valid p h2
            simp; omega
          · have : p = w2.file_heap.length := by simpa using h2
            simp [this]
        · intro o ho
          have := hinv2.handle_file_valid o ho
          simp; omega
        · intro g hg
          rcases List.mem_append.mp hg with h2 | h2
          · exact hinv2.handles_consistent g h2
          · have hgv : g = { mini_file_create filename with
                              metadata_block_id := idx
                              block_ids := (mini_file_create filename).block_ids ++ [idx] } := by
              simpa using h2
            subst hgv
            refine ⟨?_, ?_, ?_⟩ <;> simp [mini_file_create]
        · intro g hg j hj
          rcases List.mem_append.mp hg with h2 | h2
          · exact hinv2.chain_in_map g h2 j hj
          · have hgv : g = { mini_file_create filename with
                              metadata_block_id := idx
                              block_ids := (mini_file_create filename).block_ids ++ [idx] } := by
              simpa using h2
            subst hgv
            have hjv : j = idx := by simpa [mini_file_create] using hj
            subst hjv
            exact ⟨h0, by simpa [hlen2] using hlt⟩

/-- The invariant survives `mini_file_open`. -/
theorem inv_open (MAX_FILENAME_LENGTH : Nat) (w w1 : World) (filename : CString)
    (is_write : Bool) (r : Option Nat) (hinv : Inv w)
    (hstep : mini_file_open MAX_FILENAME_LENGTH w filename is_write = some (w1, r)) :
    Inv w1 := by
  unfold mini_file_open at hstep
  split at hstep
  · simp at hstep
  · exact inv_open_on w w1 _ is_write r hinv hstep
  · split at hstep
    · injection hstep with hstep
      injection hstep with h1 _
      subst h1
      exact hinv
    · split at hstep
      · simp at hstep
      · rename_i w2 hcreate
        injection hstep with hstep
        injection hstep with h1 _
        subst h1
        exact inv_create_file MAX_FILENAME_LENGTH w _ filename none hinv hcreate
      · rename_i w2 fd hcreate
        exact inv_open_on w2 w1 fd is_write r
          (inv_create_file MAX_FILENAME_LENGTH w w2 filename (some fd) hinv hcreate) hstep

/-- The invariant survives `mini_file_close`. -/
theorem inv_close (w w1 : World) (open_file : Option Nat) (r : Bool) (hinv : Inv w)
    (hstep : mini_file_close w open_file = some (w1, r)) : Inv w1 := by
  unfold mini_file_close at hstep
  cases open_file with
  | none =>
    simp only at hstep
    injection hstep with hstep
    injection hstep with h1 _
    subst h1
    exact hinv
  | some h =>
    simp only at hstep
    cases ho : w.handle_heap[h]? with
    | none => simp [ho] at hstep
    | some o =>
      cases hf : w.file_heap[o.file]? with
      | none => simp [ho, hf] at hstep
      | some f =>
        simp only [ho, hf] at hstep
        split at hstep
        · injection hstep with hstep
          injection hstep with h1 _
          subst h1
          obtain ⟨hv, hn, hs⟩ := hinv.handles_consistent f (List.getElem?_mem hf)
          apply inv_set_file w o.file _ hinv
          · exact ⟨fun x hx => hv x (List.mem_of_mem_erase hx), hn.erase h,
              fun x hx y hy => hs x (List.mem_of_mem_erase hx) y (List.mem_of_mem_erase hy)⟩
          · exact hinv.chain_in_map f (List.getElem?_mem hf)
        · injection hstep with hstep
          injection hstep with h1 _
          subst h1
          exact hinv

/-- The invariant survives lines 224-245 of `mini_file_write`. -/
theorem inv_write_tail (w w1 : World) (h : Nat) (size r : Int) (buffer : List Nat)
    (hinv : Inv w) (hstep : write_tail w h size buffer = some (w1, r)) : Inv w1 := by
  unfold write_tail at hstep
  cases ho : w.handle_heap[h]? with
  | none => simp [ho] at hstep
  | some o =>
    simp only [ho] at hstep
    split at hstep
    · simp at hstep
    · split at hstep
      · simp at hstep
      · rename_i out _
        split at hstep
        · simp at hstep
        · rename_i w2 b hseek
          have hinv2 : Inv w2 :=
            inv_seek _ w2 h size false b (inv_set_disk w _ hinv) hseek
          split at hstep
          · simp at hstep
          · rename_i f hf
            injection hstep with hstep
            injection hstep with h1 _
            subst h1
            apply inv_set_file w2 o.file _ hinv2
            · exact hinv2.handles_consistent f (List.getElem?_mem hf)
            · exact hinv2.chain_in_map f (List.getElem?_mem hf)

/-- The invariant survives `mini_file_write`. -/
theorem inv_write (w w1 : World) (h : Nat) (size r : Int) (buffer : List Nat)
    (hinv : Inv w) (hstep : mini_file_write w h size buffer = some (w1, r)) : Inv w1 := by
  unfold mini_file_write at hstep
  cases ho : w.handle_heap[h]? with
  | none => simp [ho] at hstep
  | some o =>
    simp only [ho] at hstep
    split at hstep
    · injection hstep with hstep
      injection hstep with h1 _
      subst h1
      exact hinv
    · cases hf : w.file_heap[o.file]? with
      | none => simp [hf] at hstep
      | some f =>
        simp only [hf] at hstep
        split at hstep
        · simp at hstep
        · split at hstep
          · cases halloc : mini_fat_allocate_new_block w FILE_DATA_BLOCK with
            | none => simp [halloc] at hstep
            | some res =>
              obtain ⟨w2, idx⟩ := res
              have hinv2 := inv_allocate w w2 _ idx hinv halloc
              simp only [halloc] at hstep
              rcases allocate_cases w w2 _ idx halloc with ⟨hi, _⟩ | ⟨hi, h0, hlt, hw2⟩
              · simp only [hi, if_true] at hstep
                injection hstep with hstep
                injection hstep with h1 _
                subst h1
                exact hinv2
              · simp only [hi, if_false] at hstep
                refine inv_write_tail _ w1 h size r buffer ?_ hstep
                have hfile2 : w2.file_heap = w.file_heap := by rw [hw2]
                have hhandle2 : w2.handle_heap = w.handle_heap := by rw [hw2]
                have hlen2 : w2.fs.block_map.length = w.fs.block_map.length := by
                  rw [hw2]; simp
                have hf2 : w2.file_heap[o.file]? = some f := by rw [hfile2]; exact hf
                have ho2 : w2.handle_heap[h]? = some o := by rw [hhandle2]; exact ho
                have step1 : Inv { w2 with file_heap := w2.file_heap.set o.file
                                                      { f with block_ids :=
                                                                f.block_ids ++ [idx] } } := by
                  apply inv_set_file w2 o.file _ hinv2
                  · exact hinv2.handles_consistent f (List.getElem?_mem hf2)
                  · intro j hj
                    rcases List.mem_append.mp hj with h2 | h2
                    · exact hinv2.chain_in_map f (List.getElem?_mem hf2) j h2
                    · have hjv : j = idx := by simpa using h2
                      subst hjv
                      exact ⟨h0, by rw [hlen2]; exact hlt⟩
                exact inv_set_handle _ h o { o with position := 0 } step1 ho2 rfl rfl
          · exact inv_write_tail w w1 h size r buffer hinv hstep

/-- The store loop of `mini_file_delete` keeps the length of the block map. -/
theorem free_blocks_length : ∀ (ids : List Int) (bm bm1 : List Nat),
    free_blocks bm ids = some bm1 → bm1.length = bm.length := by
  intro ids
  induction ids with
  | nil => intro bm bm1 h; simp [free_blocks] at h; rw [h]
  | cons a rest ih =>
    intro bm bm1 h
    unfold free_blocks at h
    split at h
    · have := ih _ _ h
      simpa using this
    · simp at h

/-- The invariant survives the loop of `mini_file_delete`. -/
theorem inv_delete_loop (w w1 : World) (filename : CString) (r : Bool) (hinv : Inv w) :
    ∀ (ps : List Nat) (i : Nat), delete_loop w filename i ps = some (w1, r) → Inv w1 := by
  intro ps
  induction ps with
  | nil =>
    intro i hstep
    simp only [delete_loop] at hstep
    injection hstep with hstep
    injection hstep with h1 _
    subst h1
    exact hinv
  | cons p rest ih =>
    intro i hstep
    unfold delete_loop at hstep
    split at hstep
    · simp at hstep
    · split at hstep
      · split at hstep
        · injection hstep with hstep
          injection hstep with h1 _
          subst h1
          exact hinv
        · split at hstep
          · simp at hstep
          · rename_i bm1 hfree
            injection hstep with hstep
            injection hstep with h1 _
            subst h1
            have hlen := free_blocks_length _ _ _ hfree
            refine ⟨?_, ?_, hinv.handle_file_valid, hinv.handles_consistent, ?_⟩
            · simpa [hlen] using hinv.map_length
            · intro q hq
              exact hinv.files_valid q (List.mem_of_mem_eraseIdx hq)
            · intro g hg j hj
              simpa [hlen] using hinv.chain_in_map g hg j hj
      · exact ih (i + 1) hstep

/-- The invariant survives `mini_file_delete`. -/
theorem inv_delete (w w1 : World) (filename : CString) (r : Bool) (hinv : Inv w)
    (hstep : mini_file_delete w filename = some (w1, r)) : Inv w1 :=
  inv_delete_loop w w1 filename r hinv _ 0 hstep

/-- The invariant survives `mini_fat_save`. -/
theorem inv_save (MAX_FILENAME_LENGTH : Nat) (w w1 : World) (r : Bool) (hinv : Inv w)
    (hstep : mini_fat_save MAX_FILENAME_LENGTH w = some (w1, r)) : Inv w1 := by
  unfold mini_fat_save at hstep
  simp only at hstep
  split at hstep
  · simp at hstep
  · injection hstep with hstep
    injection hstep with h1 _
    subst h1
    exact inv_set_disk w _ hinv

/-- The invariant holds after `mini_fat_create`. -/
theorem inv_create (block_size block_count : Int) (w : World)
    (h : mini_fat_create block_size block_count = some w) : Inv w := by
  unfold mini_fat_create mini_fat_create_internal at h
  by_cases hc : block_count < 1
  · simp [hc] at h
  · simp only [hc, if_false] at h
    injection h with h
    subst h
    refine ⟨by simp, ?_, ?_, ?_, ?_⟩ <;> simp

/-- Every state the program reaches satisfies the representation invariant. -/
theorem reachable_inv (MAX_FILENAME_LENGTH : Nat) (w : World)
    (h : Reachable MAX_FILENAME_LENGTH w) : Inv w := by
  induction h with
  | start block_size block_count w hc => exact inv_create block_size block_count w hc
  | next w w1 _ hs ih =>
    cases hs with
    | by_create_file filename r h => exact inv_create_file MAX_FILENAME_LENGTH w w1 filename r ih h
    | by_open filename is_write r h => exact inv_open MAX_FILENAME_LENGTH w w1 filename is_write r ih h
    | by_close open_file r h => exact inv_close w w1 open_file r ih h
    | by_seek open_file offset from_start r h => exact inv_seek w w1 open_file offset from_start r ih h
    | by_read open_file size r buffer h => exact inv_read w w1 open_file size r buffer ih h
    | by_write open_file size r buffer h => exact inv_write w w1 open_file size r buffer ih h
    | by_delete filename r h => exact inv_delete w w1 filename r ih h
    | by_save r h => exact inv_save MAX_FILENAME_LENGTH w w1 r ih h


/-- In a reachable state the block map has `block_count` entries and every
allocated file has a consistent handle list and a chain inside the block map:
the side conditions of the theorems on open, close and delete. -/
theorem reachable_file_facts (MAX_FILENAME_LENGTH : Nat) (w : World) (fd : Nat) (f : FAT_FILE)
    (h : Reachable MAX_FILENAME_LENGTH w) (hf : w.file_heap[fd]? = some f) :
    w.fs.block_map.length = w.fs.block_count.toNat ∧ HandlesConsistent w f ∧
    (∀ j ∈ f.block_ids, 0 ≤ j ∧ j.toNat < w.fs.block_map.length) :=
  have hinv := reachable_inv MAX_FILENAME_LENGTH w h
  ⟨hinv.map_length, hinv.handles_consistent f (List.getElem?_mem hf),
   hinv.chain_in_map f (List.getElem?_mem hf)⟩

/-! ### Calls as steps of the block bookkeeping, and the invariants of runs -/

/-- What the scan returns: -1 after inspecting only non-zero entries, or the
first index whose entry is zero. -/
theorem find_empty_loop_sound (bm : List Nat) :
    ∀ (fuel i : Nat) (r : Int), find_empty_loop bm fuel i = some r →
      (r = -1 ∧ ∀ j : Nat, i ≤ j → j < i + fuel → ∃ t, bm[j]? = some t ∧ t ≠ 0) ∨
      (∃ k : Nat, r = Int.ofNat k ∧ i ≤ k ∧ k < i + fuel ∧ bm[k]? = some 0 ∧
        ∀ j : Nat, i ≤ j → j < k → ∃ t, bm[j]? = some t ∧ t ≠ 0) := by
  intro fuel
  induction fuel with
  | zero =>
    intro i r h
    simp only [find_empty_loop] at h
    injection h with h
    exact Or.inl ⟨h.symm, fun j h1 h2 => by omega⟩
  | succ n ih =>
    intro i r h
    unfold find_empty_loop at h
    cases hi : bm[i]? with
    | none => simp [hi] at h
    | some t =>
      simp only [hi] at h
      by_cases ht : t = 0
      · simp only [ht, if_true] at h
        injection h with h
        refine Or.inr ⟨i, h.symm, Nat.le_refl i, by omega, by rw [hi, ht], ?_⟩
        intro j h1 h2
        omega
      · simp only [ht, if_false] at h
        rcases ih (i + 1) r h with ⟨hr, hno⟩ | ⟨k, hr, hik, hk, hz, hbefore⟩
        · refine Or.inl ⟨hr, ?_⟩
          intro j h1 h2
          by_cases hj : j = i
          · subst hj; exact ⟨t, hi, ht⟩
          · exact hno j (by omega) (by omega)
        · refine Or.inr ⟨k, hr, by omega, by omega, hz, ?_⟩
          intro j h1 h2
          by_cases hj : j = i
          · subst hj; exact ⟨t, hi, ht⟩
          · exact hbefore j (by omega) h2

/-- Storing the value a list already holds at an index changes nothing. -/
theorem set_same {α : Type} : ∀ (l : List α) (i : Nat) (a : α), l[i]? = some a → l.set i a = l := by
  intro l
  induction l with
  | nil => intro i a h; simp
  | cons b rest ih =>
    intro i a h
    cases i with
    | zero => simp at h; simp [h]
    | succ i => simp at h; simp [ih i a h]

/-- Replacing a file object by one with the same chain view keeps the chain
views of the heap. -/
theorem map_view_set (heap : List FAT_FILE) (fd : Nat) (f g : FAT_FILE)
    (hf : heap[fd]? = some f) (hv : view g = view f) :
    (heap.set fd g).map view = heap.map view := by
  rw [List.map_set]
  apply set_same
  simp [hf, hv]

/-- `mini_file_seek` leaves the block bookkeeping alone. -/
theorem table_seek (w w1 : World) (h : Nat) (offset : Int) (from_start r : Bool)
    (hstep : mini_file_seek w h offset from_start = some (w1, r)) : table w1 = table w := by
  unfold mini_file_seek at hstep
  cases ho : w.handle_heap[h]? with
  | none => simp [ho] at hstep
  | some o =>
    cases hf : w.file_heap[o.file]? with
    | none => simp [ho, hf] at hstep
    | some f =>
      simp only [ho, hf] at hstep
      split at hstep <;> split at hstep <;>
        (injection hstep with hstep; injection hstep with h1 _; subst h1; rfl)

/-- `mini_file_read` leaves the block bookkeeping alone. -/
theorem table_read (w w1 : World) (h : Nat) (size r : Int) (buffer : List Nat)
    (hstep : mini_file_read w h size = some (w1, r, buffer)) : table w1 = table w := by
  unfold mini_file_read at hstep
  cases ho : w.handle_heap[h]? with
  | none => simp [ho] at hstep
  | some o =>
    cases hf : w.file_heap[o.file]? with
    | none => simp [ho, hf] at hstep
    | some f =>
      simp only [ho, hf] at hstep
      split at hstep
      · simp at hstep
      · rename_i w2 b hseek
        injection hstep with hstep
        injection hstep with h1 _
        subst h1
        exact table_seek w _ h _ false b hseek

/-- `mini_file_close` leaves the block bookkeeping alone. -/
theorem table_close (w w1 : World) (open_file : Option Nat) (r : Bool)
    (hstep : mini_file_close w open_file = some (w1, r)) : table w1 = table w := by
  unfold mini_file_close at hstep
  cases open_file with
  | none =>
    simp only at hstep
    injection hstep with hstep
    injection hstep with h1 _
    subst h1
    rfl
  | some h =>
    simp only at hstep
    cases ho : w.handle_heap[h]? with
    | none => simp [ho] at hstep
    | some o =>
      cases hf : w.file_heap[o.file]? with
      | none => simp [ho, hf] at hstep
      | some f =>
        simp only [ho, hf] at hstep
        split at hstep
        · injection hstep with hstep
          injection hstep with h1 _
          subst h1
          simp only [table]
          rw [map_view_set w.file_heap o.file f
            { f with open_handles := f.open_handles.erase h } hf rfl]
        · injection hstep with hstep
          injection hstep with h1 _
          subst h1
          rfl

/-- The second half of `mini_file_open` leaves the block bookkeeping alone. -/
theorem table_open_on (w w1 : World) (fd : Nat) (is_write : Bool) (r : Option Nat)
    (hstep : open_on w fd is_write = some (w1, r)) : table w1 = table w := by
  unfold open_on at hstep
  cases hf : w.file_heap[fd]? with
  | none => simp [hf] at hstep
  | some f =>
    simp only [hf] at hstep
    split at hstep
    · simp at hstep
    · injection hstep with hstep
      injection hstep with h1 _
      subst h1
      rfl
    · injection hstep with hstep
      injection hstep with h1 _
      subst h1
      simp only [table]
      rw [map_view_set w.file_heap fd f
        { f with open_handles := f.open_handles ++ [w.handle_heap.length] } hf rfl]

/-- `mini_fat_save` leaves the block bookkeeping alone. -/
theorem table_save (MAX_FILENAME_LENGTH : Nat) (w w1 : World) (r : Bool)
    (hstep : mini_fat_save MAX_FILENAME_LENGTH w = some (w1, r)) : table w1 = table w := by
  unfold mini_fat_save at hstep
  simp only at hstep
  split at hstep
  · simp at hstep
  · injection hstep with hstep
    injection hstep with h1 _
    subst h1
    rfl

/-- Lines 224-245 of `mini_file_write` leave the block bookkeeping alone. -/
theorem table_write_tail (w w1 : World) (h : Nat) (size r : Int) (buffer : List Nat)
    (hstep : write_tail w h size buffer = some (w1, r)) : table w1 = table w := by
  unfold write_tail at hstep
  cases ho : w.handle_heap[h]? with
  | none => simp [ho] at hstep
  | some o =>
    simp only [ho] at hstep
    split at hstep
    · simp at hstep
    · split at hstep
      · simp at hstep
      · rename_i out _
        split at hstep
        · simp at hstep
        · rename_i w2 b hseek
          have ht2 := table_seek _ w2 h size false b hseek
          split at hstep
          · simp at hstep
          · rename_i f hf
            injection hstep with hstep
            injection hstep with h1 _
            subst h1
            have : table { w2 with file_heap := w2.file_heap.set o.file
                                      { f with size := wrap32 (f.size + size) } } = table w2 := by
              simp only [table]
              rw [map_view_set w2.file_heap o.file f
                { f with size := wrap32 (f.size + size) } hf rfl]
            rw [this, ht2]
            rfl

/-- What an allocation leaves, with the tag the chosen block had: the same
state when it returns -1, otherwise one Empty entry overwritten. -/
theorem allocate_zero (w w1 : World) (k : Nat) (r : Int)
    (hstep : mini_fat_allocate_new_block w k = some (w1, r)) :
    (r = -1 ∧ w1 = w) ∨
    (∃ idx : Nat, r = Int.ofNat idx ∧ w.fs.block_map[idx]? = some 0 ∧
      (∀ j : Nat, j < idx → ∃ t, w.fs.block_map[j]? = some t ∧ t ≠ 0) ∧
      w1 = { w with fs := { w.fs with block_map := w.fs.block_map.set idx k } }) := by
  unfold mini_fat_allocate_new_block at hstep
  cases hfind : mini_fat_find_empty_block w.fs with
  | none => simp [hfind] at hstep
  | some x =>
    simp only [hfind] at hstep
    unfold mini_fat_find_empty_block at hfind
    rcases find_empty_loop_sound _ _ _ _ hfind with ⟨hx, _⟩ | ⟨idx, hx, _, _, hz, hbefore⟩
    · subst hx
      simp only [if_true] at hstep
      injection hstep with hstep
      injection hstep with h1 h2
      exact Or.inl ⟨h2.symm, h1.symm⟩
    · have hnn : (0 : Int) ≤ Int.ofNat idx := Int.ofNat_nonneg idx
      have hne : x ≠ -1 := by omega
      simp only [hne, if_false] at hstep
      injection hstep with hstep
      injection hstep with h1 h2
      subst hx
      refine Or.inr ⟨idx, h2.symm, hz, fun j hj => hbefore j (Nat.zero_le j) hj, ?_⟩
      rw [← h1]
      simp

/-- An allocation is a table step. -/
theorem tstep_allocate (d : Bool) (w w1 : World) (k : Nat) (r : Int)
    (hstep : mini_fat_allocate_new_block w k = some (w1, r)) :
    TStep d (table w) (table w1) := by
  rcases allocate_zero w w1 k r hstep with ⟨_, h1⟩ | ⟨idx, _, hz, _, h1⟩
  · subst h1; exact TStep.same _
  · subst h1; exact TStep.alloc (table w) idx k hz

/-- A chain view found in the heap's views is the view of the file there. -/
theorem chains_lookup (heap : List FAT_FILE) (p : Nat) (c : ChainView)
    (h : (heap.map view)[p]? = some c) : ∃ f, heap[p]? = some f ∧ view f = c := by
  rw [List.getElem?_map] at h
  cases hf : heap[p]? with
  | none => simp [hf] at h
  | some f => exact ⟨f, rfl, by simpa [hf] using h⟩

/-- `mini_file_create_file` is a table step; it registers a new name when no
registered file has the name. -/
theorem tstep_create_file (MAX_FILENAME_LENGTH : Nat) (d : Bool) (w w1 : World)
    (filename : CString) (r : Option Nat)
    (hstep : mini_file_create_file MAX_FILENAME_LENGTH w filename = some (w1, r))
    (hfresh : d = false →
      ∀ p ∈ w.fs.files, ∀ f, w.file_heap[p]? = some f → f.name ≠ filename) :
    TStep d (table w) (table w1) := by
  unfold mini_file_create_file at hstep
  split at hstep
  · simp at hstep
  · cases halloc : mini_fat_allocate_new_block w FILE_ENTRY_BLOCK with
    | none => simp [halloc] at hstep
    | some res =>
      obtain ⟨w2, x⟩ := res
      simp only [halloc] at hstep
      rcases allocate_zero w w2 _ x halloc with ⟨hi, hw2⟩ | ⟨idx, hx, hz, _, hw2⟩
      · simp only [hi, if_true] at hstep
        injection hstep with hstep
        injection hstep with h1 _
        subst h1
        subst hw2
        exact TStep.same _
      · have hnn : (0 : Int) ≤ Int.ofNat idx := Int.ofNat_nonneg idx
        have hne : x ≠ -1 := by omega
        simp only [hne, if_false] at hstep
        injection hstep with hstep
        injection hstep with h1 _
        subst h1
        subst hw2
        subst hx
        have hstep2 := @TStep.create d (table w) idx filename hz (by
          intro hd p hp c hc
          obtain ⟨f, hf, hv⟩ := chains_lookup _ _ _ hc
          rw [← hv]
          exact hfresh hd p hp f hf)
        simpa [table, view, mini_file_create] using hstep2

/-- A lookup that finds no file has inspected every registered file. -/
theorem find_loop_absent (heap : List FAT_FILE) (filename : CString) :
    ∀ ps : List Nat, find_loop heap filename ps = some none →
      ∀ p ∈ ps, ∀ f, heap[p]? = some f → f.name ≠ filename := by
  intro ps
  induction ps with
  | nil => intro _ p hp; simp at hp
  | cons a rest ih =>
    intro h p hp f hf
    unfold find_loop at h
    cases ha : heap[a]? with
    | none => simp [ha] at h
    | some g =>
      simp only [ha] at h
      by_cases hn : g.name = filename
      · simp [hn] at h
      · simp only [hn, if_false] at h
        rcases List.mem_cons.mp hp with h1 | h1
        · subst h1
          rw [ha] at hf
          injection hf with hf
          subst hf
          exact hn
        · exact ih h p h1 f hf

/-- `mini_file_open` is a table step that registers only a new name. -/
theorem tstep_open (MAX_FILENAME_LENGTH : Nat) (w w1 : World) (filename : CString)
    (is_write : Bool) (r : Option Nat)
    (hstep : mini_file_open MAX_FILENAME_LENGTH w filename is_write = some (w1, r)) :
    TStep false (table w) (table w1) := by
  unfold mini_file_open at hstep
  split at hstep
  · simp at hstep
  · rw [table_open_on w w1 _ is_write r hstep]
    exact TStep.same _
  · rename_i hfind
    split at hstep
    · injection hstep with hstep
      injection hstep with h1 _
      subst h1
      exact TStep.same _
    · split at hstep
      · simp at hstep
      · rename_i w2 hcreate
        injection hstep with hstep
        injection hstep with h1 _
        subst h1
        exact tstep_create_file MAX_FILENAME_LENGTH false w _ filename none hcreate
          (fun _ => find_loop_absent _ _ _ hfind)
      · rename_i w2 fd hcreate
        rw [table_open_on w2 w1 fd is_write r hstep]
        exact tstep_create_file MAX_FILENAME_LENGTH false w w2 filename (some fd) hcreate
          (fun _ => find_loop_absent _ _ _ hfind)

/-- `mini_file_write` is a table step. -/
theorem tstep_write (d : Bool) (w w1 : World) (h : Nat) (size r : Int) (buffer : List Nat)
    (hstep : mini_file_write w h size buffer = some (w1, r)) :
    TStep d (table w) (table w1) := by
  unfold mini_file_write at hstep
  cases ho : w.handle_heap[h]? with
  | none => simp [ho] at hstep
  | some o =>
    simp only [ho] at hstep
    split at hstep
    · injection hstep with hstep
      injection hstep with h1 _
      subst h1
      exact TStep.same _
    · cases hf : w.file_heap[o.file]? with
      | none => simp [hf] at hstep
      | some f =>
        simp only [hf] at hstep
        split at hstep
        · simp at hstep
        · split at hstep
          · cases halloc : mini_fat_allocate_new_block w FILE_DATA_BLOCK with
            | none => simp [halloc] at hstep
            | some res =>
              obtain ⟨w2, x⟩ := res
              simp only [halloc] at hstep
              rcases allocate_zero w w2 _ x halloc with ⟨hi, hw2⟩ | ⟨idx, hx, hz, _, hw2⟩
              · simp only [hi, if_true] at hstep
                injection hstep with hstep
                injection hstep with h1 _
                subst h1
                subst hw2
                exact TStep.same _
              · have hnn : (0 : Int) ≤ Int.ofNat idx := Int.ofNat_nonneg idx
                have hne : x ≠ -1 := by omega
                simp only [hne, if_false] at hstep
                rw [table_write_tail _ w1 h size r buffer hstep]
                subst hw2
                subst hx
                have hc : (table w).chains[o.file]? = some (view f) := by
                  simp [table, hf]
                have hstep2 := @TStep.extend d (table w) o.file (view f) idx hz hc
                simpa [table, view] using hstep2
          · rw [table_write_tail w w1 h size r buffer hstep]
            exact TStep.same _

/-- The list of elements from index `i` on starts with the element at `i`. -/
theorem drop_cons {α : Type} : ∀ (l : List α) (i : Nat) (a : α) (rest : List α),
    l.drop i = a :: rest → l[i]? = some a ∧ l.drop (i + 1) = rest := by
  intro l
  induction l with
  | nil => intro i a rest h; simp at h
  | cons b tl ih =>
    intro i a rest h
    cases i with
    | zero =>
      simp at h
      simp [h.1, h.2]
    | succ i =>
      simp at h
      simpa using ih i a rest h

/-- The loop of `mini_file_delete` is a table step. -/
theorem tstep_delete_loop (d : Bool) (w w1 : World) (filename : CString) (r : Bool) :
    ∀ (ps : List Nat) (i : Nat), w.fs.files.drop i = ps →
      delete_loop w filename i ps = some (w1, r) → TStep d (table w) (table w1) := by
  intro ps
  induction ps with
  | nil =>
    intro i _ hstep
    simp only [delete_loop] at hstep
    injection hstep with hstep
    injection hstep with h1 _
    subst h1
    exact TStep.same _
  | cons p rest ih =>
    intro i hdrop hstep
    obtain ⟨hip, hrest⟩ := drop_cons _ _ _ _ hdrop
    unfold delete_loop at hstep
    split at hstep
    · simp at hstep
    · rename_i f hf
      split at hstep
      · split at hstep
        · injection hstep with hstep
          injection hstep with h1 _
          subst h1
          exact TStep.same _
        · split at hstep
          · simp at hstep
          · rename_i bm1 hfree
            injection hstep with hstep
            injection hstep with h1 _
            subst h1
            have hc : (table w).chains[p]? = some (view f) := by
              simp [table, hf]
            exact @TStep.delete d (table w) i p (view f) bm1 hip hc hfree
      · exact ih (i + 1) hrest hstep

/-- `mini_file_delete` is a table step. -/
theorem tstep_delete (d : Bool) (w w1 : World) (filename : CString) (r : Bool)
    (hstep : mini_file_delete w filename = some (w1, r)) : TStep d (table w) (table w1) :=
  tstep_delete_loop d w w1 filename r _ 0 (by simp) hstep

/-- A step that never duplicates a name is a step. -/
theorem tstep_weaken (d : Bool) (t t1 : Table) (h : TStep false t t1) : TStep d t t1 := by
  cases h with
  | same => exact TStep.same _
  | alloc idx k hz => exact TStep.alloc _ idx k hz
  | create idx name hz hfresh => exact TStep.create _ idx name hz (fun _ => hfresh rfl)
  | extend fd c idx hz hc => exact TStep.extend _ fd c idx hz hc
  | delete k p c bm hk hc hfree => exact TStep.delete _ k p c bm hk hc hfree

/-- Every call acts on the block bookkeeping by one table step; only a direct
`mini_file_create_file` can register a name a second time. -/
theorem tstep_call (MAX_FILENAME_LENGTH : Nat) (w w1 : World) (c : Call)
    (hstep : run_call MAX_FILENAME_LENGTH w c = some w1) :
    TStep (is_create_file c) (table w) (table w1) := by
  cases c with
  | do_allocate k =>
    simp only [run_call, Option.map_eq_some'] at hstep
    obtain ⟨⟨w2, r⟩, h, rfl⟩ := hstep
    exact tstep_allocate _ w w2 k r h
  | do_create_file filename =>
    simp only [run_call, Option.map_eq_some'] at hstep
    obtain ⟨⟨w2, r⟩, h, rfl⟩ := hstep
    exact tstep_create_file MAX_FILENAME_LENGTH _ w w2 filename r h
      (fun hd => by simp [is_create_file] at hd)
  | do_open filename is_write =>
    simp only [run_call, Option.map_eq_some'] at hstep
    obtain ⟨⟨w2, r⟩, h, rfl⟩ := hstep
    exact tstep_weaken _ _ _ (tstep_open MAX_FILENAME_LENGTH w w2 filename is_write r h)
  | do_close open_file =>
    simp only [run_call, Option.map_eq_some'] at hstep
    obtain ⟨⟨w2, r⟩, h, rfl⟩ := hstep
    rw [table_close w w2 open_file r h]
    exact TStep.same _
  | do_seek open_file offset from_start =>
    simp only [run_call, Option.map_eq_some'] at hstep
    obtain ⟨⟨w2, r⟩, h, rfl⟩ := hstep
    rw [table_seek w w2 open_file offset from_start r h]
    exact TStep.same _
  | do_read open_file size =>
    simp only [run_call, Option.map_eq_some'] at hstep
    obtain ⟨⟨w2, r, b⟩, h, rfl⟩ := hstep
    rw [table_read w w2 open_file size r b h]
    exact TStep.same _
  | do_write open_file size buffer =>
    simp only [run_call, Option.map_eq_some'] at hstep
    obtain ⟨⟨w2, r⟩, h, rfl⟩ := hstep
    exact tstep_write _ w w2 open_file size r buffer h
  | do_delete filename =>
    simp only [run_call, Option.map_eq_some'] at hstep
    obtain ⟨⟨w2, r⟩, h, rfl⟩ := hstep
    exact tstep_delete _ w w2 filename r h
  | do_save =>
    simp only [run_call, Option.map_eq_some'] at hstep
    obtain ⟨⟨w2, r⟩, h, rfl⟩ := hstep
    rw [table_save MAX_FILENAME_LENGTH w w2 r h]
    exact TStep.same _

/-- Overwriting an Empty entry keeps every non-Empty entry. -/
theorem set_keep (bm : List Nat) (idx k n t : Nat) (hz : bm[idx]? = some 0)
    (hn : bm[n]? = some t) (ht : t ≠ 0) : (bm.set idx k)[n]? = some t := by
  have hne : idx ≠ n := by
    intro h
    subst h
    rw [hz] at hn
    exact ht (Option.some.inj hn).symm
  rw [List.getElem?_set_ne hne]
  exact hn

/-- An Empty block is in no chain whose blocks are non-Empty. -/
theorem chain_avoids (bm : List Nat) (ids : List Int) (idx : Nat) (hz : bm[idx]? = some 0)
    (htag : ∀ j ∈ ids, 0 < j ∧ ∃ tag, bm[j.toNat]? = some tag ∧ tag ≠ 0) :
    Int.ofNat idx ∉ ids := by
  intro hmem
  obtain ⟨_, tag, ht, hne⟩ := htag _ hmem
  have : (Int.ofNat idx).toNat = idx := by simp
  rw [this, hz] at ht
  exact hne (Option.some.inj ht).symm

/-- The entry found after replacing the entry at `fd`. -/
theorem lookup_set {α : Type} (l : List α) (fd p : Nat) (c x y : α) (hc : l[fd]? = some c)
    (h : (l.set fd x)[p]? = some y) : (p = fd ∧ y = x) ∨ (p ≠ fd ∧ l[p]? = some y) := by
  have hfd : fd < l.length := (List.getElem?_eq_some.mp hc).1
  by_cases hp : p = fd
  · subst hp
    rw [List.getElem?_set_self hfd] at h
    exact Or.inl ⟨rfl, (Option.some.inj h).symm⟩
  · rw [List.getElem?_set_ne (Ne.symm hp)] at h
    exact Or.inr ⟨hp, h⟩

/-- The head of a list is one of its members. -/
theorem mem_of_head {α : Type} (l : List α) (a : α) (h : l.head? = some a) : a ∈ l := by
  cases l with
  | nil => simp at h
  | cons b rest =>
    simp at h
    simp [h]

/-- The bookkeeping invariant survives the tagging of an Empty block. -/
theorem tinv_alloc (t : Table) (idx k : Nat) (hz : t.block_map[idx]? = some 0)
    (hinv : TInv t) : TInv { t with block_map := t.block_map.set idx k } := by
  refine ⟨?_, hinv.files_nodup, hinv.files_valid, hinv.chain_nodup, hinv.chain_head, ?_, ?_,
    hinv.chain_disjoint⟩
  · exact set_keep _ _ _ _ _ hz hinv.block_zero (by decide)
  · intro p hp c hc
    exact set_keep _ _ _ _ _ hz (hinv.meta_tag p hp c hc) (by decide)
  · intro p hp c hc j hj
    obtain ⟨hpos, tag, ht, hne⟩ := hinv.chain_tag p hp c hc j hj
    exact ⟨hpos, tag, set_keep _ _ _ _ _ hz ht hne, hne⟩

/-- The entry found after appending one entry. -/
theorem lookup_append {α : Type} (l : List α) (p : Nat) (x y : α)
    (h : (l ++ [x])[p]? = some y) :
    (p < l.length ∧ l[p]? = some y) ∨ (p = l.length ∧ y = x) := by
  by_cases hp : p < l.length
  · rw [List.getElem?_append_left hp] at h
    exact Or.inl ⟨hp, h⟩
  · have hge : l.length ≤ p := Nat.le_of_not_lt hp
    rw [List.getElem?_append_right hge] at h
    have hlt : p - l.length < 1 := by
      by_contra hcon
      rw [List.getElem?_eq_none (by simpa using Nat.le_of_not_lt hcon)] at h
      exact Option.noConfusion h
    have hz : p - l.length = 0 := by omega
    rw [hz] at h
    simp at h
    exact Or.inr ⟨by omega, h.symm⟩

/-- The bookkeeping invariant survives the registration of a new file on an
Empty block. -/
theorem tinv_create (t : Table) (idx : Nat) (name : CString)
    (hz : t.block_map[idx]? = some 0) (hinv : TInv t) :
    TInv { block_map := t.block_map.set idx FILE_ENTRY_BLOCK
           files := t.files ++ [t.chains.length]
           chains := t.chains ++
             [{ name := name, metadata_block_id := Int.ofNat idx,
                block_ids := [Int.ofNat idx] }] } := by
  have hidx : idx < t.block_map.length := (List.getElem?_eq_some.mp hz).1
  have hidx0 : idx ≠ 0 := by
    intro h
    subst h
    rw [hinv.block_zero] at hz
    exact absurd (Option.some.inj hz) (by decide)
  have hpos : (0 : Int) < Int.ofNat idx := by
    have : (Int.ofNat idx) = (idx : Int) := rfl
    omega
  have htn : (Int.ofNat idx).toNat = idx := by simp
  have hnew : t.chains.length ∉ t.files := fun hm => Nat.lt_irrefl _ (hinv.files_valid _ hm)
  -- every registered file is an old one with its old view, or the new one
  have hcase : ∀ p ∈ t.files ++ [t.chains.length], ∀ c,
      (t.chains ++ [{ name := name, metadata_block_id := Int.ofNat idx,
                      block_ids := [Int.ofNat idx] }])[p]? = some c →
      (p ∈ t.files ∧ t.chains[p]? = some c) ∨
      (p = t.chains.length ∧
        c = { name := name, metadata_block_id := Int.ofNat idx,
              block_ids := [Int.ofNat idx] }) := by
    intro p hp c hc
    rcases lookup_append _ _ _ _ hc with ⟨hlt, hold⟩ | ⟨heq, hval⟩
    · rcases List.mem_append.mp hp with h1 | h1
      · exact Or.inl ⟨h1, hold⟩
      · have : p = t.chains.length := by simpa using h1
        omega
    · exact Or.inr ⟨heq, hval⟩
  refine ⟨?_, ?_, ?_, ?_, ?_, ?_, ?_, ?_⟩
  · exact set_keep _ _ _ _ _ hz hinv.block_zero (by decide)
  · exact List.nodup_append.mpr ⟨hinv.files_nodup, List.nodup_singleton _, by
      intro a ha hb
      have : a = t.chains.length := by simpa using hb
      exact hnew (this ▸ ha)⟩
  · intro p hp
    rcases List.mem_append.mp hp with h1 | h1
    · have := hinv.files_valid p h1
      simp; omega
    · have : p = t.chains.length := by simpa using h1
      simp [this]
  · intro p hp c hc
    rcases hcase p hp c hc with ⟨h1, h2⟩ | ⟨_, h2⟩
    · exact hinv.chain_nodup p h1 c h2
    · subst h2; simp
  · intro p hp c hc
    rcases hcase p hp c hc with ⟨h1, h2⟩ | ⟨_, h2⟩
    · exact hinv.chain_head p h1 c h2
    · subst h2; simp
  · intro p hp c hc
    rcases hcase p hp c hc with ⟨h1, h2⟩ | ⟨_, h2⟩
    · exact set_keep _ _ _ _ _ hz (hinv.meta_tag p h1 c h2) (by decide)
    · subst h2
      simp only [htn]
      exact List.getElem?_set_self hidx
  · intro p hp c hc j hj
    rcases hcase p hp c hc with ⟨h1, h2⟩ | ⟨_, h2⟩
    · obtain ⟨hp0, tag, ht, hne⟩ := hinv.chain_tag p h1 c h2 j hj
      exact ⟨hp0, tag, set_keep _ _ _ _ _ hz ht hne, hne⟩
    · subst h2
      have hjv : j = Int.ofNat idx := by simpa using hj
      subst hjv
      refine ⟨hpos, FILE_ENTRY_BLOCK, ?_, by decide⟩
      simp only [htn]
      exact List.getElem?_set_self hidx
  · intro p hp q hq hpq c d hc hd j hj
    rcases hcase p hp c hc with ⟨h1, h2⟩ | ⟨h1, h2⟩
    · rcases hcase q hq d hd with ⟨h3, h4⟩ | ⟨_, h4⟩
      · exact hinv.chain_disjoint p h1 q h3 hpq c d h2 h4 j hj
      · subst h4
        intro hmem
        have hjv : j = Int.ofNat idx := by simpa using hmem
        subst hjv
        exact chain_avoids _ _ _ hz (hinv.chain_tag p h1 c h2) hj
    · rcases hcase q hq d hd with ⟨h3, h4⟩ | ⟨h3, _⟩
      · subst h2
        have hjv : j = Int.ofNat idx := by simpa using hj
        subst hjv
        exact chain_avoids _ _ _ hz (hinv.chain_tag q h3 d h4)
      · exact absurd (h1.trans h3.symm) hpq

/-- The bookkeeping invariant survives the extension of a chain by an Empty
block. -/
theorem tinv_extend (t : Table) (fd : Nat) (c0 : ChainView) (idx : Nat)
    (hz : t.block_map[idx]? = some 0) (hc0 : t.chains[fd]? = some c0) (hinv : TInv t) :
    TInv { t with
           block_map := t.block_map.set idx FILE_DATA_BLOCK
           chains := t.chains.set fd
             { c0 with block_ids := c0.block_ids ++ [Int.ofNat idx] } } := by
  have hidx : idx < t.block_map.length := (List.getElem?_eq_some.mp hz).1
  have hidx0 : idx ≠ 0 := by
    intro h
    subst h
    rw [hinv.block_zero] at hz
    exact absurd (Option.some.inj hz) (by decide)
  have hpos : (0 : Int) < Int.ofNat idx := by
    have : (Int.ofNat idx) = (idx : Int) := rfl
    omega
  have htn : (Int.ofNat idx).toNat = idx := by simp
  have hcase : ∀ p c,
      (t.chains.set fd { c0 with block_ids := c0.block_ids ++ [Int.ofNat idx] })[p]? = some c →
      (p = fd ∧ c = { c0 with block_ids := c0.block_ids ++ [Int.ofNat idx] }) ∨
      (p ≠ fd ∧ t.chains[p]? = some c) :=
    fun p c hc => lookup_set _ _ _ _ _ _ hc0 hc
  refine ⟨?_, hinv.files_nodup, ?_, ?_, ?_, ?_, ?_, ?_⟩
  · exact set_keep _ _ _ _ _ hz hinv.block_zero (by decide)
  · intro p hp
    simpa using hinv.files_valid p hp
  · intro p hp c hc
    rcases hcase p c hc with ⟨h1, h2⟩ | ⟨_, h2⟩
    · subst h1; subst h2
      exact List.nodup_append.mpr ⟨hinv.chain_nodup p hp c0 hc0, List.nodup_singleton _, by
        intro a ha hb
        have hav : a = Int.ofNat idx := by simpa using hb
        subst hav
        exact chain_avoids _ _ _ hz (hinv.chain_tag p hp c0 hc0) ha⟩
    · exact hinv.chain_nodup p hp c h2
  · intro p hp c hc
    rcases hcase p c hc with ⟨h1, h2⟩ | ⟨_, h2⟩
    · subst h1; subst h2
      have := hinv.chain_head p hp c0 hc0
      simp [List.head?_append, this]
    · exact hinv.chain_head p hp c h2
  · intro p hp c hc
    rcases hcase p c hc with ⟨h1, h2⟩ | ⟨_, h2⟩
    · subst h1; subst h2
      exact set_keep _ _ _ _ _ hz (hinv.meta_tag p hp c0 hc0) (by decide)
    · exact set_keep _ _ _ _ _ hz (hinv.meta_tag p hp c h2) (by decide)
  · intro p hp c hc j hj
    rcases hcase p c hc with ⟨h1, h2⟩ | ⟨_, h2⟩
    · subst h1; subst h2
      rcases List.mem_append.mp hj with h3 | h3
      · obtain ⟨hp0, tag, ht, hne⟩ := hinv.chain_tag p hp c0 hc0 j h3
        exact ⟨hp0, tag, set_keep _ _ _ _ _ hz ht hne, hne⟩
      · have hjv : j = Int.ofNat idx := by simpa using h3
        subst hjv
        refine ⟨hpos, FILE_DATA_BLOCK, ?_, by decide⟩
        simp only [htn]
        exact List.getElem?_set_self hidx
    · obtain ⟨hp0, tag, ht, hne⟩ := hinv.chain_tag p hp c h2 j hj
      exact ⟨hp0, tag, set_keep _ _ _ _ _ hz ht hne, hne⟩
  · intro p hp q hq hpq c d hc hd j hj
    rcases hcase p c hc with ⟨h1, h2⟩ | ⟨h1, h2⟩
    · rcases hcase q d hd with ⟨h3, _⟩ | ⟨_, h4⟩
      · exact absurd (h1.trans h3.symm) hpq
      · subst h1; subst h2
        rcases List.mem_append.mp hj with h5 | h5
        · exact hinv.chain_disjoint p hp q hq hpq c0 d hc0 h4 j h5
        · have hjv : j = Int.ofNat idx := by simpa using h5
          subst hjv
          exact chain_avoids _ _ _ hz (hinv.chain_tag q hq d h4)
    · rcases hcase q d hd with ⟨h3, h4⟩ | ⟨_, h4⟩
      · subst h3; subst h4
        intro hmem
        rcases List.mem_append.mp hmem with h5 | h5
        · exact hinv.chain_disjoint p hp q hq hpq c c0 h2 hc0 j hj h5
        · have hjv : j = Int.ofNat idx := by simpa using h5
          subst hjv
          exact chain_avoids _ _ _ hz (hinv.chain_tag p hp c h2) hj
      · exact hinv.chain_disjoint p hp q hq hpq c d h2 h4 j hj

/-- In a list without repetition, what is left after erasing index `k` does
not contain the erased element. -/
theorem mem_eraseIdx_nodup {α : Type} (l : List α) (k : Nat) (a x : α) (hn : l.Nodup)
    (hk : l[k]? = some a) (hx : x ∈ l.eraseIdx k) : x ∈ l ∧ x ≠ a := by
  refine ⟨List.mem_of_mem_eraseIdx hx, ?_⟩
  intro hxa
  subst hxa
  obtain ⟨i, hik, hi⟩ := List.mem_eraseIdx_iff_getElem?.mp hx
  have hil : i < l.length := (List.getElem?_eq_some.mp hi).1
  exact hik (List.getElem?_inj hil hn (hi.trans hk.symm))

/-- The bookkeeping invariant survives the deletion of a registered file. -/
theorem tinv_delete (t : Table) (k p0 : Nat) (c0 : ChainView) (bm1 : List Nat)
    (hk : t.files[k]? = some p0) (hc0 : t.chains[p0]? = some c0)
    (hfree : free_blocks t.block_map c0.block_ids = some bm1) (hinv : TInv t) :
    TInv { t with block_map := bm1, files := t.files.eraseIdx k } := by
  have hp0 : p0 ∈ t.files := List.getElem?_mem hk
  have htag0 := hinv.chain_tag p0 hp0 c0 hc0
  obtain ⟨bm2, hfree2, _, _, hother, _⟩ := free_blocks_spec c0.block_ids t.block_map
    (fun j hj => by
      obtain ⟨hpos, tag, ht, _⟩ := htag0 j hj
      exact ⟨by omega, (List.getElem?_eq_some.mp ht).1⟩)
  have hbm : bm2 = bm1 := by
    rw [hfree2] at hfree
    exact Option.some.inj hfree
  subst hbm
  have hsub : ∀ q ∈ t.files.eraseIdx k, q ∈ t.files ∧ q ≠ p0 :=
    fun q hq => mem_eraseIdx_nodup _ _ _ _ hinv.files_nodup hk hq
  -- the entries of a surviving chain are untouched
  have hkeep : ∀ q ∈ t.files.eraseIdx k, ∀ d, t.chains[q]? = some d → ∀ j ∈ d.block_ids,
      bm2[j.toNat]? = t.block_map[j.toNat]? := by
    intro q hq d hd j hj
    obtain ⟨hq1, hq2⟩ := hsub q hq
    apply hother
    intro j0 hj0 heq
    have hpos0 := (htag0 j0 hj0).1
    have hposj := (hinv.chain_tag q hq1 d hd j hj).1
    have : j0 = j := by omega
    subst this
    exact hinv.chain_disjoint p0 hp0 q hq1 (Ne.symm hq2) c0 d hc0 hd j0 hj0 hj
  refine ⟨?_, hinv.files_nodup.eraseIdx k, ?_, ?_, ?_, ?_, ?_, ?_⟩
  · have : bm2[0]? = t.block_map[0]? := by
      apply hother
      intro j0 hj0 heq
      have hpos0 := (htag0 j0 hj0).1
      omega
    rw [this]
    exact hinv.block_zero
  · intro q hq
    exact hinv.files_valid q (hsub q hq).1
  · intro q hq d hd
    exact hinv.chain_nodup q (hsub q hq).1 d hd
  · intro q hq d hd
    exact hinv.chain_head q (hsub q hq).1 d hd
  · intro q hq d hd
    have hm := mem_of_head _ _ (hinv.chain_head q (hsub q hq).1 d hd)
    show bm2[d.metadata_block_id.toNat]? = some FILE_ENTRY_BLOCK
    rw [hkeep q hq d hd _ hm]
    exact hinv.meta_tag q (hsub q hq).1 d hd
  · intro q hq d hd j hj
    obtain ⟨hpos, tag, ht, hne⟩ := hinv.chain_tag q (hsub q hq).1 d hd j hj
    refine ⟨hpos, tag, ?_, hne⟩
    show bm2[j.toNat]? = some tag
    rw [hkeep q hq d hd j hj]
    exact ht
  · intro p hp q hq hpq c d hc hd j hj
    exact hinv.chain_disjoint p (hsub p hp).1 q (hsub q hq).1 hpq c d hc hd j hj

/-- The bookkeeping invariant survives every table step. -/
theorem tinv_step (d : Bool) (t t1 : Table) (h : TStep d t t1) (hinv : TInv t) : TInv t1 := by
  cases h with
  | same => exact hinv
  | alloc idx k hz => exact tinv_alloc t idx k hz hinv
  | create idx name hz _ => exact tinv_create t idx name hz hinv
  | extend fd c idx hz hc => exact tinv_extend t fd c idx hz hc hinv
  | delete k p c bm hk hc hfree => exact tinv_delete t k p c bm hk hc hfree hinv

/-- The bookkeeping invariant holds on a filesystem fresh from
`mini_fat_create`. -/
theorem tinv_create_fs (block_size block_count : Int) (w : World)
    (h : mini_fat_create block_size block_count = some w) : TInv (table w) := by
  unfold mini_fat_create mini_fat_create_internal at h
  by_cases hc : block_count < 1
  · simp [hc] at h
  · simp only [hc, if_false] at h
    injection h with h
    subst h
    have hn : 0 < block_count.toNat := by omega
    refine ⟨?_, ?_, ?_, ?_, ?_, ?_, ?_, ?_⟩ <;> simp [table, hn]

/-- The bookkeeping invariant holds after every sequence of calls from a state
where it holds. -/
theorem tinv_run (MAX_FILENAME_LENGTH : Nat) : ∀ (calls : List Call) (w w1 : World),
    run_calls MAX_FILENAME_LENGTH w calls = some w1 → TInv (table w) → TInv (table w1) := by
  intro calls
  induction calls with
  | nil =>
    intro w w1 h hinv
    simp only [run_calls] at h
    injection h with h
    subst h
    exact hinv
  | cons c rest ih =>
    intro w w1 h hinv
    unfold run_calls at h
    cases hc : run_call MAX_FILENAME_LENGTH w c with
    | none => simp [hc] at h
    | some w2 =>
      simp only [hc] at h
      exact ih w2 w1 h (tinv_step _ _ _ (tstep_call MAX_FILENAME_LENGTH w w2 c hc) hinv)

/-- The representation invariant survives every call. -/
theorem inv_call (MAX_FILENAME_LENGTH : Nat) (w w1 : World) (c : Call) (hinv : Inv w)
    (hstep : run_call MAX_FILENAME_LENGTH w c = some w1) : Inv w1 := by
  cases c with
  | do_allocate k =>
    simp only [run_call, Option.map_eq_some'] at hstep
    obtain ⟨⟨w2, r⟩, h, rfl⟩ := hstep
    exact inv_allocate w w2 k r hinv h
  | do_create_file filename =>
    simp only [run_call, Option.map_eq_some'] at hstep
    obtain ⟨⟨w2, r⟩, h, rfl⟩ := hstep
    exact inv_create_file MAX_FILENAME_LENGTH w w2 filename r hinv h
  | do_open filename is_write =>
    simp only [run_call, Option.map_eq_some'] at hstep
    obtain ⟨⟨w2, r⟩, h, rfl⟩ := hstep
    exact inv_open MAX_FILENAME_LENGTH w w2 filename is_write r hinv h
  | do_close open_file =>
    simp only [run_call, Option.map_eq_some'] at hstep
    obtain ⟨⟨w2, r⟩, h, rfl⟩ := hstep
    exact inv_close w w2 open_file r hinv h
  | do_seek open_file offset from_start =>
    simp only [run_call, Option.map_eq_some'] at hstep
    obtain ⟨⟨w2, r⟩, h, rfl⟩ := hstep
    exact inv_seek w w2 open_file offset from_start r hinv h
  | do_read open_file size =>
    simp only [run_call, Option.map_eq_some'] at hstep
    obtain ⟨⟨w2, r, b⟩, h, rfl⟩ := hstep
    exact inv_read w w2 open_file size r b hinv h
  | do_write open_file size buffer =>
    simp only [run_call, Option.map_eq_some'] at hstep
    obtain ⟨⟨w2, r⟩, h, rfl⟩ := hstep
    exact inv_write w w2 open_file size r buffer hinv h
  | do_delete filename =>
    simp only [run_call, Option.map_eq_some'] at hstep
    obtain ⟨⟨w2, r⟩, h, rfl⟩ := hstep
    exact inv_delete w w2 filename r hinv h
  | do_save =>
    simp only [run_call, Option.map_eq_some'] at hstep
    obtain ⟨⟨w2, r⟩, h, rfl⟩ := hstep
    exact inv_save MAX_FILENAME_LENGTH w w2 r hinv h

/-- The representation invariant holds after every sequence of calls from a
state where it holds. -/
theorem inv_run (MAX_FILENAME_LENGTH : Nat) : ∀ (calls : List Call) (w w1 : World),
    run_calls MAX_FILENAME_LENGTH w calls = some w1 → Inv w → Inv w1 := by
  intro calls
  induction calls with
  | nil =>
    intro w w1 h hinv
    simp only [run_calls] at h
    injection h with h
    subst h
    exact hinv
  | cons c rest ih =>
    intro w w1 h hinv
    unfold run_calls at h
    cases hc : run_call MAX_FILENAME_LENGTH w c with
    | none => simp [hc] at h
    | some w2 =>
      simp only [hc] at h
      exact ih w2 w1 h (inv_call MAX_FILENAME_LENGTH w w2 c hinv hc)

/-- The chain view the table holds for an allocated file. -/
theorem table_chain (w : World) (p : Nat) (f : FAT_FILE) (hf : w.file_heap[p]? = some f) :
    (table w).chains[p]? = some (view f) := by
  simp [table, hf]

/-- Name uniqueness survives every table step that registers only new names. -/
theorem unique_step (t t1 : Table) (h : TStep false t t1)
    (hu : UniqueNames t) : UniqueNames t1 := by
  cases h with
  | same => exact hu
  | alloc idx k hz => exact hu
  | create idx name hz hfresh =>
    intro p hp q hq c d hc hd hname
    have hcase : ∀ x ∈ t.files ++ [t.chains.length], ∀ e,
        (t.chains ++ [{ name := name, metadata_block_id := Int.ofNat idx,
                        block_ids := [Int.ofNat idx] }])[x]? = some e →
        (x ∈ t.files ∧ t.chains[x]? = some e) ∨ (x = t.chains.length ∧ e.name = name) := by
      intro x hx e he
      rcases lookup_append _ _ _ _ he with ⟨hlt, hold⟩ | ⟨heq, hval⟩
      · rcases List.mem_append.mp hx with h1 | h1
        · exact Or.inl ⟨h1, hold⟩
        · have : x = t.chains.length := by simpa using h1
          omega
      · exact Or.inr ⟨heq, by rw [hval]⟩
    rcases hcase p hp c hc with ⟨h1, h2⟩ | ⟨h1, h2⟩
    · rcases hcase q hq d hd with ⟨h3, h4⟩ | ⟨_, h4⟩
      · exact hu p h1 q h3 c d h2 h4 hname
      · exact absurd (hname.trans h4) (hfresh rfl p h1 c h2)
    · rcases hcase q hq d hd with ⟨h3, h4⟩ | ⟨h3, _⟩
      · exact absurd (hname.symm.trans h2) (hfresh rfl q h3 d h4)
      · exact h1.trans h3.symm
  | extend fd c0 idx hz hc0 =>
    intro p hp q hq c d hc hd hname
    have hcase : ∀ (x : Nat) (e : ChainView),
        (t.chains.set fd { c0 with block_ids := c0.block_ids ++ [Int.ofNat idx] })[x]? = some e →
        ∃ e0 : ChainView, t.chains[x]? = some e0 ∧ e0.name = e.name := by
      intro x e he
      rcases lookup_set _ _ _ _ _ _ hc0 he with ⟨h1, h2⟩ | ⟨_, h2⟩
      · subst h1; subst h2
        exact ⟨c0, hc0, rfl⟩
      · exact ⟨e, h2, rfl⟩
    obtain ⟨c1, hc1, hn1⟩ := hcase p c hc
    obtain ⟨d1, hd1, hn2⟩ := hcase q d hd
    exact hu p hp q hq c1 d1 hc1 hd1 (by rw [hn1, hn2]; exact hname)
  | delete k p0 c0 bm hk hc0 hfree =>
    intro p hp q hq c d hc hd hname
    exact hu p (List.mem_of_mem_eraseIdx hp) q (List.mem_of_mem_eraseIdx hq) c d hc hd hname

/-- Name uniqueness holds after every sequence of calls that does not call
`mini_file_create_file` directly. -/
theorem unique_run (MAX_FILENAME_LENGTH : Nat) : ∀ (calls : List Call) (w w1 : World),
    (∀ c ∈ calls, is_create_file c = false) →
    run_calls MAX_FILENAME_LENGTH w calls = some w1 →
    UniqueNames (table w) → UniqueNames (table w1) := by
  intro calls
  induction calls with
  | nil =>
    intro w w1 _ h hu
    simp only [run_calls] at h
    injection h with h
    subst h
    exact hu
  | cons c rest ih =>
    intro w w1 hcalls h hu
    unfold run_calls at h
    cases hc : run_call MAX_FILENAME_LENGTH w c with
    | none => simp [hc] at h
    | some w2 =>
      simp only [hc] at h
      have hstep := tstep_call MAX_FILENAME_LENGTH w w2 c hc
      rw [hcalls c (List.mem_cons_self _ _)] at hstep
      exact ih w2 w1 (fun c1 h1 => hcalls c1 (List.mem_cons_of_mem _ h1)) h
        (unique_step _ _ hstep hu)

/-- The cursor invariant survives the replacement of a file object by one that
is not smaller and whose size is an `int`. -/
theorem pos_set_file (w : World) (fd : Nat) (f g : FAT_FILE) (hpos : PosInv w)
    (hf : w.file_heap[fd]? = some f) (hsize : f.size ≤ g.size) (hmax : g.size ≤ INT_MAX) :
    PosInv { w with file_heap := w.file_heap.set fd g } := by
  have hf0 := hpos.size_nonneg f (List.getElem?_mem hf)
  refine ⟨?_, ?_, ?_⟩
  · intro x hx
    rcases List.mem_or_eq_of_mem_set hx with h1 | h1
    · exact hpos.size_nonneg x h1
    · subst h1; omega
  · intro o ho x hx
    rcases lookup_set _ _ _ _ _ _ hf hx with ⟨h1, h2⟩ | ⟨_, h2⟩
    · subst h2
      have := hpos.position_range o ho f (h1 ▸ hf)
      omega
    · exact hpos.position_range o ho x h2
  · intro x hx
    rcases List.mem_or_eq_of_mem_set hx with h1 | h1
    · exact hpos.size_le x h1
    · subst h1; exact hmax

/-- The cursor invariant survives an update of a handle struct to a position
inside its file. -/
theorem pos_set_handle (w : World) (h : Nat) (o1 : FAT_OPEN_FILE) (hpos : PosInv w)
    (hrange : ∀ f, w.file_heap[o1.file]? = some f → 0 ≤ o1.position ∧ o1.position ≤ f.size) :
    PosInv { w with handle_heap := w.handle_heap.set h o1 } := by
  refine ⟨hpos.size_nonneg, ?_, hpos.size_le⟩
  intro o ho f hf
  rcases List.mem_or_eq_of_mem_set ho with h1 | h1
  · exact hpos.position_range o h1 f hf
  · subst h1; exact hrange f hf

/-- The cursor invariant survives `mini_file_seek`. -/
theorem pos_seek (w w1 : World) (h : Nat) (offset : Int) (from_start r : Bool)
    (hpos : PosInv w) (hstep : mini_file_seek w h offset from_start = some (w1, r)) :
    PosInv w1 := by
  unfold mini_file_seek at hstep
  cases ho : w.handle_heap[h]? with
  | none => simp [ho] at hstep
  | some o =>
    cases hf : w.file_heap[o.file]? with
    | none => simp [ho, hf] at hstep
    | some f =>
      simp only [ho, hf] at hstep
      split at hstep
      · split at hstep
        · rename_i hr
          injection hstep with hstep
          injection hstep with h1 _
          subst h1
          apply pos_set_handle w h _ hpos
          intro g hg
          have hg2 : w.file_heap[o.file]? = some g := hg
          rw [hf] at hg2
          injection hg2 with hg2
          subst hg2
          simp only
          omega
        · injection hstep with hstep
          injection hstep with h1 _
          subst h1
          exact hpos
      · split at hstep
        · rename_i hr
          injection hstep with hstep
          injection hstep with h1 _
          subst h1
          apply pos_set_handle w h _ hpos
          intro g hg
          have hg2 : w.file_heap[o.file]? = some g := hg
          rw [hf] at hg2
          injection hg2 with hg2
          subst hg2
          simp only
          omega
        · injection hstep with hstep
          injection hstep with h1 _
          subst h1
          exact hpos

/-- The cursor invariant survives `mini_file_read`. -/
theorem pos_read (w w1 : World) (h : Nat) (size r : Int) (buffer : List Nat)
    (hpos : PosInv w) (hstep : mini_file_read w h size = some (w1, r, buffer)) :
    PosInv w1 := by
  unfold mini_file_read at hstep
  cases ho : w.handle_heap[h]? with
  | none => simp [ho] at hstep
  | some o =>
    cases hf : w.file_heap[o.file]? with
    | none => simp [ho, hf] at hstep
    | some f =>
      simp only [ho, hf] at hstep
      split at hstep
      · simp at hstep
      · rename_i w2 b hseek
        injection hstep with hstep
        injection hstep with h1 _
        subst h1
        exact pos_seek w _ h _ false b hpos hseek

/-- The cursor invariant survives `mini_file_close`. -/
theorem pos_close (w w1 : World) (open_file : Option Nat) (r : Bool) (hpos : PosInv w)
    (hstep : mini_file_close w open_file = some (w1, r)) : PosInv w1 := by
  unfold mini_file_close at hstep
  cases open_file with
  | none =>
    simp only at hstep
    injection hstep with hstep
    injection hstep with h1 _
    subst h1
    exact hpos
  | some h =>
    simp only at hstep
    cases ho : w.handle_heap[h]? with
    | none => simp [ho] at hstep
    | some o =>
      cases hf : w.file_heap[o.file]? with
      | none => simp [ho, hf] at hstep
      | some f =>
        simp only [ho, hf] at hstep
        split at hstep
        · injection hstep with hstep
          injection hstep with h1 _
          subst h1
          exact pos_set_file w o.file f _ hpos hf (Int.le_refl _)
            (hpos.size_le f (List.getElem?_mem hf))
        · injection hstep with hstep
          injection hstep with h1 _
          subst h1
          exact hpos

/-- The cursor invariant survives the second half of `mini_file_open`. -/
theorem pos_open_on (w w1 : World) (fd : Nat) (is_write : Bool) (r : Option Nat)
    (hpos : PosInv w) (hstep : open_on w fd is_write = some (w1, r)) : PosInv w1 := by
  unfold open_on at hstep
  cases hf : w.file_heap[fd]? with
  | none => simp [hf] at hstep
  | some f =>
    simp only [hf] at hstep
    split at hstep
    · simp at hstep
    · injection hstep with hstep
      injection hstep with h1 _
      subst h1
      exact hpos
    · injection hstep with hstep
      injection hstep with h1 _
      subst h1
      have hf0 := hpos.size_nonneg f (List.getElem?_mem hf)
      have hp1 := pos_set_file w fd f
        { f with open_handles := f.open_handles ++ [w.handle_heap.length] } hpos hf
        (Int.le_refl _) (hpos.size_le f (List.getElem?_mem hf))
      refine ⟨hp1.size_nonneg, ?_, hp1.size_le⟩
      intro o ho x hx
      rcases List.mem_append.mp ho with h1 | h1
      · exact hp1.position_range o h1 x hx
      · have hov : o = { file := fd, position := 0, is_write := is_write } := by simpa using h1
        subst hov
        have hfd : fd < w.file_heap.length := (List.getElem?_eq_some.mp hf).1
        have hx2 : (w.file_heap.set fd
            { f with open_handles := f.open_handles ++ [w.handle_heap.length] })[fd]? = some x :=
          hx
        rw [List.getElem?_set_self hfd] at hx2
        injection hx2 with hx2
        subst hx2
        exact ⟨Int.le_refl _, hf0⟩

/-- The cursor invariant does not mention the block bookkeeping of `fs`. -/
theorem pos_set_fs (w : World) (fs : FAT_FILESYSTEM) (hpos : PosInv w) :
    PosInv { w with fs := fs } :=
  ⟨hpos.size_nonneg, hpos.position_range, hpos.size_le⟩

/-- The cursor invariant does not mention the disk. -/
theorem pos_set_disk (w : World) (disk : List Nat) (hpos : PosInv w) :
    PosInv { w with disk := disk } :=
  ⟨hpos.size_nonneg, hpos.position_range, hpos.size_le⟩

/-- The cursor invariant survives an allocation. -/
theorem pos_allocate (w w1 : World) (k : Nat) (r : Int) (hpos : PosInv w)
    (hstep : mini_fat_allocate_new_block w k = some (w1, r)) : PosInv w1 := by
  rcases allocate_cases w w1 k r hstep with ⟨_, h1⟩ | ⟨_, _, _, h1⟩
  · subst h1; exact hpos
  · subst h1; exact pos_set_fs w _ hpos

/-- The cursor invariant survives `mini_file_create_file`. -/
theorem pos_create_file (MAX_FILENAME_LENGTH : Nat) (w w1 : World) (filename : CString)
    (r : Option Nat) (hinv : Inv w) (hpos : PosInv w)
    (hstep : mini_file_create_file MAX_FILENAME_LENGTH w filename = some (w1, r)) :
    PosInv w1 := by
  unfold mini_file_create_file at hstep
  split at hstep
  · simp at hstep
  · cases halloc : mini_fat_allocate_new_block w FILE_ENTRY_BLOCK with
    | none => simp [halloc] at hstep
    | some res =>
      obtain ⟨w2, idx⟩ := res
      have hpos2 := pos_allocate w w2 _ idx hpos halloc
      have hinv2 := inv_allocate w w2 _ idx hinv halloc
      simp only [halloc] at hstep
      split at hstep
      · injection hstep with hstep
        injection hstep with h1 _
        subst h1
        exact hpos2
      · injection hstep with hstep
        injection hstep with h1 _
        subst h1
        refine ⟨?_, ?_, ?_⟩
        · intro f hf
          rcases List.mem_append.mp hf with h2 | h2
          · exact hpos2.size_nonneg f h2
          · have hfv : f = { mini_file_create filename with
                              metadata_block_id := idx
                              block_ids := (mini_file_create filename).block_ids ++ [idx] } := by
              simpa using h2
            subst hfv
            simp [mini_file_create]
        rotate_left
        · intro f hf
          rcases List.mem_append.mp hf with h2 | h2
          · exact hpos2.size_le f h2
          · have hfv : f = { mini_file_create filename with
                              metadata_block_id := idx
                              block_ids := (mini_file_create filename).block_ids ++ [idx] } := by
              simpa using h2
            subst hfv
            simp [mini_file_create, INT_MAX]
        · intro o ho f hf
          have hvalid := hinv2.handle_file_valid o ho
          have hf2 : (w2.file_heap ++
              [{ mini_file_create filename with
                 metadata_block_id := idx
                 block_ids := (mini_file_create filename).block_ids ++ [idx] }])[o.file]?
              = some f := hf
          rw [List.getElem?_append_left hvalid] at hf2
          exact hpos2.position_range o ho f hf2

/-- The cursor invariant survives `mini_file_open`. -/
theorem pos_open (MAX_FILENAME_LENGTH : Nat) (w w1 : World) (filename : CString)
    (is_write : Bool) (r : Option Nat) (hinv : Inv w) (hpos : PosInv w)
    (hstep : mini_file_open MAX_FILENAME_LENGTH w filename is_write = some (w1, r)) :
    PosInv w1 := by
  unfold mini_file_open at hstep
  split at hstep
  · simp at hstep
  · exact pos_open_on w w1 _ is_write r hpos hstep
  · split at hstep
    · injection hstep with hstep
      injection hstep with h1 _
      subst h1
      exact hpos
    · split at hstep
      · simp at hstep
      · rename_i w2 hcreate
        injection hstep with hstep
        injection hstep with h1 _
        subst h1
        exact pos_create_file MAX_FILENAME_LENGTH w _ filename none hinv hpos hcreate
      · rename_i w2 fd hcreate
        exact pos_open_on w2 w1 fd is_write r
          (pos_create_file MAX_FILENAME_LENGTH w w2 filename (some fd) hinv hpos hcreate) hstep

/-- An integer of the `int` range is its own reduction. -/
theorem wrap32_eq (x : Int) (h1 : INT_MIN ≤ x) (h2 : x ≤ INT_MAX) : wrap32 x = x := by
  unfold wrap32
  unfold INT_MIN at h1
  unfold INT_MAX at h2
  omega

/-- The reduction of an integer lies in the `int` range. -/
theorem wrap32_range (x : Int) : INT_MIN ≤ wrap32 x ∧ wrap32 x ≤ INT_MAX := by
  unfold wrap32 INT_MIN INT_MAX
  omega

/-- The test of `mini_file_seek` on `int`s: for a position in `0 .. INT_MAX`,
an `int` offset and an `int` size, the sum `position + offset` passes the test
`0 ≤ sum ≤ size` exactly when its 32-bit reduction does, and a sum that passes
is its own reduction. -/
theorem seek_sum_wrap32 (position offset size : Int)
    (hp : 0 ≤ position ∧ position ≤ INT_MAX)
    (ho : INT_MIN ≤ offset ∧ offset ≤ INT_MAX) (hs : size ≤ INT_MAX) :
    ((0 ≤ wrap32 (position + offset) ∧ wrap32 (position + offset) ≤ size) ↔
      (0 ≤ position + offset ∧ position + offset ≤ size)) ∧
    (0 ≤ position + offset ∧ position + offset ≤ size →
      wrap32 (position + offset) = position + offset) := by
  unfold wrap32
  unfold INT_MIN at ho
  unfold INT_MAX at hp ho hs
  omega

/-- `mini_file_seek` leaves the files as they are. -/
theorem seek_file_heap (w w1 : World) (h : Nat) (offset : Int) (from_start r : Bool)
    (hstep : mini_file_seek w h offset from_start = some (w1, r)) :
    w1.file_heap = w.file_heap := by
  unfold mini_file_seek at hstep
  split at hstep
  · simp at hstep
  · split at hstep
    · simp at hstep
    · split at hstep
      · split at hstep
        · injection hstep with hstep
          injection hstep with h1 _
          subst h1
          rfl
        · injection hstep with hstep
          injection hstep with h1 _
          subst h1
          rfl
      · split at hstep
        · injection hstep with hstep
          injection hstep with h1 _
          subst h1
          rfl
        · injection hstep with hstep
          injection hstep with h1 _
          subst h1
          rfl

/-- The cursor invariant survives lines 224-245 of `mini_file_write` for a
non-negative length that keeps the size of the file an `int`. -/
theorem pos_write_tail (w w1 : World) (h : Nat) (size r : Int) (buffer : List Nat)
    (hfit : ∀ o f, w.handle_heap[h]? = some o → w.file_heap[o.file]? = some f →
      0 ≤ size ∧ f.size + size ≤ INT_MAX)
    (hpos : PosInv w)
    (hstep : write_tail w h size buffer = some (w1, r)) : PosInv w1 := by
  unfold write_tail at hstep
  cases ho : w.handle_heap[h]? with
  | none => simp [ho] at hstep
  | some o =>
    simp only [ho] at hstep
    split at hstep
    · simp at hstep
    · split at hstep
      · simp at hstep
      · rename_i out _
        split at hstep
        · simp at hstep
        · rename_i w2 b hseek
          have hpos2 : PosInv w2 :=
            pos_seek _ w2 h size false b (pos_set_disk w _ hpos) hseek
          split at hstep
          · simp at hstep
          · rename_i f hf
            injection hstep with hstep
            injection hstep with h1 _
            subst h1
            have hheap := seek_file_heap _ w2 h size false b hseek
            have hf0 : w.file_heap[o.file]? = some f := by rw [hheap] at hf; exact hf
            obtain ⟨hsize, hmax⟩ := hfit o f ho hf0
            have hnn := hpos2.size_nonneg f (List.getElem?_mem hf)
            have hw : wrap32 (f.size + size) = f.size + size :=
              wrap32_eq _ (by unfold INT_MIN; omega) hmax
            exact pos_set_file w2 o.file f _ hpos2 hf (by simp only; rw [hw]; omega)
              (by simp only; rw [hw]; exact hmax)

/-- The cursor invariant survives `mini_file_write` for a non-negative length
that keeps the size of the file an `int`. -/
theorem pos_write (w w1 : World) (h : Nat) (size r : Int) (buffer : List Nat)
    (hfit : ∀ o f, w.handle_heap[h]? = some o → w.file_heap[o.file]? = some f →
      0 ≤ size ∧ f.size + size ≤ INT_MAX)
    (hpos : PosInv w)
    (hstep : mini_file_write w h size buffer = some (w1, r)) : PosInv w1 := by
  unfold mini_file_write at hstep
  cases ho : w.handle_heap[h]? with
  | none => simp [ho] at hstep
  | some o =>
    simp only [ho] at hstep
    split at hstep
    · injection hstep with hstep
      injection hstep with h1 _
      subst h1
      exact hpos
    · cases hf : w.file_heap[o.file]? with
      | none => simp [hf] at hstep
      | some f =>
        simp only [hf] at hstep
        split at hstep
        · simp at hstep
        · split at hstep
          · cases halloc : mini_fat_allocate_new_block w FILE_DATA_BLOCK with
            | none => simp [halloc] at hstep
            | some res =>
              obtain ⟨w2, idx⟩ := res
              have hpos2 := pos_allocate w w2 _ idx hpos halloc
              simp only [halloc] at hstep
              rcases allocate_cases w w2 _ idx halloc with ⟨hi, _⟩ | ⟨hi, _, _, hw2⟩
              · simp only [hi, if_true] at hstep
                injection hstep with hstep
                injection hstep with h1 _
                subst h1
                exact hpos2
              · simp only [hi, if_false] at hstep
                have hfile2 : w2.file_heap = w.file_heap := by rw [hw2]
                have hhandle2 : w2.handle_heap = w.handle_heap := by rw [hw2]
                have hf2 : w2.file_heap[o.file]? = some f := by rw [hfile2]; exact hf
                have hfd : o.file < w2.file_heap.length := (List.getElem?_eq_some.mp hf2).1
                have hhd : h < w2.handle_heap.length := by
                  rw [hhandle2]; exact (List.getElem?_eq_some.mp ho).1
                refine pos_write_tail _ w1 h size r buffer ?_ ?_ hstep
                · intro o1 f1 ho1 hf1
                  have ho2 : (w2.handle_heap.set h { o with position := 0 })[h]? = some o1 := ho1
                  rw [List.getElem?_set_self hhd] at ho2
                  injection ho2 with ho2
                  subst ho2
                  have hf3 : (w2.file_heap.set o.file
                      { f with block_ids := f.block_ids ++ [idx] })[o.file]? = some f1 := hf1
                  rw [List.getElem?_set_self hfd] at hf3
                  injection hf3 with hf3
                  subst hf3
                  exact hfit o f ho hf
                have step1 := pos_set_file w2 o.file f
                  { f with block_ids := f.block_ids ++ [idx] } hpos2 hf2 (Int.le_refl _)
                  (hpos2.size_le f (List.getElem?_mem hf2))
                apply pos_set_handle _ h { o with position := 0 } step1
                intro g hg
                have hg2 : (w2.file_heap.set o.file
                    { f with block_ids := f.block_ids ++ [idx] })[o.file]? = some g := hg
                rw [List.getElem?_set_self hfd] at hg2
                injection hg2 with hg2
                subst hg2
                exact ⟨Int.le_refl _, hpos2.size_nonneg f (List.getElem?_mem hf2)⟩
          · exact pos_write_tail w w1 h size r buffer hfit hpos hstep

/-- The cursor invariant survives the loop of `mini_file_delete`. -/
theorem pos_delete_loop (w w1 : World) (filename : CString) (r : Bool) (hpos : PosInv w) :
    ∀ (ps : List Nat) (i : Nat), delete_loop w filename i ps = some (w1, r) → PosInv w1 := by
  intro ps
  induction ps with
  | nil =>
    intro i hstep
    simp only [delete_loop] at hstep
    injection hstep with hstep
    injection hstep with h1 _
    subst h1
    exact hpos
  | cons p rest ih =>
    intro i hstep
    unfold delete_loop at hstep
    split at hstep
    · simp at hstep
    · split at hstep
      · split at hstep
        · injection hstep with hstep
          injection hstep with h1 _
          subst h1
          exact hpos
        · split at hstep
          · simp at hstep
          · injection hstep with hstep
            injection hstep with h1 _
            subst h1
            exact pos_set_fs w _ hpos
      · exact ih (i + 1) hstep

/-- The cursor invariant survives `mini_fat_save`. -/
theorem pos_save (MAX_FILENAME_LENGTH : Nat) (w w1 : World) (r : Bool) (hpos : PosInv w)
    (hstep : mini_fat_save MAX_FILENAME_LENGTH w = some (w1, r)) : PosInv w1 := by
  unfold mini_fat_save at hstep
  simp only at hstep
  split at hstep
  · simp at hstep
  · injection hstep with hstep
    injection hstep with h1 _
    subst h1
    exact pos_set_disk w _ hpos

/-- The cursor invariant survives every call that keeps the sizes `int`s. -/
theorem pos_call (MAX_FILENAME_LENGTH : Nat) (w w1 : World) (c : Call)
    (hc : write_in_range w c = true) (hinv : Inv w) (hpos : PosInv w)
    (hstep : run_call MAX_FILENAME_LENGTH w c = some w1) : PosInv w1 := by
  cases c with
  | do_allocate k =>
    simp only [run_call, Option.map_eq_some'] at hstep
    obtain ⟨⟨w2, r⟩, h, rfl⟩ := hstep
    exact pos_allocate w w2 k r hpos h
  | do_create_file filename =>
    simp only [run_call, Option.map_eq_some'] at hstep
    obtain ⟨⟨w2, r⟩, h, rfl⟩ := hstep
    exact pos_create_file MAX_FILENAME_LENGTH w w2 filename r hinv hpos h
  | do_open filename is_write =>
    simp only [run_call, Option.map_eq_some'] at hstep
    obtain ⟨⟨w2, r⟩, h, rfl⟩ := hstep
    exact pos_open MAX_FILENAME_LENGTH w w2 filename is_write r hinv hpos h
  | do_close open_file =>
    simp only [run_call, Option.map_eq_some'] at hstep
    obtain ⟨⟨w2, r⟩, h, rfl⟩ := hstep
    exact pos_close w w2 open_file r hpos h
  | do_seek open_file offset from_start =>
    simp only [run_call, Option.map_eq_some'] at hstep
    obtain ⟨⟨w2, r⟩, h, rfl⟩ := hstep
    exact pos_seek w w2 open_file offset from_start r hpos h
  | do_read open_file size =>
    simp only [run_call, Option.map_eq_some'] at hstep
    obtain ⟨⟨w2, r, b⟩, h, rfl⟩ := hstep
    exact pos_read w w2 open_file size r b hpos h
  | do_write open_file size buffer =>
    simp only [run_call, Option.map_eq_some'] at hstep
    obtain ⟨⟨w2, r⟩, h, rfl⟩ := hstep
    have hfit : ∀ o f, w.handle_heap[open_file]? = some o → w.file_heap[o.file]? = some f →
        0 ≤ size ∧ f.size + size ≤ INT_MAX := by
      intro o f ho hf
      simp only [write_in_range, ho, hf, decide_eq_true_eq] at hc
      exact hc
    exact pos_write w w2 open_file size r buffer hfit hpos h
  | do_delete filename =>
    simp only [run_call, Option.map_eq_some'] at hstep
    obtain ⟨⟨w2, r⟩, h, rfl⟩ := hstep
    exact pos_delete_loop w w2 filename r hpos _ 0 h
  | do_save =>
    simp only [run_call, Option.map_eq_some'] at hstep
    obtain ⟨⟨w2, r⟩, h, rfl⟩ := hstep
    exact pos_save MAX_FILENAME_LENGTH w w2 r hpos h

/-- The cursor invariant holds after every sequence of calls that keep the
sizes `int`s. -/
theorem pos_run (MAX_FILENAME_LENGTH : Nat) : ∀ (calls : List Call) (w w1 : World),
    run_in_range MAX_FILENAME_LENGTH w calls = true →
    run_calls MAX_FILENAME_LENGTH w calls = some w1 → Inv w → PosInv w → PosInv w1 := by
  intro calls
  induction calls with
  | nil =>
    intro w w1 _ h _ hpos
    simp only [run_calls] at h
    injection h with h
    subst h
    exact hpos
  | cons c rest ih =>
    intro w w1 hcalls h hinv hpos
    unfold run_calls at h
    unfold run_in_range at hcalls
    cases hc : run_call MAX_FILENAME_LENGTH w c with
    | none => simp [hc] at h
    | some w2 =>
      simp only [hc, Bool.and_eq_true] at h hcalls
      exact ih w2 w1 hcalls.2 h
        (inv_call MAX_FILENAME_LENGTH w w2 c hinv hc)
        (pos_call MAX_FILENAME_LENGTH w w2 c hcalls.1 hinv hpos hc)

/-- The cursor invariant holds on a filesystem fresh from `mini_fat_create`. -/
theorem pos_create_fs (block_size block_count : Int) (w : World)
    (h : mini_fat_create block_size block_count = some w) : PosInv w := by
  unfold mini_fat_create mini_fat_create_internal at h
  by_cases hc : block_count < 1
  · simp [hc] at h
  · simp only [hc, if_false] at h
    injection h with h
    subst h
    refine ⟨?_, ?_, ?_⟩ <;> simp

/-- The second half of `mini_file_open` leaves `fs` and the disk alone. -/
theorem open_on_fs (w w1 : World) (fd : Nat) (is_write : Bool) (r : Option Nat)
    (hstep : open_on w fd is_write = some (w1, r)) : w1.fs = w.fs ∧ w1.disk = w.disk := by
  unfold open_on at hstep
  cases hf : w.file_heap[fd]? with
  | none => simp [hf] at hstep
  | some f =>
    simp only [hf] at hstep
    split at hstep
    · simp at hstep
    · injection hstep with hstep
      injection hstep with h1 _
      subst h1
      exact ⟨rfl, rfl⟩
    · injection hstep with hstep
      injection hstep with h1 _
      subst h1
      exact ⟨rfl, rfl⟩

/-- Writing inside the file keeps its length and every byte outside the
written range. -/
theorem disk_write_frame (disk : List Nat) (off : Nat) (bytes : List Nat)
    (h : off + bytes.length ≤ disk.length) :
    (disk_write disk off bytes).length = disk.length ∧
    ∀ i : Nat, (i < off ∨ off + bytes.length ≤ i) →
      (disk_write disk off bytes)[i]? = disk[i]? := by
  unfold disk_write
  by_cases hb : bytes = []
  · simp [hb]
  · simp only [hb, if_false]
    have hz : off - disk.length = 0 := by omega
    rw [hz]
    simp only [List.replicate_zero, List.append_nil]
    have htake : (disk.take off).length = off := by
      rw [List.length_take]; omega
    refine ⟨?_, ?_⟩
    · simp only [List.length_append, List.length_drop, htake]
      omega
    · intro i hi
      rcases hi with hi | hi
      · rw [List.append_assoc, List.getElem?_append_left (by rw [htake]; exact hi)]
        rw [List.getElem?_take_of_lt hi]
      · have hlen : (disk.take off ++ bytes).length = off + bytes.length := by
          rw [List.length_append, htake]
        rw [List.getElem?_append_right (by rw [hlen]; exact hi), hlen, List.getElem?_drop]
        congr 1
        omega

/-- Bytes kept outside a range are kept outside a wider range. -/
theorem outside_mono (d d1 : List Nat) (lo hi lo1 hi1 : Nat) (h : Outside d d1 lo hi)
    (hlo : lo1 ≤ lo) (hhi : hi ≤ hi1) : Outside d d1 lo1 hi1 :=
  ⟨h.1, fun i hi0 => h.2 i (by omega)⟩

/-- Two successive writes inside one range. -/
theorem outside_trans (d d1 d2 : List Nat) (lo hi : Nat) (h1 : Outside d d1 lo hi)
    (h2 : Outside d1 d2 lo hi) : Outside d d2 lo hi :=
  ⟨h2.1.trans h1.1, fun i hi0 => (h2.2 i hi0).trans (h1.2 i hi0)⟩

/-- An `fwrite` inside the file advances the stream and changes no byte outside
the bytes it writes. -/
theorem fwrite_frame (s : Stream) (bytes : List Nat)
    (h : s.pos + bytes.length ≤ s.disk.length) :
    (fwrite s bytes).pos = s.pos + bytes.length ∧
    Outside s.disk (fwrite s bytes).disk s.pos (s.pos + bytes.length) :=
  ⟨rfl, disk_write_frame s.disk s.pos bytes h⟩

/-- An `int` occupies four bytes. -/
theorem le32_length (x : Int) : (le32 x).length = 4 := rfl

/-- A run of `fwrite`s of one `int` each advances the stream by four bytes per
`int` and changes no byte outside the range it covers. -/
theorem fold_fwrite_frame {α : Type} (g : α → Int) : ∀ (xs : List α) (s : Stream),
    s.pos + 4 * xs.length ≤ s.disk.length →
    (xs.foldl (fun s x => fwrite_int s (g x)) s).pos = s.pos + 4 * xs.length ∧
    Outside s.disk (xs.foldl (fun s x => fwrite_int s (g x)) s).disk s.pos
      (s.pos + 4 * xs.length) := by
  intro xs
  induction xs with
  | nil =>
    intro s _
    exact ⟨rfl, rfl, fun _ _ => rfl⟩
  | cons x rest ih =>
    intro s h
    simp only [List.length_cons] at h
    have h1 := fwrite_frame s (le32 (g x)) (by rw [le32_length]; omega)
    rw [le32_length] at h1
    have hlen1 : (fwrite_int s (g x)).disk.length = s.disk.length := h1.2.1
    have hpos1 : (fwrite_int s (g x)).pos = s.pos + 4 := h1.1
    have h2 := ih (fwrite_int s (g x)) (by rw [hpos1, hlen1]; omega)
    rw [hpos1] at h2
    simp only [List.foldl_cons, List.length_cons]
    refine ⟨by rw [h2.1]; omega, ?_⟩
    apply outside_trans s.disk (fwrite_int s (g x)).disk
    · exact outside_mono _ _ _ _ _ _ h1.2 (Nat.le_refl _) (by omega)
    · exact outside_mono _ _ _ _ _ _ h2.2 (by omega) (by omega)

/-- The name buffer has `MAX_FILENAME_LENGTH` bytes. -/
theorem name_buffer_length (MAX_FILENAME_LENGTH : Nat) (name : CString) :
    (name_buffer MAX_FILENAME_LENGTH name).length = MAX_FILENAME_LENGTH := by
  simp only [name_buffer, List.length_take, List.length_append, List.length_replicate]
  omega

/-- The record of a file that fits inside the backing file changes no byte
outside its own range. -/
theorem save_file_frame (MAX_FILENAME_LENGTH : Nat) (size : Int) (s : Stream) (f : FAT_FILE)
    (hm : 0 ≤ f.metadata_block_id * size)
    (hfit : record_start size f + record_length MAX_FILENAME_LENGTH f ≤ s.disk.length) :
    Outside s.disk (save_file MAX_FILENAME_LENGTH size s f).disk (record_start size f)
      (record_start size f + record_length MAX_FILENAME_LENGTH f) := by
  unfold record_length at hfit ⊢
  unfold record_start at hfit ⊢
  have hseek : (fseek s (f.metadata_block_id * size)).pos
      = (f.metadata_block_id * size).toNat := by
    have : ¬ f.metadata_block_id * size < 0 := by omega
    simp [fseek, fseek_set, this]
  have hd0 : (fseek s (f.metadata_block_id * size)).disk = s.disk := rfl
  -- three ints
  have a1 := fwrite_frame (fseek s (f.metadata_block_id * size)) (le32 f.size)
    (by rw [le32_length, hseek, hd0]; omega)
  rw [le32_length, hseek, hd0] at a1
  have a2 := fwrite_frame (fwrite_int (fseek s (f.metadata_block_id * size)) f.size)
    (le32 (Int.ofNat f.name.length))
    (by rw [le32_length]; rw [show (fwrite_int (fseek s (f.metadata_block_id * size)) f.size).pos
          = (f.metadata_block_id * size).toNat + 4 from a1.1]
        rw [show (fwrite_int (fseek s (f.metadata_block_id * size)) f.size).disk.length
          = s.disk.length from a1.2.1]; omega)
  rw [le32_length, show (fwrite_int (fseek s (f.metadata_block_id * size)) f.size).pos
          = (f.metadata_block_id * size).toNat + 4 from a1.1] at a2
  have a3 := fwrite_frame
    (fwrite_int (fwrite_int (fseek s (f.metadata_block_id * size)) f.size)
      (Int.ofNat f.name.length))
    (le32 (Int.ofNat f.block_ids.length))
    (by rw [le32_length]
        rw [show (fwrite_int (fwrite_int (fseek s (f.metadata_block_id * size)) f.size)
              (Int.ofNat f.name.length)).pos = (f.metadata_block_id * size).toNat + 4 + 4
              from a2.1]
        rw [show (fwrite_int (fwrite_int (fseek s (f.metadata_block_id * size)) f.size)
              (Int.ofNat f.name.length)).disk.length = s.disk.length
              from a2.2.1.trans a1.2.1]; omega)
  rw [le32_length,
    show (fwrite_int (fwrite_int (fseek s (f.metadata_block_id * size)) f.size)
              (Int.ofNat f.name.length)).pos = (f.metadata_block_id * size).toNat + 4 + 4
              from a2.1] at a3
  have hlen3 := a3.2.1.trans (a2.2.1.trans a1.2.1)
  -- the chain
  have a4 := fold_fwrite_frame (fun x : Int => x) f.block_ids
    (fwrite_int (fwrite_int (fwrite_int (fseek s (f.metadata_block_id * size)) f.size)
      (Int.ofNat f.name.length)) (Int.ofNat f.block_ids.length))
    (by rw [show (fwrite_int (fwrite_int (fwrite_int (fseek s (f.metadata_block_id * size))
              f.size) (Int.ofNat f.name.length)) (Int.ofNat f.block_ids.length)).pos
              = (f.metadata_block_id * size).toNat + 4 + 4 + 4 from a3.1]
        rw [show (fwrite_int (fwrite_int (fwrite_int (fseek s (f.metadata_block_id * size))
              f.size) (Int.ofNat f.name.length)) (Int.ofNat f.block_ids.length)).disk.length
              = s.disk.length from hlen3]; omega)
  rw [show (fwrite_int (fwrite_int (fwrite_int (fseek s (f.metadata_block_id * size))
              f.size) (Int.ofNat f.name.length)) (Int.ofNat f.block_ids.length)).pos
              = (f.metadata_block_id * size).toNat + 4 + 4 + 4 from a3.1] at a4
  have hlen4 := a4.2.1.trans hlen3
  -- the name buffer
  have a5 := fwrite_frame
    (f.block_ids.foldl (fun s x => fwrite_int s x)
      (fwrite_int (fwrite_int (fwrite_int (fseek s (f.metadata_block_id * size)) f.size)
        (Int.ofNat f.name.length)) (Int.ofNat f.block_ids.length)))
    (name_buffer MAX_FILENAME_LENGTH f.name)
    (by rw [name_buffer_length, a4.1, hlen4]; omega)
  rw [name_buffer_length, a4.1] at a5
  have r1 := outside_mono _ _ _ _ (f.metadata_block_id * size).toNat
    ((f.metadata_block_id * size).toNat + (12 + 4 * f.block_ids.length + MAX_FILENAME_LENGTH))
    a1.2 (Nat.le_refl _) (by omega)
  have r2 := outside_mono _ _ _ _ (f.metadata_block_id * size).toNat
    ((f.metadata_block_id * size).toNat + (12 + 4 * f.block_ids.length + MAX_FILENAME_LENGTH))
    a2.2 (by omega) (by omega)
  have r3 := outside_mono _ _ _ _ (f.metadata_block_id * size).toNat
    ((f.metadata_block_id * size).toNat + (12 + 4 * f.block_ids.length + MAX_FILENAME_LENGTH))
    a3.2 (by omega) (by omega)
  have r4 := outside_mono _ _ _ _ (f.metadata_block_id * size).toNat
    ((f.metadata_block_id * size).toNat + (12 + 4 * f.block_ids.length + MAX_FILENAME_LENGTH))
    a4.2 (by omega) (by omega)
  have r5 := outside_mono _ _ _ _ (f.metadata_block_id * size).toNat
    ((f.metadata_block_id * size).toNat + (12 + 4 * f.block_ids.length + MAX_FILENAME_LENGTH))
    a5.2 (by omega) (by omega)
  exact outside_trans _ _ _ _ _ (outside_trans _ _ _ _ _ (outside_trans _ _ _ _ _
    (outside_trans _ _ _ _ _ r1 r2) r3) r4) r5

/-- The file loop of `mini_fat_save` changes no byte outside the records of
the files it visits, when each record lies inside the backing file. -/
theorem save_files_frame (MAX_FILENAME_LENGTH : Nat) (heap : List FAT_FILE) (size : Int) :
    ∀ (ps : List Nat) (s s1 : Stream),
      (∀ p ∈ ps, ∀ f, heap[p]? = some f → 0 ≤ f.metadata_block_id * size ∧
        record_start size f + record_length MAX_FILENAME_LENGTH f ≤ s.disk.length) →
      save_files MAX_FILENAME_LENGTH heap size s ps = some s1 →
      s1.disk.length = s.disk.length ∧
      ∀ i : Nat, (∀ p ∈ ps, ∀ f, heap[p]? = some f →
          i < record_start size f ∨
          record_start size f + record_length MAX_FILENAME_LENGTH f ≤ i) →
        s1.disk[i]? = s.disk[i]? := by
  intro ps
  induction ps with
  | nil =>
    intro s s1 _ h
    simp only [save_files] at h
    injection h with h
    subst h
    exact ⟨rfl, fun _ _ => rfl⟩
  | cons p rest ih =>
    intro s s1 hfit h
    unfold save_files at h
    cases hp : heap[p]? with
    | none => simp [hp] at h
    | some f =>
      simp only [hp] at h
      obtain ⟨hm, hf⟩ := hfit p (List.mem_cons_self _ _) f hp
      have h1 := save_file_frame MAX_FILENAME_LENGTH size s f hm hf
      have h2 := ih (save_file MAX_FILENAME_LENGTH size s f) s1
        (fun q hq g hg => by
          rw [h1.1]
          exact hfit q (List.mem_cons_of_mem _ hq) g hg) h
      refine ⟨h2.1.trans h1.1, ?_⟩
      intro i hi
      rw [h2.2 i (fun q hq g hg => hi q (List.mem_cons_of_mem _ hq) g hg)]
      exact h1.2 i (hi p (List.mem_cons_self _ _) f hp)

/-- `mini_fat_save` changes no byte outside the header with the block map and
the records of the registered files, when these lie inside the backing
file. -/
theorem save_frame (MAX_FILENAME_LENGTH : Nat) (w w1 : World) (r : Bool)
    (hsave : mini_fat_save MAX_FILENAME_LENGTH w = some (w1, r))
    (hhdr : 8 + 4 * w.fs.block_map.length ≤ w.disk.length)
    (hfiles : ∀ p ∈ w.fs.files, ∀ f, w.file_heap[p]? = some f →
      0 ≤ f.metadata_block_id * w.fs.block_size ∧
      record_start w.fs.block_size f + record_length MAX_FILENAME_LENGTH f ≤ w.disk.length) :
    w1.disk.length = w.disk.length ∧
    ∀ i : Nat, 8 + 4 * w.fs.block_map.length ≤ i →
      (∀ p ∈ w.fs.files, ∀ f, w.file_heap[p]? = some f →
        i < record_start w.fs.block_size f ∨
        record_start w.fs.block_size f + record_length MAX_FILENAME_LENGTH f ≤ i) →
      w1.disk[i]? = w.disk[i]? := by
  unfold mini_fat_save at hsave
  simp only at hsave
  have a1 := fwrite_frame { disk := w.disk, pos := 0 } (le32 w.fs.block_count)
    (by rw [le32_length]; simp only; omega)
  rw [le32_length] at a1
  simp only [Nat.zero_add] at a1
  have a2 := fwrite_frame (fwrite_int { disk := w.disk, pos := 0 } w.fs.block_count)
    (le32 w.fs.block_size)
    (by rw [le32_length]
        rw [show (fwrite_int { disk := w.disk, pos := 0 } w.fs.block_count).pos = 4 from a1.1]
        rw [show (fwrite_int { disk := w.disk, pos := 0 } w.fs.block_count).disk.length
              = w.disk.length from a1.2.1]; omega)
  rw [le32_length,
    show (fwrite_int { disk := w.disk, pos := 0 } w.fs.block_count).pos = 4 from a1.1] at a2
  have hlen2 := a2.2.1.trans a1.2.1
  have a3 := fold_fwrite_frame (fun tag : Nat => Int.ofNat tag) w.fs.block_map
    (fwrite_int (fwrite_int { disk := w.disk, pos := 0 } w.fs.block_count) w.fs.block_size)
    (by rw [show (fwrite_int (fwrite_int { disk := w.disk, pos := 0 } w.fs.block_count)
              w.fs.block_size).pos = 4 + 4 from a2.1]
        rw [show (fwrite_int (fwrite_int { disk := w.disk, pos := 0 } w.fs.block_count)
              w.fs.block_size).disk.length = w.disk.length from hlen2]; omega)
  rw [show (fwrite_int (fwrite_int { disk := w.disk, pos := 0 } w.fs.block_count)
              w.fs.block_size).pos = 4 + 4 from a2.1] at a3
  have hlen3 := a3.2.1.trans hlen2
  have r1 := outside_mono _ _ _ _ 0 (8 + 4 * w.fs.block_map.length) a1.2
    (Nat.le_refl _) (by omega)
  have r2 := outside_mono _ _ _ _ 0 (8 + 4 * w.fs.block_map.length) a2.2
    (by omega) (by omega)
  have r3 := outside_mono _ _ _ _ 0 (8 + 4 * w.fs.block_map.length) a3.2
    (by omega) (by omega)
  have hdr := outside_trans _ _ _ _ _ (outside_trans _ _ _ _ _ r1 r2) r3
  split at hsave
  · simp at hsave
  · rename_i s4 hs4
    injection hsave with hsave
    injection hsave with h1 _
    subst h1
    have h4 := save_files_frame MAX_FILENAME_LENGTH w.file_heap w.fs.block_size w.fs.files _ s4
      (fun p hp f hf => by
        rw [hdr.1]
        exact hfiles p hp f hf) hs4
    refine ⟨h4.1.trans hdr.1, ?_⟩
    intro i hi hout
    show s4.disk[i]? = w.disk[i]?
    rw [h4.2 i hout]
    exact hdr.2 i (Or.inr hi)

/-- The file loop of `mini_fat_save` returns when every listed pointer is
allocated. -/
theorem save_files_total (MAX_FILENAME_LENGTH : Nat) (heap : List FAT_FILE) (size : Int) :
    ∀ (ps : List Nat) (s : Stream), (∀ p ∈ ps, p < heap.length) →
      ∃ s1, save_files MAX_FILENAME_LENGTH heap size s ps = some s1 := by
  intro ps
  induction ps with
  | nil => intro s _; exact ⟨s, rfl⟩
  | cons p rest ih =>
    intro s hv
    have hp := hv p (List.mem_cons_self _ _)
    obtain ⟨s1, h1⟩ := ih (save_file MAX_FILENAME_LENGTH size s heap[p])
      (fun q hq => hv q (List.mem_cons_of_mem _ hq))
    exact ⟨s1, by simp only [save_files, List.getElem?_eq_getElem hp]; exact h1⟩

/-! ## The claims -/

/-- C1: writing `ab` and then `cd` through one write handle of a new file and
reading 4 bytes through a read handle at position 0 should return `abcd`; the
program returns the count 4 and the bytes `cd` followed by two zero bytes: the
second write landed on the first, at offset 0 of the backing file. -/
theorem two_writes_read_back : two_writes_then_read = some (4, [99, 100, 0, 0]) := by
  decide

/-- C2: saving a fresh filesystem of four 16-byte blocks and loading the backing
file should give back the block map `[1, 0, 0, 0]`; the loaded filesystem has a
block map of ten entries, `block_count = 10` and `block_size = 1024`. -/
theorem save_load_fresh :
    save_then_load = some ([1, 0, 0, 0], [1, 0, 0, 0, 0, 0, 0, 0, 0, 0], 10, 1024) := by
  decide

/-- C3: when the file found under `filename` lists an open write handle `h`
(its handle list being consistent, as it is in every reachable state by
`reachable_file_facts`), `mini_file_open` in write mode returns no
handle and leaves the whole state as it was; `mini_file_close` of `h` succeeds,
and after it `mini_file_open` in write mode on the same name returns a new
write handle at position 0. -/
theorem write_conflict (MAX_FILENAME_LENGTH : Nat) (w : World) (filename : CString)
    (fd : Nat) (f : FAT_FILE) (h : Nat) (o : FAT_OPEN_FILE)
    (hfind : mini_file_find w filename = some (some fd))
    (hf : w.file_heap[fd]? = some f)
    (ho : w.handle_heap[h]? = some o) (hfile : o.file = fd) (hw : o.is_write = true)
    (hmem : h ∈ f.open_handles)
    (hcons : HandlesConsistent w f) :
    mini_file_open MAX_FILENAME_LENGTH w filename true = some (w, none) ∧
    ∃ w1, mini_file_close w (some h) = some (w1, true) ∧
      ∃ w2 h2, mini_file_open MAX_FILENAME_LENGTH w1 filename true = some (w2, some h2) ∧
        w2.handle_heap[h2]? = some { file := fd, position := 0, is_write := true } := by
  obtain ⟨hvalid, hnodup, hsingle⟩ := hcons
  have hfd : fd < w.file_heap.length := (List.getElem?_eq_some.mp hf).1
  subst hfile
  refine ⟨?_, ?_⟩
  · have := has_write_handle_true w.handle_heap h o ho hw f.open_handles hmem hvalid
    simp [mini_file_open, hfind, open_on, hf, this]
  · refine ⟨{ w with file_heap := w.file_heap.set o.file
                                { f with open_handles := f.open_handles.erase h } }, ?_, ?_⟩
    · simp [mini_file_close, ho, hf, hmem]
    · have hfind1 : mini_file_find
          { w with file_heap := w.file_heap.set o.file
                                  { f with open_handles := f.open_handles.erase h } } filename
            = some (some o.file) := by
        unfold mini_file_find
        simp only
        exact (find_loop_set w.file_heap filename o.file f
          { f with open_handles := f.open_handles.erase h } hf rfl _).trans hfind
      have hno : has_write_handle w.handle_heap (f.open_handles.erase h) = some false := by
        apply has_write_handle_false
        intro x hx
        have hx' := (List.Nodup.mem_erase_iff hnodup).mp hx
        have hxl := hvalid x hx'.2
        refine ⟨w.handle_heap[x], List.getElem?_eq_getElem hxl, ?_⟩
        by_contra hwx
        have hwx' : w.handle_heap[x].is_write = true := by simpa using hwx
        exact hx'.1 (hsingle x hx'.2 h hmem
          (by simp [is_writer, List.getElem?_eq_getElem hxl, hwx'])
          (by simp [is_writer, ho, hw]))
      have hopen := open_on_no_writer
        { w with file_heap := w.file_heap.set o.file
                                { f with open_handles := f.open_handles.erase h } }
        o.file { f with open_handles := f.open_handles.erase h } true
        (by simp [hfd]) (fun _ => hno)
      have hmo : mini_file_open MAX_FILENAME_LENGTH
          { w with file_heap := w.file_heap.set o.file
                                  { f with open_handles := f.open_handles.erase h } }
          filename true
          = open_on
              { w with file_heap := w.file_heap.set o.file
                                      { f with open_handles := f.open_handles.erase h } }
              o.file true := by
        simp only [mini_file_open, hfind1]
      exact ⟨_, _, hmo.trans hopen, by simp⟩

/-- The write-conflict theorem at `sample_world`, whose file `a` is open
through the write handle 0 and the read handle 1. -/
theorem write_conflict_witness :
    mini_file_open 32 sample_world [97] true = some (sample_world, none) ∧
    ∃ w1, mini_file_close sample_world (some 0) = some (w1, true) ∧
      ∃ w2 h2, mini_file_open 32 w1 [97] true = some (w2, some h2) ∧
        w2.handle_heap[h2]? = some { file := 0, position := 0, is_write := true } :=
  write_conflict 32 sample_world [97] 0 sample_file 0 sample_writer
    (by decide) rfl rfl rfl rfl (by decide) (by decide)

/-- C5 as stated fails: a seek to 0 from the start should always succeed; after
a write of length -1 has left the file with the size -1, the seek returns
false and the position stays 0. -/
theorem seek_zero_negative_size :
    seek_after_negative_write = some (-1, false, [0]) := by decide

/-- C5, amended: for a handle `h` (struct `o`, on file `f`) `mini_file_seek`
computes `new_position = offset` when `from_start` and `o.position + offset`
otherwise; when `0 ≤ new_position ≤ f.size` it returns true and only `h`'s
position changes, to `new_position`; otherwise it returns false and nothing
changes.  In particular a seek to `f.size + 1` from the start fails, and a seek
to 0 from the start succeeds when the size of the file is not negative and
fails when it is negative. -/
theorem mini_file_seek_spec (w : World) (h : Nat) (o : FAT_OPEN_FILE) (f : FAT_FILE)
    (offset : Int) (from_start : Bool)
    (ho : w.handle_heap[h]? = some o) (hf : w.file_heap[o.file]? = some f) :
    (0 ≤ (if from_start then offset else o.position + offset) ∧
        (if from_start then offset else o.position + offset) ≤ f.size →
      mini_file_seek w h offset from_start =
        some ({ w with handle_heap := w.handle_heap.set h
                          { o with position :=
                              (if from_start then offset else o.position + offset) } },
              true)) ∧
    (¬ (0 ≤ (if from_start then offset else o.position + offset) ∧
        (if from_start then offset else o.position + offset) ≤ f.size) →
      mini_file_seek w h offset from_start = some (w, false)) ∧
    mini_file_seek w h (f.size + 1) true = some (w, false) ∧
    (0 ≤ f.size → mini_file_seek w h 0 true =
        some ({ w with handle_heap := w.handle_heap.set h { o with position := 0 } }, true)) ∧
    (f.size < 0 → mini_file_seek w h 0 true = some (w, false)) := by
  refine ⟨?_, ?_, ?_, ?_, ?_⟩
  · intro hr
    cases from_start <;> simp_all [mini_file_seek]
  · intro hr
    cases from_start <;> simp_all [mini_file_seek]
  · simp [mini_file_seek, ho, hf]
  · intro hs
    simp [mini_file_seek, ho, hf, hs]
  · intro hs
    simp [mini_file_seek, ho, hf, hs]

/-- The seek theorem at `sample_world`: a relative seek by 3 from position 2 in
a file of size 5 moves the write handle to 5. -/
theorem mini_file_seek_spec_witness :
    sample_world.handle_heap[0]? = some sample_writer ∧
    sample_world.file_heap[sample_writer.file]? = some sample_file ∧
    mini_file_seek sample_world 0 3 false =
      some ({ sample_world with handle_heap :=
                sample_world.handle_heap.set 0 { sample_writer with position := 5 } }, true) :=
  ⟨rfl, rfl,
   (mini_file_seek_spec sample_world 0 sample_writer sample_file 3 false rfl rfl).1
     (by decide)⟩

/-- C6: for a handle `h` (struct `o`, on file `f`) with
`0 ≤ o.position ≤ f.size` and `max_len ≥ 0`, `mini_file_read` returns
`min max_len (f.size - o.position)` and moves `h`'s position forward by that
count; the filesystem (block map), every file (size, chain) and the disk are
left as they were. -/
theorem mini_file_read_spec (w : World) (h : Nat) (o : FAT_OPEN_FILE) (f : FAT_FILE)
    (max_len : Int)
    (ho : w.handle_heap[h]? = some o) (hf : w.file_heap[o.file]? = some f)
    (hpos : 0 ≤ o.position) (hle : o.position ≤ f.size) (hmax : 0 ≤ max_len) :
    ∃ w1 buffer,
      mini_file_read w h max_len = some (w1, min max_len (f.size - o.position), buffer) ∧
      w1.handle_heap = w.handle_heap.set h
        { o with position := o.position + min max_len (f.size - o.position) } ∧
      w1.fs = w.fs ∧ w1.file_heap = w.file_heap ∧ w1.disk = w.disk := by
  have hmin : (if max_len > f.size - o.position then f.size - o.position else max_len)
      = min max_len (f.size - o.position) := by
    split
    · rw [min_eq_right]; omega
    · rw [min_eq_left]; omega
  have h1 : 0 ≤ o.position + min max_len (f.size - o.position) := by
    have : 0 ≤ min max_len (f.size - o.position) := le_min hmax (by omega)
    omega
  have h2 : o.position + min max_len (f.size - o.position) ≤ f.size := by
    have : min max_len (f.size - o.position) ≤ f.size - o.position := min_le_right _ _
    omega
  refine ⟨{ w with handle_heap := w.handle_heap.set h
                            { o with position :=
                                o.position + min max_len (f.size - o.position) } },
          (w.disk.drop (fseek_set 0 o.position)).take
            (to_size_t (min max_len (f.size - o.position))), ?_, rfl, rfl, rfl, rfl⟩
  simp only [mini_file_read, ho, hf, hmin]
  simp [mini_file_seek, ho, hf, h1, h2]

/-- The read theorem at `sample_world`: reading up to 9 bytes through the write
handle at position 2 of a 5-byte file returns 3. -/
theorem mini_file_read_spec_witness :
    ∃ w1 buffer, mini_file_read sample_world 0 9 = some (w1, 3, buffer) ∧
      w1.handle_heap = sample_world.handle_heap.set 0 { sample_writer with position := 5 } ∧
      w1.fs = sample_world.fs ∧ w1.file_heap = sample_world.file_heap ∧
      w1.disk = sample_world.disk :=
  mini_file_read_spec sample_world 0 sample_writer sample_file 9 rfl rfl
    (by decide) (by decide) (by decide)

/-- C7: the first write of 5 bytes through a write handle of a new file (the
filesystem has room) should return 5 and advance both the position and the
size by 5; the program returns 5 and the size becomes 5, but the position
stays 0. -/
theorem first_write_position : first_write = some (5, 0, 5) := by
  decide

/-- C8: a write handle opened on an existing file of size 5 should start at
position 5; the handle `mini_file_open` returns starts at position 0. -/
theorem reopen_position : reopen_for_write = some (0, 5) := by
  decide

/-- C9: when no file has the name, `mini_file_open` in read mode returns no
handle and changes nothing; in write mode (the name being shorter than
`MAX_FILENAME_LENGTH`, as the `assert` of `mini_file_create_file` demands, and
the block map having `block_count` entries, as in every reachable state), when
the block map has an Empty entry, it tags an Empty block `idx` as
FileEntry, registers a new file of that name with size 0 and chain `[idx]`,
and returns a new write handle on it; when the block map has no Empty entry
it returns no handle and changes nothing. -/
theorem mini_file_open_absent (MAX_FILENAME_LENGTH : Nat) (w : World) (filename : CString)
    (hfind : mini_file_find w filename = some none) :
    mini_file_open MAX_FILENAME_LENGTH w filename false = some (w, none) ∧
    (filename.length < MAX_FILENAME_LENGTH →
      w.fs.block_map.length = w.fs.block_count.toNat →
      EMPTY_BLOCK ∈ w.fs.block_map →
      ∃ idx : Nat, w.fs.block_map[idx]? = some EMPTY_BLOCK ∧
        mini_file_open MAX_FILENAME_LENGTH w filename true =
          some ({ fs := { w.fs with
                          block_map := w.fs.block_map.set idx FILE_ENTRY_BLOCK
                          files := w.fs.files ++ [w.file_heap.length] }
                  file_heap := w.file_heap ++
                    [{ name := filename, size := 0, metadata_block_id := Int.ofNat idx,
                       block_ids := [Int.ofNat idx], open_handles := [w.handle_heap.length] }]
                  handle_heap := w.handle_heap ++
                    [{ file := w.file_heap.length, position := 0, is_write := true }]
                  disk := w.disk },
                some w.handle_heap.length)) ∧
    (filename.length < MAX_FILENAME_LENGTH →
      w.fs.block_map.length = w.fs.block_count.toNat →
      EMPTY_BLOCK ∉ w.fs.block_map →
      mini_file_open MAX_FILENAME_LENGTH w filename true = some (w, none)) := by
  refine ⟨?_, ?_, ?_⟩
  · simp [mini_file_open, hfind]
  · intro hname hlen hmem
    obtain ⟨idx, hz, hbefore⟩ := exists_first_zero _ hmem
    refine ⟨idx, hz, ?_⟩
    have halloc := allocate_first w FILE_ENTRY_BLOCK idx hlen hz hbefore
    have hne : (Int.ofNat idx) ≠ -1 := by
      have : (0 : Int) ≤ Int.ofNat idx := Int.ofNat_nonneg idx
      omega
    simp [mini_file_open, hfind, mini_file_create_file, hname, halloc, hne, open_on,
      has_write_handle, mini_file_create]
  · intro hname hlen hno
    have halloc := allocate_full w FILE_ENTRY_BLOCK hlen hno
    simp [mini_file_open, hfind, mini_file_create_file, hname, halloc]

/-- The open theorem at `fresh_world`: opening the absent name `a` for writing
creates the file on an Empty block. -/
theorem mini_file_open_absent_witness :
    ∃ idx : Nat, fresh_world.fs.block_map[idx]? = some EMPTY_BLOCK ∧
      mini_file_open 32 fresh_world [97] true =
        some ({ fs := { fresh_world.fs with
                        block_map := fresh_world.fs.block_map.set idx FILE_ENTRY_BLOCK
                        files := fresh_world.fs.files ++ [fresh_world.file_heap.length] }
                file_heap := fresh_world.file_heap ++
                  [{ name := [97], size := 0, metadata_block_id := Int.ofNat idx,
                     block_ids := [Int.ofNat idx],
                     open_handles := [fresh_world.handle_heap.length] }]
                handle_heap := fresh_world.handle_heap ++
                  [{ file := fresh_world.file_heap.length, position := 0, is_write := true }]
                disk := fresh_world.disk },
              some fresh_world.handle_heap.length) :=
  (mini_file_open_absent 32 fresh_world [97] (by decide)).2.1
    (by decide) (by decide) (by decide)

/-- C10 as stated fails: on the full filesystem `full_world` (the state after
`mini_fat_create 16 2` and opening `a` for writing) the allocation of a data
block returns -1, and a write of length 0, which needs that block, returns 0,
which is not strictly less than the requested length 0.  And on a fresh
filesystem of two blocks an allocation of the type Empty returns block 1 and
leaves it Empty, so that after `block_count - 1 = 1` such allocation the next
one returns block 1 again instead of failing. -/
theorem zero_length_write_on_full :
    ((match mini_fat_create 16 2 with
      | some w0 => mini_file_open 32 w0 [97] true
      | none => none) = some (full_world, some 0) ∧
     mini_fat_allocate_new_block full_world FILE_DATA_BLOCK = some (full_world, -1) ∧
     ∃ written, mini_file_write full_world 0 0 [0] = some (full_world, written) ∧
       ¬ written < 0) ∧
    (∃ w0, mini_fat_create 16 2 = some w0 ∧
      allocate_all w0 [EMPTY_BLOCK] = some (w0, [1]) ∧
      mini_fat_allocate_new_block w0 EMPTY_BLOCK = some (w0, 1)) :=
  ⟨⟨by decide, by decide, 0, by decide, by decide⟩,
   ⟨{ fs := { block_size := 16, block_count := 2, block_map := [1, 0], files := [] }
      file_heap := [], handle_heap := [], disk := List.replicate 33 0 },
    by decide, by decide, by decide⟩⟩

/-- C10, amended: on a filesystem fresh from `mini_fat_create` with
`block_count ≥ 1`, `block_count - 1` consecutive allocations of block types
other than Empty all succeed, and every further allocation returns -1 and
changes nothing; and a `mini_file_write` through a write handle that needs a
new block while the allocation returns -1 returns 0 and changes nothing: its
count is strictly less than the requested length exactly when that length is
positive. -/
theorem allocation_exhaustion (block_size block_count : Int) (kinds : List Nat)
    (hcount : 1 ≤ block_count) (hkinds : (kinds.length : Int) = block_count - 1)
    (hne : ∀ k ∈ kinds, k ≠ EMPTY_BLOCK) :
    (∃ w0 w1 rs, mini_fat_create block_size block_count = some w0 ∧
      allocate_all w0 kinds = some (w1, rs) ∧ rs.length = kinds.length ∧
      (∀ r ∈ rs, r ≠ -1) ∧
      ∀ k, mini_fat_allocate_new_block w1 k = some (w1, -1)) ∧
    (∀ (w : World) (h : Nat) (o : FAT_OPEN_FILE) (f : FAT_FILE) (size : Int)
        (buffer : List Nat),
      w.handle_heap[h]? = some o → o.is_write = true → w.file_heap[o.file]? = some f →
      (f.block_ids.length = 1 ∨
        (w.fs.block_size ≠ 0 ∧ o.position.tmod w.fs.block_size = 0 ∧ o.position ≠ 0)) →
      mini_fat_allocate_new_block w FILE_DATA_BLOCK = some (w, -1) →
      ∃ written, mini_file_write w h size buffer = some (w, written) ∧ written = 0 ∧
        (written < size ↔ 0 < size)) := by
  refine ⟨?_, ?_⟩
  · have hn : 0 < block_count.toNat := by omega
    obtain ⟨w0, hcreate, hbm, hbc⟩ := mini_fat_create_fresh block_size block_count hcount
    have hc := count_zero_set (List.replicate block_count.toNat 0) 0 1
      (by simp [hn]) (by decide)
    simp only [List.count_replicate_self] at hc
    obtain ⟨w1, rs, hrun, hrl, hrs, hlen1, hcount1⟩ := allocate_all_counts kinds w0 0
      (by rw [hbm, hbc]; simp)
      (by rw [hbm]; simp only [EMPTY_BLOCK, METADATA_BLOCK]; omega)
      hne
    refine ⟨w0, w1, rs, hcreate, hrun, hrl, hrs, ?_⟩
    intro k
    exact allocate_full w1 k hlen1 (List.count_eq_zero.mp hcount1)
  · intro w h o f size buffer ho hw hf hneed hfull
    exact ⟨0, write_alloc_fails w h o f size buffer ho hw hf hneed hfull, rfl, Iff.rfl⟩

/-- The exhaustion theorem on four blocks: three allocations succeed and the
fourth fails. -/
theorem allocation_exhaustion_witness :
    ∃ w0 w1 rs, mini_fat_create 16 4 = some w0 ∧
      allocate_all w0 [2, 3, 3] = some (w1, rs) ∧ rs.length = 3 ∧
      (∀ r ∈ rs, r ≠ -1) ∧
      ∀ k, mini_fat_allocate_new_block w1 k = some (w1, -1) :=
  (allocation_exhaustion 16 4 [2, 3, 3] (by decide) (by decide) (by decide)).1

/-- C11 as stated fails: on a fresh filesystem of four 16-byte blocks a second
`mini_file_create_file` with the name `a` is not rejected: it returns the new
file 1, the file table holds two files, both named `a`, and a second block is
tagged FileEntry. -/
theorem create_file_twice :
    create_twice = some (some 1, [0, 1], [1, 2, 2, 0], [[97], [97]]) := by
  decide

/-- C11, amended: `mini_file_create_file` itself does not look for an existing
name; it is `mini_file_open` that keeps names unique.  In every state reached
from a fresh filesystem by calls other than direct `mini_file_create_file`
calls, no two registered files have the same name; there `mini_file_open` on
an existing name leaves the file table and the block map unchanged and
allocates no file; and `mini_file_create_file` with any name shorter than
`MAX_FILENAME_LENGTH`, existing or not, registers a new file on an Empty
block when there is one. -/
theorem unique_names_by_open (MAX_FILENAME_LENGTH : Nat) (block_size block_count : Int)
    (calls : List Call) (w0 w : World)
    (hcreate : mini_fat_create block_size block_count = some w0)
    (hcalls : ∀ c ∈ calls, is_create_file c = false)
    (hrun : run_calls MAX_FILENAME_LENGTH w0 calls = some w) :
    (∀ p ∈ w.fs.files, ∀ q ∈ w.fs.files, ∀ f g,
      w.file_heap[p]? = some f → w.file_heap[q]? = some g → f.name = g.name → p = q) ∧
    (∀ (filename : CString) (fd : Nat) (is_write : Bool) (w1 : World) (r : Option Nat),
      mini_file_find w filename = some (some fd) →
      mini_file_open MAX_FILENAME_LENGTH w filename is_write = some (w1, r) →
      w1.fs.files = w.fs.files ∧ w1.fs.block_map = w.fs.block_map ∧
      w1.file_heap.length = w.file_heap.length) ∧
    (∀ filename : CString, filename.length < MAX_FILENAME_LENGTH →
      EMPTY_BLOCK ∈ w.fs.block_map →
      ∃ (idx : Nat) (w1 : World), w.fs.block_map[idx]? = some EMPTY_BLOCK ∧
        mini_file_create_file MAX_FILENAME_LENGTH w filename =
          some (w1, some w.file_heap.length) ∧
        w1.fs.files = w.fs.files ++ [w.file_heap.length] ∧
        w1.fs.block_map = w.fs.block_map.set idx FILE_ENTRY_BLOCK) := by
  have hrep := inv_run MAX_FILENAME_LENGTH calls w0 w hrun
    (inv_create block_size block_count w0 hcreate)
  have hu0 : UniqueNames (table w0) := by
    have := tinv_create_fs block_size block_count w0 hcreate
    intro p hp
    have hnil : (table w0).files = [] := by
      unfold mini_fat_create mini_fat_create_internal at hcreate
      by_cases hc : block_count < 1
      · simp [hc] at hcreate
      · simp only [hc, if_false] at hcreate
        injection hcreate with hcreate
        subst hcreate
        rfl
    rw [hnil] at hp
    simp at hp
  have hu := unique_run MAX_FILENAME_LENGTH calls w0 w hcalls hrun hu0
  refine ⟨?_, ?_, ?_⟩
  · intro p hp q hq f g hf hg hname
    exact hu p hp q hq (view f) (view g) (table_chain w p f hf) (table_chain w q g hg) hname
  · intro filename fd is_write w1 r hfind hopen
    simp only [mini_file_open, hfind] at hopen
    have ht := table_open_on w w1 fd is_write r hopen
    have hfs := (open_on_fs w w1 fd is_write r hopen).1
    refine ⟨by rw [hfs], by rw [hfs], ?_⟩
    have hch : (table w1).chains.length = (table w).chains.length := by rw [ht]
    simpa [table] using hch
  · intro filename hname hmem
    obtain ⟨idx, hz, hbefore⟩ := exists_first_zero _ hmem
    have halloc := allocate_first w FILE_ENTRY_BLOCK idx hrep.map_length hz hbefore
    have hne : (Int.ofNat idx) ≠ -1 := by
      have : (0 : Int) ≤ Int.ofNat idx := Int.ofNat_nonneg idx
      omega
    refine ⟨idx, ?_⟩
    simp [mini_file_create_file, hname, halloc, hne, hz]
    rfl

/-- The name theorem on the run `sample_calls`, which opens `a` and `b`. -/
theorem unique_names_by_open_witness :
    mini_fat_create 16 4 = some fresh_world ∧
    run_calls 32 fresh_world sample_calls = some sample_run_world ∧
    ∀ p ∈ sample_run_world.fs.files, ∀ q ∈ sample_run_world.fs.files, ∀ f g,
      sample_run_world.file_heap[p]? = some f → sample_run_world.file_heap[q]? = some g →
      f.name = g.name → p = q :=
  ⟨by decide, by decide,
   (unique_names_by_open 32 16 4 sample_calls fresh_world sample_run_world
      (by decide) (by decide) (by decide)).1⟩

/-- C12: `mini_file_write` through a handle that is not in write mode returns 0
and leaves the whole state (the handle's position, every file's size and
chain, the block map, the disk) as it was, for every buffer and length. -/
theorem write_read_only (w : World) (h : Nat) (o : FAT_OPEN_FILE) (size : Int)
    (buffer : List Nat) (ho : w.handle_heap[h]? = some o) (hr : o.is_write = false) :
    mini_file_write w h size buffer = some (w, 0) := by
  simp [mini_file_write, ho, hr]

/-- The read-only theorem at the read handle 1 of `sample_world`. -/
theorem write_read_only_witness :
    sample_world.handle_heap[1]? = some sample_reader ∧
    mini_file_write sample_world 1 3 [120, 121, 122, 0] = some (sample_world, 0) :=
  ⟨rfl, write_read_only sample_world 1 sample_reader 3 [120, 121, 122, 0] rfl rfl⟩

/-- C13: loading the backing file of a saved filesystem of two 16-byte blocks
should give `block_count = 2`, `block_size = 16` and a block map of 2 entries;
the loaded filesystem has `block_count = 10`, `block_size = 1024` and a block
map of 10 entries. -/
theorem load_fixed_geometry : load_geometry = some (2, 16, 10, 1024, 10) := by decide

/-- C14 as stated fails: on a filesystem of four 16-byte blocks whose file `a`
has the metadata block 1 and the data block 2 (tagged FileData),
`mini_fat_save` changes byte 32, the first byte of block 2, from 0 to 2: the
record of `a` does not fit in block 1.  And a read of the 5 bytes of `a`
returns `hello` before the save and the first 5 header bytes after it. -/
theorem save_overruns_block :
    save_overrun = some ([1, 2, 3, 0], some 0, some 2, [104, 101, 108, 108, 111],
      [4, 0, 0, 0, 16]) := by
  decide

/-- C14, amended: when the header and the block map fit in block 0
(`8 + 4 * block_count ≤ block_size`), and the record of every registered file
fits in its metadata block (`12 + 4 * len(block_ids) + MAX_FILENAME_LENGTH ≤
block_size`), which lies inside the backing file, `mini_fat_save` returns
true, keeps the length of the backing file, and changes only bytes of block 0
and of metadata blocks of registered files; so, block 0 being tagged Metadata
and the metadata blocks FileEntry, it changes no byte of a block tagged
FileData. -/
theorem save_keeps_file_data (MAX_FILENAME_LENGTH : Nat) (w : World)
    (hvalid : ∀ p ∈ w.fs.files, p < w.file_heap.length)
    (hhdr : 8 + 4 * (w.fs.block_map.length : Int) ≤ w.fs.block_size)
    (hdisk : w.fs.block_size ≤ w.disk.length)
    (hfiles : ∀ p ∈ w.fs.files, ∀ f, w.file_heap[p]? = some f →
      0 ≤ f.metadata_block_id ∧
      12 + 4 * (f.block_ids.length : Int) + MAX_FILENAME_LENGTH ≤ w.fs.block_size ∧
      (f.metadata_block_id + 1) * w.fs.block_size ≤ w.disk.length) :
    ∃ w1, mini_fat_save MAX_FILENAME_LENGTH w = some (w1, true) ∧
      w1.fs = w.fs ∧ w1.file_heap = w.file_heap ∧ w1.handle_heap = w.handle_heap ∧
      w1.disk.length = w.disk.length ∧
      (∀ i : Nat, w1.disk[i]? ≠ w.disk[i]? →
        (i : Int) < w.fs.block_size ∨
        ∃ p ∈ w.fs.files, ∃ f, w.file_heap[p]? = some f ∧
          f.metadata_block_id * w.fs.block_size ≤ i ∧
          (i : Int) < (f.metadata_block_id + 1) * w.fs.block_size) ∧
      (w.fs.block_map[0]? = some METADATA_BLOCK →
        (∀ p ∈ w.fs.files, ∀ f, w.file_heap[p]? = some f →
          w.fs.block_map[f.metadata_block_id.toNat]? = some FILE_ENTRY_BLOCK) →
        ∀ b i : Nat, w.fs.block_map[b]? = some FILE_DATA_BLOCK →
          (b : Int) * w.fs.block_size ≤ i → (i : Int) < ((b : Int) + 1) * w.fs.block_size →
          w1.disk[i]? = w.disk[i]?) := by
  have hbs : (0 : Int) ≤ w.fs.block_size := by omega
  -- the record of a registered file lies inside its metadata block
  have hrec : ∀ p ∈ w.fs.files, ∀ f, w.file_heap[p]? = some f →
      0 ≤ f.metadata_block_id * w.fs.block_size ∧
      ((record_start w.fs.block_size f : Nat) : Int) = f.metadata_block_id * w.fs.block_size ∧
      (record_start w.fs.block_size f : Int) + record_length MAX_FILENAME_LENGTH f
        ≤ (f.metadata_block_id + 1) * w.fs.block_size ∧
      record_start w.fs.block_size f + record_length MAX_FILENAME_LENGTH f ≤ w.disk.length := by
    intro p hp f hf
    obtain ⟨hm, hfit, hin⟩ := hfiles p hp f hf
    have hmul : 0 ≤ f.metadata_block_id * w.fs.block_size := Int.mul_nonneg hm hbs
    have hexp : (f.metadata_block_id + 1) * w.fs.block_size
        = f.metadata_block_id * w.fs.block_size + w.fs.block_size := by ring
    have hstart : ((record_start w.fs.block_size f : Nat) : Int)
        = f.metadata_block_id * w.fs.block_size := by
      unfold record_start
      exact Int.toNat_of_nonneg hmul
    have hlen : ((record_length MAX_FILENAME_LENGTH f : Nat) : Int)
        = 12 + 4 * (f.block_ids.length : Int) + MAX_FILENAME_LENGTH := by
      unfold record_length
      push_cast
      ring
    refine ⟨hmul, hstart, by omega, by omega⟩
  obtain ⟨s4, hs4⟩ := save_files_total MAX_FILENAME_LENGTH w.file_heap w.fs.block_size
    w.fs.files
    (w.fs.block_map.foldl (fun s tag => fwrite_int s (Int.ofNat tag))
      (fwrite_int (fwrite_int { disk := w.disk, pos := 0 } w.fs.block_count) w.fs.block_size))
    hvalid
  have hsave : mini_fat_save MAX_FILENAME_LENGTH w = some ({ w with disk := s4.disk }, true) := by
    simp only [mini_fat_save, hs4]
  have hframe := save_frame MAX_FILENAME_LENGTH w _ true hsave (by omega)
    (fun p hp f hf => ⟨(hrec p hp f hf).1, (hrec p hp f hf).2.2.2⟩)
  have hchanged : ∀ i : Nat, s4.disk[i]? ≠ w.disk[i]? →
      (i : Int) < w.fs.block_size ∨
      ∃ p ∈ w.fs.files, ∃ f, w.file_heap[p]? = some f ∧
        f.metadata_block_id * w.fs.block_size ≤ i ∧
        (i : Int) < (f.metadata_block_id + 1) * w.fs.block_size := by
    intro i hne
    by_cases hi : (i : Int) < w.fs.block_size
    · exact Or.inl hi
    · right
      by_contra hnone
      apply hne
      apply hframe.2 i (by omega)
      intro p hp f hf
      by_contra hin
      apply hnone
      obtain ⟨_, hstart, hend, _⟩ := hrec p hp f hf
      exact ⟨p, hp, f, hf, by omega, by omega⟩
  refine ⟨_, hsave, rfl, rfl, rfl, hframe.1, hchanged, ?_⟩
  intro hzero hmeta b i hb hlo hhi
  by_contra hne
  rcases hchanged i hne with h0 | ⟨p, hp, f, hf, hlo2, hhi2⟩
  · -- a changed byte of block 0: then b = 0, which is tagged Metadata
    have hb0 : b = 0 := by
      by_contra hbn
      have h1 : (1 : Int) ≤ (b : Int) := by omega
      have h2 := Int.mul_le_mul_of_nonneg_right h1 hbs
      omega
    subst hb0
    rw [hzero] at hb
    exact absurd (Option.some.inj hb) (by decide)
  · -- a changed byte of a metadata block: then b is that block, tagged FileEntry
    obtain ⟨hm, _, _⟩ := hfiles p hp f hf
    have hbm : (b : Int) = f.metadata_block_id := by
      by_contra hbn
      rcases Int.lt_or_gt_of_ne hbn with hlt | hgt
      · have h1 : (b : Int) + 1 ≤ f.metadata_block_id := by omega
        have h2 := Int.mul_le_mul_of_nonneg_right h1 hbs
        omega
      · have h1 : f.metadata_block_id + 1 ≤ (b : Int) := by omega
        have h2 := Int.mul_le_mul_of_nonneg_right h1 hbs
        omega
    have htn : f.metadata_block_id.toNat = b := by omega
    have htag := hmeta p hp f hf
    rw [htn, hb] at htag
    exact absurd (Option.some.inj htag) (by decide)

/-- The save theorem at `roomy_world` with names of up to 4 bytes. -/
theorem save_keeps_file_data_witness :
    ∃ w1, mini_fat_save 4 roomy_world = some (w1, true) ∧
      w1.fs = roomy_world.fs ∧ w1.file_heap = roomy_world.file_heap ∧
      w1.handle_heap = roomy_world.handle_heap ∧
      w1.disk.length = roomy_world.disk.length ∧
      (∀ i : Nat, w1.disk[i]? ≠ roomy_world.disk[i]? →
        (i : Int) < roomy_world.fs.block_size ∨
        ∃ p ∈ roomy_world.fs.files, ∃ f, roomy_world.file_heap[p]? = some f ∧
          f.metadata_block_id * roomy_world.fs.block_size ≤ i ∧
          (i : Int) < (f.metadata_block_id + 1) * roomy_world.fs.block_size) ∧
      (roomy_world.fs.block_map[0]? = some METADATA_BLOCK →
        (∀ p ∈ roomy_world.fs.files, ∀ f, roomy_world.file_heap[p]? = some f →
          roomy_world.fs.block_map[f.metadata_block_id.toNat]? = some FILE_ENTRY_BLOCK) →
        ∀ b i : Nat, roomy_world.fs.block_map[b]? = some FILE_DATA_BLOCK →
          (b : Int) * roomy_world.fs.block_size ≤ i →
          (i : Int) < ((b : Int) + 1) * roomy_world.fs.block_size →
          w1.disk[i]? = roomy_world.disk[i]?) :=
  save_keeps_file_data 4 roomy_world (by decide) (by decide) (by decide)
    (by
      intro p hp f hf
      have hp0 : p = 0 := by simpa [roomy_world] using hp
      subst hp0
      have hf0 : f = roomy_file := by
        have : roomy_world.file_heap[0]? = some roomy_file := rfl
        rw [this] at hf
        exact (Option.some.inj hf).symm
      subst hf0
      decide)

/-- C15: in every state reached from a fresh filesystem by calls of the
interface, every registered file `f` has a positive `metadata_block_id`, the
block map tags that block FileEntry, the id is the first element of
`f.block_ids`, and no allocation made in that state, of whatever block type,
returns that id. -/
theorem metadata_block_reserved (MAX_FILENAME_LENGTH : Nat) (block_size block_count : Int)
    (calls : List Call) (w0 w : World)
    (hcreate : mini_fat_create block_size block_count = some w0)
    (hrun : run_calls MAX_FILENAME_LENGTH w0 calls = some w) :
    ∀ p ∈ w.fs.files, ∀ f, w.file_heap[p]? = some f →
      0 < f.metadata_block_id ∧
      w.fs.block_map[f.metadata_block_id.toNat]? = some FILE_ENTRY_BLOCK ∧
      f.block_ids.head? = some f.metadata_block_id ∧
      ∀ (block_type : Nat) (w1 : World) (r : Int),
        mini_fat_allocate_new_block w block_type = some (w1, r) →
        r ≠ f.metadata_block_id := by
  have hinv := tinv_run MAX_FILENAME_LENGTH calls w0 w hrun
    (tinv_create_fs block_size block_count w0 hcreate)
  intro p hp f hf
  have hc := table_chain w p f hf
  have hhead := hinv.chain_head p hp (view f) hc
  have hmeta := hinv.meta_tag p hp (view f) hc
  have hpos := (hinv.chain_tag p hp (view f) hc _ (mem_of_head _ _ hhead)).1
  refine ⟨hpos, hmeta, hhead, ?_⟩
  intro k w1 r halloc
  rcases allocate_zero w w1 k r halloc with ⟨hr, _⟩ | ⟨idx, hr, hz, _, _⟩
  · intro heq
    have h1 : (0 : Int) < f.metadata_block_id := hpos
    omega
  · intro heq
    have h1 : w.fs.block_map[f.metadata_block_id.toNat]? = some FILE_ENTRY_BLOCK := hmeta
    have htn : f.metadata_block_id.toNat = idx := by
      rw [← heq, hr]
      exact Int.toNat_ofNat idx
    rw [htn, hz] at h1
    exact absurd (Option.some.inj h1) (by decide)

/-- The metadata-block theorem for the file `a` after `sample_calls`. -/
theorem metadata_block_reserved_witness :
    mini_fat_create 16 4 = some fresh_world ∧
    run_calls 32 fresh_world sample_calls = some sample_run_world ∧
    (0 : Int) < sample_run_file.metadata_block_id ∧
    sample_run_world.fs.block_map[sample_run_file.metadata_block_id.toNat]? =
      some FILE_ENTRY_BLOCK ∧
    sample_run_file.block_ids.head? = some sample_run_file.metadata_block_id :=
  ⟨by decide, by decide,
   (metadata_block_reserved 32 16 4 sample_calls fresh_world sample_run_world
      (by decide) (by decide) 0 (by decide) sample_run_file rfl).1,
   (metadata_block_reserved 32 16 4 sample_calls fresh_world sample_run_world
      (by decide) (by decide) 0 (by decide) sample_run_file rfl).2.1,
   (metadata_block_reserved 32 16 4 sample_calls fresh_world sample_run_world
      (by decide) (by decide) 0 (by decide) sample_run_file rfl).2.2.1⟩

/-- C16: in every state reached from a filesystem fresh from `mini_fat_create`
by calls of the interface (the empty sequence included): block 0 is tagged
Metadata; the block map has `block_count` entries; every block id in the
chain of a registered file has a non-Empty entry; no id occurs twice in one
chain; and no id occurs in the chains of two different registered files. -/
theorem filesystem_invariant (MAX_FILENAME_LENGTH : Nat) (block_size block_count : Int)
    (calls : List Call) (w0 w : World)
    (hcreate : mini_fat_create block_size block_count = some w0)
    (hrun : run_calls MAX_FILENAME_LENGTH w0 calls = some w) :
    w.fs.block_map[0]? = some METADATA_BLOCK ∧
    (w.fs.block_map.length : Int) = w.fs.block_count ∧
    (∀ p ∈ w.fs.files, ∀ f, w.file_heap[p]? = some f → ∀ j ∈ f.block_ids,
      0 ≤ j ∧ ∃ tag, w.fs.block_map[j.toNat]? = some tag ∧ tag ≠ EMPTY_BLOCK) ∧
    (∀ p ∈ w.fs.files, ∀ f, w.file_heap[p]? = some f → f.block_ids.Nodup) ∧
    (∀ p ∈ w.fs.files, ∀ q ∈ w.fs.files, p ≠ q → ∀ f g,
      w.file_heap[p]? = some f → w.file_heap[q]? = some g →
      ∀ j ∈ f.block_ids, j ∉ g.block_ids) := by
  have hinv := tinv_run MAX_FILENAME_LENGTH calls w0 w hrun
    (tinv_create_fs block_size block_count w0 hcreate)
  have hrep := inv_run MAX_FILENAME_LENGTH calls w0 w hrun
    (inv_create block_size block_count w0 hcreate)
  have hzero : w.fs.block_map[0]? = some METADATA_BLOCK := hinv.block_zero
  refine ⟨hzero, ?_, ?_, ?_, ?_⟩
  · have hlen := hrep.map_length
    have hpos : 0 < w.fs.block_map.length := (List.getElem?_eq_some.mp hzero).1
    omega
  · intro p hp f hf j hj
    obtain ⟨hpos, tag, ht, hne⟩ := hinv.chain_tag p hp (view f) (table_chain w p f hf) j hj
    exact ⟨by omega, tag, ht, hne⟩
  · intro p hp f hf
    exact hinv.chain_nodup p hp (view f) (table_chain w p f hf)
  · intro p hp q hq hpq f g hf hg j hj
    exact hinv.chain_disjoint p hp q hq hpq (view f) (view g) (table_chain w p f hf)
      (table_chain w q g hg) j hj

/-- The filesystem invariant after `sample_calls`. -/
theorem filesystem_invariant_witness :
    mini_fat_create 16 4 = some fresh_world ∧
    run_calls 32 fresh_world sample_calls = some sample_run_world ∧
    sample_run_world.fs.block_map[0]? = some METADATA_BLOCK ∧
    (sample_run_world.fs.block_map.length : Int) = sample_run_world.fs.block_count :=
  ⟨by decide, by decide,
   (filesystem_invariant 32 16 4 sample_calls fresh_world sample_run_world
      (by decide) (by decide)).1,
   (filesystem_invariant 32 16 4 sample_calls fresh_world sample_run_world
      (by decide) (by decide)).2.1⟩

/-- C17: after one write of 40 bytes to a new file on 16-byte blocks the file
should have 3 data blocks and `size ≤ (len(block_ids) - 1) * block_size`; the
program returns 40, the size is 40 and the chain has 2 entries, one data
block: 40 exceeds the bound 16. -/
theorem write_forty_one_block : write_forty = some (40, 40, 2) := by decide

/-- C18 as stated fails: on a fresh filesystem, open `a` and write twice with
the length `INT_MAX`, no length being negative.  The second write moves the
handle to `INT_MAX` and then adds `INT_MAX` to the size `INT_MAX`, which as an
`int` is -2: the open handle 0 has a position above the size of its file. -/
theorem cursor_past_size :
    mini_fat_create 16 4 = some fresh_world ∧
    (∀ c ∈ overflow_calls, is_negative_write c = false) ∧
    run_calls 32 fresh_world overflow_calls = some overflow_world ∧
    overflow_world.handle_heap[0]? = some overflow_handle ∧
    overflow_world.file_heap[overflow_handle.file]? = some overflow_file ∧
    0 ∈ overflow_file.open_handles ∧
    overflow_handle.position = 2147483647 ∧ overflow_file.size = -2 ∧
    ¬ (overflow_handle.position ≤ overflow_file.size) := by decide

/-- C18, amended: in every state reached from a fresh filesystem by calls of
the interface in which every `mini_file_write` has a non-negative length and
finds a file whose size plus that length is at most `INT_MAX`, every allocated
handle, open or closed, has `0 ≤ position ≤ size` of its file, and that size
is at most `INT_MAX`. -/
theorem cursor_in_range (MAX_FILENAME_LENGTH : Nat) (block_size block_count : Int)
    (calls : List Call) (w0 w : World)
    (hcreate : mini_fat_create block_size block_count = some w0)
    (hcalls : run_in_range MAX_FILENAME_LENGTH w0 calls = true)
    (hrun : run_calls MAX_FILENAME_LENGTH w0 calls = some w) :
    ∀ (h : Nat) (o : FAT_OPEN_FILE) (f : FAT_FILE),
      w.handle_heap[h]? = some o → w.file_heap[o.file]? = some f →
      0 ≤ o.position ∧ o.position ≤ f.size ∧ f.size ≤ INT_MAX := by
  have hpos := pos_run MAX_FILENAME_LENGTH calls w0 w hcalls hrun
    (inv_create block_size block_count w0 hcreate)
    (pos_create_fs block_size block_count w0 hcreate)
  intro h o f ho hf
  exact ⟨(hpos.position_range o (List.getElem?_mem ho) f hf).1,
    (hpos.position_range o (List.getElem?_mem ho) f hf).2,
    hpos.size_le f (List.getElem?_mem hf)⟩

/-- The cursor theorem for handle 0 after `sample_calls`, at position 3 of the
5-byte file `a`. -/
theorem cursor_in_range_witness :
    mini_fat_create 16 4 = some fresh_world ∧
    run_in_range 32 fresh_world sample_calls = true ∧
    run_calls 32 fresh_world sample_calls = some sample_run_world ∧
    (0 : Int) ≤ 3 ∧ (3 : Int) ≤ sample_run_file.size ∧ sample_run_file.size ≤ INT_MAX :=
  ⟨by decide, by decide, by decide,
   cursor_in_range 32 16 4 sample_calls fresh_world sample_run_world
     (by decide) (by decide) (by decide) 0 { file := 0, position := 3, is_write := true }
     sample_run_file rfl rfl⟩

/-- C19: the 5 bytes written at position 0 of the new file `a`, whose data block
is block 2 of 16 bytes, should land at offsets 32 to 36 of the backing file;
they land at offsets 0 to 4, inside block 0, and block 2 stays zero. -/
theorem write_lands_at_position : write_location = some ([1, 2], [104, 101, 108, 108, 111], [0, 0, 0, 0, 0]) := by
  decide

/-- C20: on a block map of `block_count` entries, `mini_fat_find_empty_block`
returns a value `r`; `r = -1` exactly when no entry is Empty; otherwise `r` is
the least index of an Empty entry, below `block_count`.
`mini_fat_allocate_new_block` returns the same `r`: for `r = -1` it changes
nothing; otherwise it stores the block type at index `r` and leaves every
other entry of the block map, the file table, every file, every handle and
the disk unchanged. -/
theorem first_fit (w : World) (block_type : Nat)
    (hlen : w.fs.block_map.length = w.fs.block_count.toNat) :
    ∃ r, mini_fat_find_empty_block w.fs = some r ∧
      (r = -1 ↔ EMPTY_BLOCK ∉ w.fs.block_map) ∧
      (r ≠ -1 → 0 ≤ r ∧ r < w.fs.block_count ∧
        w.fs.block_map[r.toNat]? = some EMPTY_BLOCK ∧
        ∀ j : Nat, j < r.toNat → w.fs.block_map[j]? ≠ some EMPTY_BLOCK) ∧
      (r = -1 → mini_fat_allocate_new_block w block_type = some (w, -1)) ∧
      (r ≠ -1 → ∃ w1, mini_fat_allocate_new_block w block_type = some (w1, r) ∧
        w1.fs.block_map[r.toNat]? = some block_type ∧
        (∀ n : Nat, n ≠ r.toNat → w1.fs.block_map[n]? = w.fs.block_map[n]?) ∧
        w1.fs.block_map.length = w.fs.block_map.length ∧
        w1.fs.block_size = w.fs.block_size ∧ w1.fs.block_count = w.fs.block_count ∧
        w1.fs.files = w.fs.files ∧ w1.file_heap = w.file_heap ∧
        w1.handle_heap = w.handle_heap ∧ w1.disk = w.disk) := by
  by_cases hmem : 0 ∈ w.fs.block_map
  · obtain ⟨idx, hz, hbefore⟩ := exists_first_zero _ hmem
    have hidx : idx < w.fs.block_map.length := (List.getElem?_eq_some.mp hz).1
    have hfind : mini_fat_find_empty_block w.fs = some (Int.ofNat idx) := by
      unfold mini_fat_find_empty_block
      exact find_empty_loop_first _ _ 0 idx (Nat.zero_le _) (by omega) hz
        (fun j _ h2 => hbefore j h2)
    have hnn : (0 : Int) ≤ Int.ofNat idx := Int.ofNat_nonneg idx
    have hne : (Int.ofNat idx) ≠ -1 := by omega
    have htn : (Int.ofNat idx).toNat = idx := by simp
    refine ⟨Int.ofNat idx, hfind, ?_, ?_, ?_, ?_⟩
    · exact ⟨fun h => absurd h hne, fun h => absurd hmem h⟩
    · intro _
      refine ⟨hnn, ?_, by rw [htn]; exact hz, ?_⟩
      · have : (Int.ofNat idx) = (idx : Int) := rfl
        omega
      · intro j hj hzj
        rw [htn] at hj
        obtain ⟨t, ht, htne⟩ := hbefore j hj
        rw [ht] at hzj
        exact htne (Option.some.inj hzj)
    · intro h; exact absurd h hne
    · intro _
      refine ⟨_, allocate_first w block_type idx hlen hz hbefore, ?_, ?_, ?_, rfl, rfl, rfl,
        rfl, rfl, rfl⟩
      · rw [htn]; simp [hidx]
      · intro n hn
        rw [htn] at hn
        exact List.getElem?_set_ne (Ne.symm hn)
      · simp
  · have hfind : mini_fat_find_empty_block w.fs = some (-1) := by
      unfold mini_fat_find_empty_block
      apply find_empty_loop_full
      · omega
      · intro j _ _ hj
        exact hmem (List.getElem?_mem hj)
    refine ⟨-1, hfind, ?_, ?_, ?_, ?_⟩
    · exact ⟨fun _ => hmem, fun _ => rfl⟩
    · intro h; exact absurd rfl h
    · intro _; exact allocate_full w block_type hlen hmem
    · intro h; exact absurd rfl h

/-- The first-fit theorem at `fresh_world`. -/
theorem first_fit_witness :
    ∃ r, mini_fat_find_empty_block fresh_world.fs = some r ∧
      (r = -1 ↔ EMPTY_BLOCK ∉ fresh_world.fs.block_map) ∧
      (r ≠ -1 → 0 ≤ r ∧ r < fresh_world.fs.block_count ∧
        fresh_world.fs.block_map[r.toNat]? = some EMPTY_BLOCK ∧
        ∀ j : Nat, j < r.toNat → fresh_world.fs.block_map[j]? ≠ some EMPTY_BLOCK) ∧
      (r = -1 → mini_fat_allocate_new_block fresh_world FILE_DATA_BLOCK =
        some (fresh_world, -1)) ∧
      (r ≠ -1 → ∃ w1, mini_fat_allocate_new_block fresh_world FILE_DATA_BLOCK = some (w1, r) ∧
        w1.fs.block_map[r.toNat]? = some FILE_DATA_BLOCK ∧
        (∀ n : Nat, n ≠ r.toNat → w1.fs.block_map[n]? = fresh_world.fs.block_map[n]?) ∧
        w1.fs.block_map.length = fresh_world.fs.block_map.length ∧
        w1.fs.block_size = fresh_world.fs.block_size ∧
        w1.fs.block_count = fresh_world.fs.block_count ∧
        w1.fs.files = fresh_world.fs.files ∧ w1.file_heap = fresh_world.file_heap ∧
        w1.handle_heap = fresh_world.handle_heap ∧ w1.disk = fresh_world.disk) :=
  first_fit fresh_world FILE_DATA_BLOCK (by decide)

end MiniFat
